import Mathlib

/-!
# Cache simulation (`Code/cacheSimu.cpp`): embedding and verified properties

The C++ program simulates a split L1 cache (instruction / data) with LRU
replacement.  This file embeds `CacheLine`, `CacheStats`, `Cache` (constructor,
`access`, `evict`, `clearCache`, `updateLRU`, `findLRUIndex`) and the opcode
switch of `processTrace`, and proves properties of them.

Conventions of the embedding:
* `unsigned int` values are `Nat`s below `2 ^ 32`; every unsigned operation that
  can wrap is reduced `% 2 ^ 32` explicitly.
* The `int` fields `numSets`, `associativity`, `blockSize` are `Nat`s (the
  constructor builds vectors of these sizes, so they are non-negative).
* The `int` counters (`lru`, `reads`, `writes`, `hits`, `misses`) are unbounded
  `Int`s in `access`, `updateLRU` and the definitions built on them, and every
  expression has a value there (a division by zero gives 0, an index outside a vector
  reads a default line).
* `access32`, `evict32`, `updateLRU32` and the definitions built on them follow the
  same source lines with 32-bit counters (`wrapInt32`) and return `none` where the
  program divides by zero or indexes a vector outside its bounds.
* `vector<CacheLine>` is `List CacheLine`; the loops `for (i = 0; i < associativity; ++i)`
  run over the indices `0 .. associativity - 1` and read `set[i]`.
-/

namespace CacheSimu

/-- Modulus of `unsigned int` arithmetic. -/
def wordSize : Nat := 2 ^ 32

/-- The `struct CacheLine` with its default member initialisers (`tag = -1` is
`0xFFFFFFFF` as an `unsigned int`). -/
structure CacheLine where
  valid : Bool := false
  dirty : Bool := false
  tag : Nat := 2 ^ 32 - 1
  offset : Nat := 0
  lru : Int := 0
deriving DecidableEq, Repr

instance : Inhabited CacheLine := ⟨{}⟩

/-- The `struct CacheStats` (all counters start at zero). -/
structure CacheStats where
  reads : Int := 0
  writes : Int := 0
  hits : Int := 0
  misses : Int := 0
deriving DecidableEq, Repr

/-- The `class Cache`: geometry, write policy, the sets and the statistics. -/
structure Cache where
  numSets : Nat
  associativity : Nat
  blockSize : Nat
  isWriteThrough : Bool
  sets : List (List CacheLine)
  stats : CacheStats
deriving DecidableEq, Repr

/-- Constructor `Cache(sets, assoc, blockSize, writeThrough)`: `numSets` sets of
`associativity` default-initialised lines, statistics zero. -/
def Cache.new (sets assoc blockSize : Nat) (writeThrough : Bool) : Cache :=
  { numSets := sets, associativity := assoc, blockSize := blockSize,
    isWriteThrough := writeThrough,
    sets := List.replicate sets (List.replicate assoc default),
    stats := {} }

/-- Indexing `set[i]` on a `vector<CacheLine>`. -/
def lineAt (set : List CacheLine) (i : Nat) : CacheLine := set.getD i default

/-- Indexing `sets[setIndex]`. -/
def Cache.setAt (c : Cache) (setIndex : Nat) : List CacheLine := c.sets.getD setIndex []

/-- Set index `(address / blockSize) % numSets` (lines 84 and 120). -/
def Cache.setIndexOf (c : Cache) (address : Nat) : Nat :=
  (address / c.blockSize) % c.numSets

/-- The divisor `blockSize * numSets` of the tag computation, converted to
`unsigned int` for the division by the unsigned address.  The product is an `int`
product in the source; the model takes its value modulo `2 ^ 32`, which is the exact
product whenever that is representable. -/
def Cache.tagDivisor (c : Cache) : Nat := (c.blockSize * c.numSets) % wordSize

/-- Tag `address / (blockSize * numSets)` (lines 85 and 121). -/
def Cache.tagOf (c : Cache) (address : Nat) : Nat := address / c.tagDivisor

/-- Byte offset `address % blockSize` (line 86). -/
def Cache.offsetOf (c : Cache) (address : Nat) : Nat := address % c.blockSize

/-- The write-back address of line 108,
`(tag * numSets + setIndex) * blockSize + offset` in `unsigned int` arithmetic. -/
def Cache.rebuildAddress (c : Cache) (tag setIndex offset : Nat) : Nat :=
  ((tag * c.numSets + setIndex) * c.blockSize + offset) % wordSize

/-- The search loop shared by `access` (lines 90-98) and `evict` (lines 124-131):
the first `i < associativity` with `set[i].valid && set[i].tag == tag`. -/
def findWay (assoc : Nat) (set : List CacheLine) (tag : Nat) : Option Nat :=
  (List.range assoc).find? (fun i => (lineAt set i).valid && (lineAt set i).tag == tag)

/-- Body of the loop of `updateLRU` at index `i`. -/
def bumpLine (accessedIndex : Nat) (set : List CacheLine) (i : Nat) : List CacheLine :=
  if i ≠ accessedIndex ∧ (lineAt set i).valid = true then
    set.set i { lineAt set i with lru := (lineAt set i).lru + 1 }
  else set

/-- Method `Cache::updateLRU`: every other valid line ages by one, the accessed line
gets `lru = 0`. -/
def updateLRU (assoc : Nat) (set : List CacheLine) (accessedIndex : Nat) : List CacheLine :=
  let aged := (List.range assoc).foldl (bumpLine accessedIndex) set
  aged.set accessedIndex { lineAt aged accessedIndex with lru := 0 }

/-- The loop of `Cache::findLRUIndex` from index `i` with `n` iterations left. -/
def findLRULoop (set : List CacheLine) : Nat → Nat → Int → Nat → Nat
  | 0, _, _, lruIndex => lruIndex
  | n + 1, i, maxLRU, lruIndex =>
    if (lineAt set i).valid = false then i
    else if (lineAt set i).lru > maxLRU then findLRULoop set n (i + 1) (lineAt set i).lru i
    else findLRULoop set n (i + 1) maxLRU lruIndex

/-- Method `Cache::findLRUIndex`: `maxLRU = -1`, `lruIndex = 0`, scan `0 .. associativity - 1`. -/
def findLRUIndex (assoc : Nat) (set : List CacheLine) : Nat :=
  findLRULoop set assoc 0 (-1) 0

/-- What `access` returns: the `bool` result and the effect on the two reference
parameters (`some ea`: `writeBack = true; evictedAddress = ea` were executed,
`none`: both were left untouched). -/
structure AccessResult where
  hit : Bool
  writeBack : Option Nat
deriving DecidableEq, Repr

/-- Statistics update of lines 81-82. -/
def CacheStats.countAccess (s : CacheStats) (isWrite : Bool) : CacheStats :=
  if isWrite then { s with writes := s.writes + 1 } else { s with reads := s.reads + 1 }

/-- Method `Cache::access` (lines 80-116). -/
def Cache.access (c : Cache) (address : Nat) (isWrite : Bool) : Cache × AccessResult :=
  let stats := c.stats.countAccess isWrite
  let setIndex := c.setIndexOf address
  let tag := c.tagOf address
  let offset := c.offsetOf address
  let set := c.setAt setIndex
  match findWay c.associativity set tag with
  | some i =>
    let stats := { stats with hits := stats.hits + 1 }
    let set := if isWrite && !c.isWriteThrough then
        set.set i { lineAt set i with dirty := true } else set
    let set := updateLRU c.associativity set i
    ({ c with sets := c.sets.set setIndex set, stats := stats },
      { hit := true, writeBack := none })
  | none =>
    let stats := { stats with misses := stats.misses + 1 }
    let evictIndex := findLRUIndex c.associativity set
    let victim := lineAt set evictIndex
    let writeBack :=
      if victim.valid && (victim.dirty && !c.isWriteThrough) then
        some (c.rebuildAddress victim.tag setIndex offset)
      else none
    let set := set.set evictIndex
      { valid := true, dirty := isWrite && !c.isWriteThrough, tag := tag,
        offset := offset, lru := 0 }
    let set := updateLRU c.associativity set evictIndex
    ({ c with sets := c.sets.set setIndex set, stats := stats },
      { hit := false, writeBack := writeBack })

/-- Method `Cache::evict` (the state change; the message it prints is `evictNotice`). -/
def Cache.evict (c : Cache) (address : Nat) : Cache :=
  let setIndex := c.setIndexOf address
  let tag := c.tagOf address
  let set := c.setAt setIndex
  match findWay c.associativity set tag with
  | some i =>
    let set := set.set i { lineAt set i with valid := false, dirty := false }
    { c with sets := c.sets.set setIndex set }
  | none => c

/-- Method `Cache::clearCache`: every line becomes `{false, false, 0, 0}` (the omitted
`lru` takes its default `0`), the statistics become `{0, 0, 0, 0}`. -/
def Cache.clearCache (c : Cache) : Cache :=
  { c with
    sets := c.sets.map (fun set => set.map (fun _ =>
      { valid := false, dirty := false, tag := 0, offset := 0, lru := 0 })),
    stats := { reads := 0, writes := 0, hits := 0, misses := 0 } }

/-! ## Sequences of operations on one cache -/

/-- One call on a `Cache` object. -/
inductive Op where
  | access (address : Nat) (isWrite : Bool)
  | evict (address : Nat)
  | clearCache
deriving DecidableEq, Repr

/-- Perform one call; an `access` also yields its result. -/
def Cache.step (c : Cache) : Op → Cache × Option AccessResult
  | Op.access address isWrite => ((c.access address isWrite).1, some (c.access address isWrite).2)
  | Op.evict address => (c.evict address, none)
  | Op.clearCache => (c.clearCache, none)

/-- Final state after a sequence of calls. -/
def Cache.exec (c : Cache) : List Op → Cache
  | [] => c
  | op :: ops => Cache.exec (c.step op).1 ops

/-- Results of the calls of a sequence, in order (`none` for `evict` and `clearCache`). -/
def Cache.results (c : Cache) : List Op → List (Option AccessResult)
  | [] => []
  | op :: ops => (c.step op).2 :: Cache.results (c.step op).1 ops

/-- The block a miss would replace: the tag of the victim line when that line is
valid (lines 104-105), nothing on a hit or when the victim slot is free. -/
def Cache.replacedTag (c : Cache) (address : Nat) : Option Nat :=
  let set := c.setAt (c.setIndexOf address)
  match findWay c.associativity set (c.tagOf address) with
  | some _ => none
  | none =>
    let victim := lineAt set (findLRUIndex c.associativity set)
    if victim.valid then some victim.tag else none

/-- Hit flag and replaced block of every access of a sequence, in order. -/
def Cache.decisions (c : Cache) : List Op → List (Bool × Option Nat)
  | [] => []
  | Op.access address isWrite :: ops =>
    ((c.access address isWrite).2.hit, c.replacedTag address) ::
      Cache.decisions (c.access address isWrite).1 ops
  | op :: ops => Cache.decisions (c.step op).1 ops

/-! ## Reference true-LRU cache (written from the specification) -/

/-- Reference set: the tags of the blocks it holds, most recently used first. -/
abbrev RefSet := List Nat

/-- Reference access to one set: a hit moves the block to the front; a miss
fills a free slot when the set is not full and otherwise replaces the block whose
last access is oldest (the last of the list).  Returns the new set, the hit flag
and the replaced block. -/
def RefSet.access (assoc : Nat) (blocks : RefSet) (b : Nat) : RefSet × Bool × Option Nat :=
  if b ∈ blocks then (b :: blocks.erase b, true, none)
  else if blocks.length < assoc then (b :: blocks, false, none)
  else (b :: blocks.dropLast, false, blocks.getLast?)

/-- Reference decoder, set index (section 4.1 of the specification):
`setIndex = (address / blockSize) mod numSets`. -/
def refSetIndex (numSets blockSize address : Nat) : Nat := (address / blockSize) % numSets

/-- Reference decoder, tag (section 4.1 of the specification):
`tag = address / (blockSize * numSets)`, in exact arithmetic. -/
def refTag (numSets blockSize address : Nat) : Nat := address / (blockSize * numSets)

/-- Reference cache: one reference set per set index. -/
structure RefCache where
  sets : List RefSet
deriving DecidableEq, Repr

/-- Freshly constructed reference cache: `numSets` empty sets. -/
def RefCache.new (numSets : Nat) : RefCache := { sets := List.replicate numSets [] }

/-- Reference access to the block with tag `t` of set `s`. -/
def RefCache.accessAt (assoc : Nat) (r : RefCache) (s t : Nat) :
    RefCache × Bool × Option Nat :=
  let out := RefSet.access assoc (r.sets.getD s []) t
  ({ sets := r.sets.set s out.1 }, out.2)

/-- Reference evict of the block with tag `t` of set `s`: remove it from its set. -/
def RefCache.evictAt (r : RefCache) (s t : Nat) : RefCache :=
  { sets := r.sets.set s ((r.sets.getD s []).erase t) }

/-- Reference access to an address, decoded by the formulas of the specification. -/
def RefCache.access (numSets assoc blockSize : Nat) (r : RefCache) (address : Nat) :
    RefCache × Bool × Option Nat :=
  RefCache.accessAt assoc r (refSetIndex numSets blockSize address)
    (refTag numSets blockSize address)

/-- Reference evict of an address, decoded by the formulas of the specification. -/
def RefCache.evict (numSets blockSize : Nat) (r : RefCache) (address : Nat) : RefCache :=
  RefCache.evictAt r (refSetIndex numSets blockSize address) (refTag numSets blockSize address)

/-- Reference clearCache: empty every set. -/
def RefCache.clearCache (r : RefCache) : RefCache := { sets := r.sets.map (fun _ => []) }

/-- One call on the reference cache. -/
def RefCache.step (numSets assoc blockSize : Nat) (r : RefCache) : Op → RefCache
  | Op.access address _ => (RefCache.access numSets assoc blockSize r address).1
  | Op.evict address => RefCache.evict numSets blockSize r address
  | Op.clearCache => r.clearCache

/-- State of the reference cache after a sequence of calls. -/
def RefCache.exec (numSets assoc blockSize : Nat) (r : RefCache) : List Op → RefCache
  | [] => r
  | op :: ops =>
    RefCache.exec numSets assoc blockSize (RefCache.step numSets assoc blockSize r op) ops

/-- Hit flag and replaced block of every access of a sequence on the reference. -/
def RefCache.decisions (numSets assoc blockSize : Nat) (r : RefCache) :
    List Op → List (Bool × Option Nat)
  | [] => []
  | Op.access address isWrite :: ops =>
    (RefCache.access numSets assoc blockSize r address).2 ::
      RefCache.decisions numSets assoc blockSize
        (RefCache.step numSets assoc blockSize r (Op.access address isWrite)) ops
  | op :: ops =>
    RefCache.decisions numSets assoc blockSize (RefCache.step numSets assoc blockSize r op) ops

/-! ## The opcode switch of `processTrace` -/

/-- Lines written to `cout` / the output file, as structured events. -/
inductive Msg where
  /-- Case 0: "DataCache: Read from L2 0x.." with "[Read-hit]" / "[Read-miss]". -/
  | dataRead (address : Nat) (hit : Bool)
  /-- Case 0: "DataCache: Write to L2 0x..". -/
  | dataWriteToL2 (evictedAddress : Nat)
  /-- Case 1: "DataCache: Read for Ownership from L2 [Write-back] 0x.." with
  "[Write-hit]" / "[Write-miss]". -/
  | dataReadForOwnership (address : Nat) (hit : Bool)
  /-- Case 1: "DataCache: Write to L2 0x.." followed by "[Evict]". -/
  | dataWriteToL2Evict (evictedAddress : Nat)
  /-- Case 2: "InstructionCache: Read from L2 0x.." with "[Read-hit]" / "[Read-miss]". -/
  | instrRead (address : Nat) (hit : Bool)
  /-- Case 3: "Evict from L2 0x..". -/
  | evictFromL2 (address : Nat)
  /-- Printed by `Cache::evict`: "Invalidate L1 line: Set .., Way .., Tag 0x..". -/
  | invalidateL1 (setIndex way tag : Nat)
  /-- Case 8: "Cache cleared and statistics reset.". -/
  | cleared
  /-- Case 9: state and statistics of both caches. -/
  | report (instructionCache dataCache : Cache)
  /-- Default case: "Invalid operation: ..". -/
  | invalidOperation (operation : Int)
deriving DecidableEq, Repr

/-- The line `Cache::evict` prints when it finds the block (line 126). -/
def Cache.evictNotice (c : Cache) (address : Nat) : List Msg :=
  match findWay c.associativity (c.setAt (c.setIndexOf address)) (c.tagOf address) with
  | some i => [Msg.invalidateL1 (c.setIndexOf address) i
      (lineAt (c.setAt (c.setIndexOf address)) i).tag]
  | none => []

/-- State of one iteration of the `while (getline ...)` loop after its `switch`:
the two caches, the result of the `access` call (if one was made) and the output. -/
structure LineOutcome where
  instructionCache : Cache
  dataCache : Cache
  decision : Option AccessResult
  output : List Msg
deriving DecidableEq, Repr

/-- Output guarded by `if (mode > 0) { ... }`. -/
def whenVerbose (mode : Nat) (msgs : List Msg) : List Msg := if mode > 0 then msgs else []

/-- The write-back report of cases 0 and 1: `if (writeBack) { if (mode > 0) ... }`. -/
def reportWriteBack (mode : Nat) (mk : Nat → Msg) (r : AccessResult) : List Msg :=
  match r.writeBack with
  | some ea => whenVerbose mode [mk ea]
  | none => []

/-- One iteration of the loop of `processTrace`: the `switch (operation)`. -/
def processLine (mode : Nat) (instructionCache dataCache : Cache) (operation : Int)
    (address : Nat) : LineOutcome :=
  if operation = 0 then
    let r := dataCache.access address false
    { instructionCache := instructionCache, dataCache := r.1, decision := some r.2,
      output := whenVerbose mode [Msg.dataRead address r.2.hit] ++
        reportWriteBack mode Msg.dataWriteToL2 r.2 }
  else if operation = 1 then
    let r := dataCache.access address true
    { instructionCache := instructionCache, dataCache := r.1, decision := some r.2,
      output := whenVerbose mode [Msg.dataReadForOwnership address r.2.hit] ++
        reportWriteBack mode Msg.dataWriteToL2Evict r.2 }
  else if operation = 2 then
    let r := instructionCache.access address false
    { instructionCache := r.1, dataCache := dataCache, decision := some r.2,
      output := whenVerbose mode [Msg.instrRead address r.2.hit] }
  else if operation = 3 then
    if mode > 0 then
      { instructionCache := instructionCache.evict address,
        dataCache := dataCache.evict address, decision := none,
        output := [Msg.evictFromL2 address] ++ dataCache.evictNotice address ++
          instructionCache.evictNotice address }
    else
      { instructionCache := instructionCache, dataCache := dataCache, decision := none,
        output := [] }
  else if operation = 8 then
    { instructionCache := instructionCache.clearCache, dataCache := dataCache.clearCache,
      decision := none, output := [Msg.cleared] }
  else if operation = 9 then
    { instructionCache := instructionCache, dataCache := dataCache, decision := none,
      output := [Msg.report instructionCache dataCache] }
  else
    { instructionCache := instructionCache, dataCache := dataCache, decision := none,
      output := [Msg.invalidOperation operation] }

/-- Result of `processTrace` on a whole trace: final caches, the decisions of
the events in order, and the output. -/
structure TraceOutcome where
  instructionCache : Cache
  dataCache : Cache
  decisions : List (Option AccessResult)
  output : List Msg
deriving DecidableEq, Repr

/-- The `while (getline ...)` loop of `processTrace` over the parsed lines
`(operation, address)`. -/
def processTrace (mode : Nat) (instructionCache dataCache : Cache) :
    List (Int × Nat) → TraceOutcome
  | [] => { instructionCache := instructionCache, dataCache := dataCache,
            decisions := [], output := [] }
  | (operation, address) :: rest =>
    let o := processLine mode instructionCache dataCache operation address
    let t := processTrace mode o.instructionCache o.dataCache rest
    { t with decisions := o.decision :: t.decisions, output := o.output ++ t.output }

/-! ## State predicates -/

/-- The vectors have the sizes the constructor gave them: `numSets` sets of
`associativity` lines (no operation resizes them). -/
def Cache.WellFormed (c : Cache) : Prop :=
  c.sets.length = c.numSets ∧ ∀ s ∈ c.sets, s.length = c.associativity

instance (c : Cache) : Decidable c.WellFormed := by
  unfold Cache.WellFormed
  exact inferInstance

/-- No set contains two distinct valid lines with the same tag. -/
def Cache.UniqueTags (c : Cache) : Prop :=
  ∀ k i j, (lineAt (c.setAt k) i).valid = true → (lineAt (c.setAt k) j).valid = true →
    (lineAt (c.setAt k) i).tag = (lineAt (c.setAt k) j).tag → i = j

/-- Number of valid lines of a set. -/
def validCount (set : List CacheLine) : Nat := set.countP (fun l => l.valid)

/-- The victim line `set[evictIndex]` (lines 104-105) that a miss on `address`
would replace, as it is before the access. -/
def Cache.victim (c : Cache) (address : Nat) : CacheLine :=
  lineAt (c.setAt (c.setIndexOf address))
    (findLRUIndex c.associativity (c.setAt (c.setIndexOf address)))

/-- States reached from a freshly constructed cache by a finite sequence of
`access`, `evict` and `clearCache` calls. -/
def Cache.Reachable (c : Cache) : Prop :=
  ∃ (numSets assoc blockSize : Nat) (wt : Bool) (ops : List Op),
    c = (Cache.new numSets assoc blockSize wt).exec ops

/-- The ways listed in `p` are exactly the valid ways of the set, in strictly
increasing order of their recency counters (most recently used first); the
counters are non-negative and the tags of the listed ways are distinct. -/
def LRUOrder (assoc : Nat) (set : List CacheLine) (p : List Nat) : Prop :=
  (∀ i, i ∈ p ↔ i < assoc ∧ (lineAt set i).valid = true) ∧
  p.Pairwise (fun i j => (lineAt set i).lru < (lineAt set j).lru) ∧
  (∀ i ∈ p, 0 ≤ (lineAt set i).lru) ∧
  (p.map (fun i => (lineAt set i).tag)).Nodup

/-- Simulation relation between the cache and the reference true-LRU cache: every
set of the reference lists the tags of the valid ways of the corresponding set of
the cache in the order of their recency counters. -/
def Refines (c : Cache) (r : RefCache) : Prop :=
  c.WellFormed ∧ r.sets.length = c.sets.length ∧
  ∀ k, k < c.sets.length →
    ∃ p, LRUOrder c.associativity (c.setAt k) p ∧
      r.sets.getD k [] = p.map (fun i => (lineAt (c.setAt k) i).tag)

/-- The address argument of a call is an `unsigned int`. -/
def Op.InRange : Op → Prop
  | Op.access address _ => address < wordSize
  | Op.evict address => address < wordSize
  | Op.clearCache => True

/-- Every valid line carries the tag of some 32-bit address that maps to its set. -/
def Cache.TagsFromAddresses (c : Cache) : Prop :=
  ∀ k j, (lineAt (c.setAt k) j).valid = true →
    ∃ a, a < wordSize ∧ c.setIndexOf a = k ∧ c.tagOf a = (lineAt (c.setAt k) j).tag

/-- The opcodes with a `case` of their own in the `switch` of `processTrace`. -/
def knownOpcode (operation : Int) : Bool :=
  operation = 0 || operation = 1 || operation = 2 || operation = 3 || operation = 8 ||
    operation = 9

/-- The outcomes of the iterations of the loop of `processTrace`, one per trace line. -/
def traceOutcomes (mode : Nat) (instructionCache dataCache : Cache) :
    List (Int × Nat) → List LineOutcome
  | [] => []
  | (operation, address) :: rest =>
    processLine mode instructionCache dataCache operation address ::
      traceOutcomes mode
        (processLine mode instructionCache dataCache operation address).instructionCache
        (processLine mode instructionCache dataCache operation address).dataCache rest

/-- No line of the cache is dirty. -/
def Cache.AllClean (c : Cache) : Prop :=
  ∀ k j, (lineAt (c.setAt k) j).dirty = false

/-- The way `access` passes to `updateLRU`: the hit way, or the victim on a miss. -/
def Cache.touchedWay (c : Cache) (address : Nat) : Nat :=
  match findWay c.associativity (c.setAt (c.setIndexOf address)) (c.tagOf address) with
  | some i => i
  | none => findLRUIndex c.associativity (c.setAt (c.setIndexOf address))

/-- History counter for way `i` of set `k` along a sequence of calls started in
state `c`: the number of accesses to set `k` since the last access that hit way `i`
or inserted a block into it (`none` while the way has never been touched; `acc` is
the value before the sequence). -/
def accessesSinceTouch (k i : Nat) : Cache → List Op → Option Nat → Option Nat
  | _, [], acc => acc
  | c, Op.access a w :: ops, acc =>
    accessesSinceTouch k i (c.access a w).1 ops
      (if c.setIndexOf a = k then
        (if c.touchedWay a = i then some 0 else acc.map (fun n => n + 1))
      else acc)
  | c, Op.evict a :: ops, acc => accessesSinceTouch k i (c.evict a) ops acc
  | c, Op.clearCache :: ops, acc => accessesSinceTouch k i c.clearCache ops acc

/-- The valid lines of every set have pairwise distinct, non-negative recency
counters. -/
def Cache.DistinctCounters (c : Cache) : Prop :=
  (∀ k i j, (lineAt (c.setAt k) i).valid = true → (lineAt (c.setAt k) j).valid = true →
    (lineAt (c.setAt k) i).lru = (lineAt (c.setAt k) j).lru → i = j) ∧
  (∀ k i, (lineAt (c.setAt k) i).valid = true → 0 ≤ (lineAt (c.setAt k) i).lru)

/-- History flag for the block with tag `t` of set `k` along a sequence of calls
started in state `c`: whether a write access to that block has occurred since, and
including, the last miss on it (the miss that inserted it); `none` while no access
to the block has missed, `acc` is the value before the sequence. -/
def writtenSinceInsert (k t : Nat) : Cache → List Op → Option Bool → Option Bool
  | _, [], acc => acc
  | c, Op.access a w :: ops, acc =>
    writtenSinceInsert k t (c.access a w).1 ops
      (if c.setIndexOf a = k ∧ c.tagOf a = t then
        (if (c.access a w).2.hit = true then acc.map (fun b => b || w) else some w)
      else acc)
  | c, Op.evict a :: ops, acc => writtenSinceInsert k t (c.evict a) ops acc
  | c, Op.clearCache :: ops, acc => writtenSinceInsert k t c.clearCache ops acc

/-- The call `op`, made in state `c`, does not remove the line with tag `t` held in
way `i` of set `k`: it is no `clearCache`, no `evict` of that set and tag, and no
miss in that set whose victim is way `i`. -/
def Cache.keepsLine (c : Cache) (k i t : Nat) : Op → Prop
  | Op.access b w =>
    ¬ ((c.access b w).2.hit = false ∧ c.setIndexOf b = k ∧
        findLRUIndex c.associativity (c.setAt k) = i)
  | Op.evict b => ¬ (c.setIndexOf b = k ∧ c.tagOf b = t)
  | Op.clearCache => False

instance (c : Cache) (k i t : Nat) (op : Op) : Decidable (c.keepsLine k i t op) := by
  cases op <;> unfold Cache.keepsLine <;> exact inferInstance

/-- No call of the sequence, made from state `c` on, removes the line with tag `t`
held in way `i` of set `k`. -/
def Cache.keepsLineAlong (c : Cache) (k i t : Nat) : List Op → Prop
  | [] => True
  | op :: ops => c.keepsLine k i t op ∧ Cache.keepsLineAlong (c.step op).1 k i t ops

instance Cache.decKeepsLineAlong (k i t : Nat) :
    (ops : List Op) → (c : Cache) → Decidable (c.keepsLineAlong k i t ops)
  | [], _ => isTrue trivial
  | op :: ops, c =>
    match Cache.decKeepsLineAlong k i t ops (c.step op).1 with
    | isTrue h2 =>
      if h1 : c.keepsLine k i t op then isTrue ⟨h1, h2⟩ else isFalse (fun h => h1 h.1)
    | isFalse h2 => isFalse (fun h => h2 h.2)

/-! ## The operations with 32-bit `int` counters and run-time faults

The definitions above keep the counters (`lru` and the statistics) as unbounded
integers and give a value to every expression.  The definitions of this section follow
the same source lines on the machine: every `++` on an `int` is reduced to 32 bits,
and a call that divides by zero or indexes a vector outside its bounds has no result. -/

/-- Value stored in an `int` for the arithmetic result `x`: the two's-complement
reduction of `x` into the interval from `-2 ^ 31` to `2 ^ 31 - 1`.  It is `x` itself
whenever `x` lies in that interval; beyond it the C++ standard leaves `++` on an `int`
undefined and the compiled program wraps around. -/
def wrapInt32 (x : Int) : Int := (x + 2 ^ 31) % 2 ^ 32 - 2 ^ 31

/-- Body of the loop of `updateLRU` at index `i`, with `set[i].lru++` on an `int`. -/
def bumpLine32 (accessedIndex : Nat) (set : List CacheLine) (i : Nat) : List CacheLine :=
  if i ≠ accessedIndex ∧ (lineAt set i).valid = true then
    set.set i { lineAt set i with lru := wrapInt32 ((lineAt set i).lru + 1) }
  else set

/-- Method `Cache::updateLRU` with 32-bit counters. -/
def updateLRU32 (assoc : Nat) (set : List CacheLine) (accessedIndex : Nat) : List CacheLine :=
  let aged := (List.range assoc).foldl (bumpLine32 accessedIndex) set
  aged.set accessedIndex { lineAt aged accessedIndex with lru := 0 }

/-- Statistics update of lines 81-82 with 32-bit counters. -/
def CacheStats.countAccess32 (s : CacheStats) (isWrite : Bool) : CacheStats :=
  if isWrite then { s with writes := wrapInt32 (s.writes + 1) }
  else { s with reads := wrapInt32 (s.reads + 1) }

/-- Method `Cache::access` (lines 80-116) on the machine.  The result is `none` when
one of the divisors of lines 84-86 is zero (`blockSize`, `numSets`, or the product
`blockSize * numSets` as an `unsigned int`), when `sets[setIndex]` lies outside the
vector of sets, or when a line index used by the search loop, by `updateLRU` or by the
replacement lies outside the set. -/
def Cache.access32 (c : Cache) (address : Nat) (isWrite : Bool) :
    Option (Cache × AccessResult) :=
  if c.blockSize = 0 ∨ c.numSets = 0 ∨ c.tagDivisor = 0 then none
  else
    let stats := c.stats.countAccess32 isWrite
    let setIndex := c.setIndexOf address
    let tag := c.tagOf address
    let offset := c.offsetOf address
    let set := c.setAt setIndex
    if c.sets.length ≤ setIndex ∨ set.length < c.associativity then none
    else
      match findWay c.associativity set tag with
      | some i =>
        let stats := { stats with hits := wrapInt32 (stats.hits + 1) }
        let set := if isWrite && !c.isWriteThrough then
            set.set i { lineAt set i with dirty := true } else set
        let set := updateLRU32 c.associativity set i
        some ({ c with sets := c.sets.set setIndex set, stats := stats },
          { hit := true, writeBack := none })
      | none =>
        let stats := { stats with misses := wrapInt32 (stats.misses + 1) }
        let evictIndex := findLRUIndex c.associativity set
        if set.length ≤ evictIndex then none
        else
          let victim := lineAt set evictIndex
          let writeBack :=
            if victim.valid && (victim.dirty && !c.isWriteThrough) then
              some (c.rebuildAddress victim.tag setIndex offset)
            else none
          let set := set.set evictIndex
            { valid := true, dirty := isWrite && !c.isWriteThrough, tag := tag,
              offset := offset, lru := 0 }
          let set := updateLRU32 c.associativity set evictIndex
          some ({ c with sets := c.sets.set setIndex set, stats := stats },
            { hit := false, writeBack := writeBack })

/-- Method `Cache::evict` (lines 119-132) on the machine: `none` when a divisor of
lines 120-121 is zero, when `sets[setIndex]` lies outside the vector of sets, or when
the search loop runs past the end of the set. -/
def Cache.evict32 (c : Cache) (address : Nat) : Option Cache :=
  if c.blockSize = 0 ∨ c.numSets = 0 ∨ c.tagDivisor = 0 then none
  else
    let setIndex := c.setIndexOf address
    let tag := c.tagOf address
    let set := c.setAt setIndex
    if c.sets.length ≤ setIndex then none
    else
      match findWay c.associativity set tag with
      | some i =>
        let set := set.set i { lineAt set i with valid := false, dirty := false }
        some { c with sets := c.sets.set setIndex set }
      | none => if set.length < c.associativity then none else some c

/-- One call on the machine. -/
def Cache.step32 (c : Cache) : Op → Option Cache
  | Op.access address isWrite => (c.access32 address isWrite).map (fun out => out.1)
  | Op.evict address => c.evict32 address
  | Op.clearCache => some c.clearCache

/-- Final state of a sequence of calls on the machine, `none` when a call faults. -/
def Cache.exec32 (c : Cache) : List Op → Option Cache
  | [] => some c
  | op :: ops =>
    match c.step32 op with
    | some c1 => Cache.exec32 c1 ops
    | none => none

/-- Hit flag and replaced block of every access of a sequence on the machine, in
order; `none` when a call faults. -/
def Cache.decisions32 (c : Cache) : List Op → Option (List (Bool × Option Nat))
  | [] => some []
  | Op.access address isWrite :: ops =>
    match c.access32 address isWrite with
    | some out =>
      (Cache.decisions32 out.1 ops).map (fun ds => (out.2.hit, c.replacedTag address) :: ds)
    | none => none
  | op :: ops =>
    match c.step32 op with
    | some c1 => Cache.decisions32 c1 ops
    | none => none

/-- Number of `access` calls of a sequence. -/
def accessCount : List Op → Nat
  | [] => 0
  | Op.access _ _ :: ops => accessCount ops + 1
  | _ :: ops => accessCount ops

/-- Every counter of the cache (the `lru` of the valid lines and the four statistics)
lies between `0` and `m`. -/
def Cache.CountersBelow (c : Cache) (m : Nat) : Prop :=
  (∀ k j, (lineAt (c.setAt k) j).valid = true →
    0 ≤ (lineAt (c.setAt k) j).lru ∧ (lineAt (c.setAt k) j).lru ≤ m) ∧
  (0 ≤ c.stats.reads ∧ c.stats.reads ≤ m) ∧ (0 ≤ c.stats.writes ∧ c.stats.writes ≤ m) ∧
  (0 ≤ c.stats.hits ∧ c.stats.hits ≤ m) ∧ (0 ≤ c.stats.misses ∧ c.stats.misses ≤ m)

/-- A run on which a recency counter overflows: two blocks fill the only set of a
2-way cache, the second one is then read `2 ^ 31 - 1` more times, and a third block
is read. -/
def counterOverflowRun : List Op :=
  Op.access 0 false :: Op.access 64 false ::
    (List.replicate (2 ^ 31 - 1) (Op.access 64 false) ++ [Op.access 128 false])

/-- State of the 1-set 2-way cache with 64-byte blocks that holds block 0 in way 0 with
recency `m` and block 1 in way 1 with recency 0. -/
def overflowState (m : Int) (stats : CacheStats) : Cache :=
  { numSets := 1, associativity := 2, blockSize := 64, isWriteThrough := false,
    sets := [[{ valid := true, dirty := false, tag := 0, offset := 0, lru := m },
              { valid := true, dirty := false, tag := 1, offset := 0, lru := 0 }]],
    stats := stats }

/-! # Lemmas on the loops over one set -/

theorem lineAt_set (s : List CacheLine) (i j : Nat) (x : CacheLine) :
    lineAt (s.set i x) j = if i = j ∧ i < s.length then x else lineAt s j := by
  unfold lineAt
  by_cases h : i = j
  · subst h
    by_cases hl : i < s.length
    · simp [List.getD_eq_getElem?_getD, hl]
    · have h1 : (s.set i x)[i]? = none := List.getElem?_eq_none (by simpa using hl)
      have h2 : s[i]? = none := List.getElem?_eq_none (by simpa using hl)
      simp [List.getD_eq_getElem?_getD, hl, h1, h2]
  · simp [List.getD_eq_getElem?_getD, h, List.getElem?_set_ne h]

theorem lineAt_of_length_le (s : List CacheLine) (i : Nat) (h : s.length ≤ i) :
    lineAt s i = default := by
  unfold lineAt
  simp [List.getD_eq_getElem?_getD, List.getElem?_eq_none h]

theorem valid_lt_length (s : List CacheLine) (i : Nat) (h : (lineAt s i).valid = true) :
    i < s.length := by
  by_contra hc
  rw [lineAt_of_length_le s i (by omega)] at h
  exact absurd h (by decide)

theorem lineAt_eq_getElem (s : List CacheLine) (i : Nat) (h : i < s.length) :
    lineAt s i = s[i] := by
  unfold lineAt
  simp [List.getD_eq_getElem?_getD, h]

/-- Two sets of the same size with the same line at every index are equal. -/
theorem set_ext (s t : List CacheLine) (hl : s.length = t.length)
    (h : ∀ i, i < s.length → lineAt s i = lineAt t i) : s = t := by
  apply List.ext_getElem hl
  intro i h1 h2
  have := h i h1
  rwa [lineAt_eq_getElem s i h1, lineAt_eq_getElem t i h2] at this

theorem lineAt_bumpLine (k : Nat) (A : List CacheLine) (n j : Nat) :
    lineAt (bumpLine k A n) j =
      if n = j ∧ n ≠ k ∧ (lineAt A n).valid = true then
        { lineAt A n with lru := (lineAt A n).lru + 1 }
      else lineAt A j := by
  unfold bumpLine
  by_cases h : n ≠ k ∧ (lineAt A n).valid = true
  · rw [if_pos h, lineAt_set]
    have hl := valid_lt_length A n h.2
    by_cases hj : n = j
    · subst hj
      simp [h, hl]
    · simp [hj]
  · rw [if_neg h]
    have : ¬ (n = j ∧ n ≠ k ∧ (lineAt A n).valid = true) := fun hc => h hc.2
    rw [if_neg this]

theorem lineAt_foldl_bump (k : Nat) (n : Nat) (s : List CacheLine) :
    ∀ j, lineAt ((List.range n).foldl (bumpLine k) s) j =
      if j < n ∧ j ≠ k ∧ (lineAt s j).valid = true then
        { lineAt s j with lru := (lineAt s j).lru + 1 }
      else lineAt s j := by
  induction n with
  | zero => simp
  | succ n ih =>
    intro j
    rw [List.range_succ, List.foldl_append]
    simp only [List.foldl_cons, List.foldl_nil]
    rw [lineAt_bumpLine]
    by_cases hj : n = j
    · subst hj
      rw [ih n]
      simp
    · rw [ih j]
      have : j < n + 1 ↔ j < n := by omega
      simp [hj, this]

theorem length_bumpLine (k : Nat) (A : List CacheLine) (n : Nat) :
    (bumpLine k A n).length = A.length := by
  unfold bumpLine
  split <;> simp

theorem length_foldl_bump (k n : Nat) (s : List CacheLine) :
    ((List.range n).foldl (bumpLine k) s).length = s.length := by
  induction n with
  | zero => simp
  | succ n ih =>
    rw [List.range_succ, List.foldl_append]
    simp only [List.foldl_cons, List.foldl_nil]
    rw [length_bumpLine, ih]

theorem length_updateLRU (n : Nat) (s : List CacheLine) (k : Nat) :
    (updateLRU n s k).length = s.length := by
  unfold updateLRU
  simp [length_foldl_bump]

/-- Pointwise description of `updateLRU`. -/
theorem lineAt_updateLRU (n : Nat) (s : List CacheLine) (k j : Nat) :
    lineAt (updateLRU n s k) j =
      if j = k then { lineAt s k with lru := 0 }
      else if j < n ∧ (lineAt s j).valid = true then
        { lineAt s j with lru := (lineAt s j).lru + 1 }
      else lineAt s j := by
  unfold updateLRU
  simp only []
  rw [lineAt_set, length_foldl_bump]
  by_cases hj : j = k
  · subst hj
    rw [lineAt_foldl_bump]
    by_cases hl : j < s.length
    · simp [hl]
    · simp [hl]
      rw [lineAt_of_length_le s j (by omega)]
      rfl
  · have hkj : ¬ k = j := fun h => hj h.symm
    rw [if_neg (fun h => hkj h.1), lineAt_foldl_bump]
    simp [hj]

theorem findWay_eq_none (n : Nat) (s : List CacheLine) (t : Nat) :
    findWay n s t = none ↔ ∀ i, i < n → (lineAt s i).valid = true → (lineAt s i).tag ≠ t := by
  unfold findWay
  rw [List.find?_eq_none]
  simp [List.mem_range]

theorem findWay_some (n : Nat) (s : List CacheLine) (t i : Nat) (h : findWay n s t = some i) :
    i < n ∧ (lineAt s i).valid = true ∧ (lineAt s i).tag = t := by
  unfold findWay at h
  have h1 := List.find?_some h
  have h2 := List.mem_of_find?_eq_some h
  simp at h1
  exact ⟨List.mem_range.mp h2, h1.1, h1.2⟩

/-- The search returns the lowest matching index. -/
theorem findWay_some_first (n : Nat) (s : List CacheLine) (t i : Nat)
    (h : findWay n s t = some i) :
    ∀ j, j < i → ¬ ((lineAt s j).valid = true ∧ (lineAt s j).tag = t) := by
  induction n with
  | zero => simp [findWay] at h
  | succ n ih =>
    unfold findWay at h ih
    rw [List.range_succ, List.find?_append] at h
    cases hf : (List.range n).find? (fun i => (lineAt s i).valid && (lineAt s i).tag == t) with
    | some k =>
      rw [hf] at h
      simp at h
      subst h
      exact ih hf
    | none =>
      rw [hf] at h
      simp at h
      obtain ⟨_, rfl⟩ := h
      intro j hj
      rw [List.find?_eq_none] at hf
      have := hf j (List.mem_range.mpr hj)
      simpa using this

theorem findWay_isSome (n : Nat) (s : List CacheLine) (t i : Nat) (hi : i < n)
    (hv : (lineAt s i).valid = true) (ht : (lineAt s i).tag = t) :
    ∃ k, findWay n s t = some k := by
  cases h : findWay n s t with
  | some k => exact ⟨k, rfl⟩
  | none => exact absurd ht ((findWay_eq_none n s t).mp h i hi hv)

/-- With an invalid line in the scanned range the loop returns the lowest one. -/
theorem findLRULoop_invalid (s : List CacheLine) :
    ∀ n i mx li k, i ≤ k → k < i + n → (lineAt s k).valid = false →
      (∀ j, i ≤ j → j < k → (lineAt s j).valid = true) → findLRULoop s n i mx li = k := by
  intro n
  induction n with
  | zero => intro i mx li k h1 h2; omega
  | succ n ih =>
    intro i mx li k h1 h2 hk hbefore
    unfold findLRULoop
    by_cases hi : (lineAt s i).valid = false
    · rw [if_pos hi]
      by_contra hne
      have := hbefore i (le_refl i) (by omega)
      rw [hi] at this
      exact absurd this (by decide)
    · rw [if_neg hi]
      have hik : i ≠ k := fun h => hi (h ▸ hk)
      have hb : ∀ j, i + 1 ≤ j → j < k → (lineAt s j).valid = true :=
        fun j h1 h2 => hbefore j (by omega) h2
      split
      · exact ih (i + 1) _ _ k (by omega) (by omega) hk hb
      · exact ih (i + 1) _ _ k (by omega) (by omega) hk hb

/-- With only valid lines in the scanned range the loop either keeps the
incoming candidate (no counter exceeds `mx`) or returns the lowest index carrying
the maximal counter. -/
theorem findLRULoop_valid (s : List CacheLine) :
    ∀ n i mx li, (∀ j, i ≤ j → j < i + n → (lineAt s j).valid = true) →
      (findLRULoop s n i mx li = li ∧ ∀ j, i ≤ j → j < i + n → (lineAt s j).lru ≤ mx) ∨
      (i ≤ findLRULoop s n i mx li ∧ findLRULoop s n i mx li < i + n ∧
        mx < (lineAt s (findLRULoop s n i mx li)).lru ∧
        (∀ j, i ≤ j → j < i + n →
          (lineAt s j).lru ≤ (lineAt s (findLRULoop s n i mx li)).lru) ∧
        (∀ j, i ≤ j → j < findLRULoop s n i mx li →
          (lineAt s j).lru < (lineAt s (findLRULoop s n i mx li)).lru)) := by
  intro n
  induction n with
  | zero =>
    intro i mx li _
    left
    exact ⟨rfl, fun j h1 h2 => by omega⟩
  | succ n ih =>
    intro i mx li hv
    have hvi : ¬ (lineAt s i).valid = false := by
      rw [hv i (le_refl i) (by omega)]; decide
    have hv2 : ∀ j, i + 1 ≤ j → j < i + 1 + n → (lineAt s j).valid = true :=
      fun j h1 h2 => hv j (by omega) (by omega)
    unfold findLRULoop
    rw [if_neg hvi]
    by_cases hgt : (lineAt s i).lru > mx
    · rw [if_pos hgt]
      rcases ih (i + 1) (lineAt s i).lru i hv2 with ⟨hr, hall⟩ | ⟨h1, h2, h3, h4, h5⟩
      · right
        rw [hr]
        refine ⟨le_refl i, by omega, hgt, ?_, fun j h1 h2 => by omega⟩
        intro j h1 h2
        by_cases hji : j = i
        · rw [hji]
        · exact hall j (by omega) (by omega)
      · right
        refine ⟨by omega, by omega, by omega, ?_, ?_⟩
        · intro j hj1 hj2
          by_cases hji : j = i
          · rw [hji]; omega
          · exact h4 j (by omega) (by omega)
        · intro j hj1 hj2
          by_cases hji : j = i
          · rw [hji]; omega
          · exact h5 j (by omega) hj2
    · rw [if_neg hgt]
      rcases ih (i + 1) mx li hv2 with ⟨hr, hall⟩ | ⟨h1, h2, h3, h4, h5⟩
      · left
        refine ⟨hr, ?_⟩
        intro j h1 h2
        by_cases hji : j = i
        · rw [hji]; omega
        · exact hall j (by omega) (by omega)
      · right
        refine ⟨by omega, by omega, h3, ?_, ?_⟩
        · intro j hj1 hj2
          by_cases hji : j = i
          · rw [hji]; omega
          · exact h4 j (by omega) (by omega)
        · intro j hj1 hj2
          by_cases hji : j = i
          · rw [hji]; omega
          · exact h5 j (by omega) hj2

/-- On a set with an invalid line `findLRUIndex` returns the lowest invalid index. -/
theorem findLRUIndex_invalid (n : Nat) (s : List CacheLine) (k : Nat) (hk : k < n)
    (hinv : (lineAt s k).valid = false)
    (hfirst : ∀ j, j < k → (lineAt s j).valid = true) : findLRUIndex n s = k :=
  findLRULoop_invalid s n 0 (-1) 0 k (Nat.zero_le k) (by omega) hinv (fun j _ h => hfirst j h)

/-- Every set with an invalid line below `n` has a lowest one. -/
theorem exists_first_invalid (s : List CacheLine) (n : Nat)
    (h : ∃ i, i < n ∧ (lineAt s i).valid = false) :
    ∃ k, k < n ∧ (lineAt s k).valid = false ∧ ∀ j, j < k → (lineAt s j).valid = true := by
  classical
  refine ⟨Nat.find h, (Nat.find_spec h).1, (Nat.find_spec h).2, ?_⟩
  intro j hj
  have := Nat.find_min h hj
  have hjn : j < n := lt_trans hj (Nat.find_spec h).1
  cases hv : (lineAt s j).valid with
  | true => rfl
  | false => exact absurd ⟨hjn, hv⟩ this

/-- On a full set with non-negative counters `findLRUIndex` returns the lowest index
carrying the maximal counter. -/
theorem findLRUIndex_full (n : Nat) (s : List CacheLine) (hn : 1 ≤ n)
    (hv : ∀ j, j < n → (lineAt s j).valid = true)
    (hnn : ∀ j, j < n → 0 ≤ (lineAt s j).lru) :
    findLRUIndex n s < n ∧
      (∀ j, j < n → (lineAt s j).lru ≤ (lineAt s (findLRUIndex n s)).lru) ∧
      (∀ j, j < findLRUIndex n s →
        (lineAt s j).lru < (lineAt s (findLRUIndex n s)).lru) := by
  unfold findLRUIndex
  rcases findLRULoop_valid s n 0 (-1) 0 (fun j _ h => hv j (by omega)) with
    ⟨_, hall⟩ | ⟨_, h2, _, h4, h5⟩
  · have h0 := hall 0 (le_refl 0) (by omega)
    have := hnn 0 (by omega)
    omega
  · exact ⟨by omega, fun j hj => h4 j (Nat.zero_le j) (by omega),
      fun j hj => h5 j (Nat.zero_le j) hj⟩

/-- The victim index is always a way of the set. -/
theorem findLRUIndex_lt (n : Nat) (s : List CacheLine) (hn : 1 ≤ n) : findLRUIndex n s < n := by
  by_cases h : ∃ i, i < n ∧ (lineAt s i).valid = false
  · obtain ⟨k, hk, hinv, hfirst⟩ := exists_first_invalid s n h
    rw [findLRUIndex_invalid n s k hk hinv hfirst]
    exact hk
  · have hv : ∀ j, j < n → (lineAt s j).valid = true := by
      intro j hj
      cases hvj : (lineAt s j).valid with
      | true => rfl
      | false => exact absurd ⟨j, hj, hvj⟩ h
    unfold findLRUIndex
    rcases findLRULoop_valid s n 0 (-1) 0 (fun j _ h => hv j (by omega)) with
      ⟨hr, _⟩ | ⟨_, h2, _⟩
    · rw [hr]; omega
    · omega

theorem getD_set_sets (sets : List (List CacheLine)) (i j : Nat) (x : List CacheLine) :
    (sets.set i x).getD j [] = if i = j ∧ i < sets.length then x else sets.getD j [] := by
  by_cases h : i = j
  · subst h
    by_cases hl : i < sets.length
    · simp [List.getD_eq_getElem?_getD, hl]
    · have h1 : (sets.set i x)[i]? = none := List.getElem?_eq_none (by simpa using hl)
      have h2 : sets[i]? = none := List.getElem?_eq_none (by simpa using hl)
      simp [List.getD_eq_getElem?_getD, hl, h1, h2]
  · simp [List.getD_eq_getElem?_getD, h, List.getElem?_set_ne h]

theorem mem_sets_eq_setAt (c : Cache) (s : List CacheLine) (h : s ∈ c.sets) :
    ∃ k, k < c.sets.length ∧ s = c.setAt k := by
  obtain ⟨k, hk, rfl⟩ := List.getElem_of_mem h
  exact ⟨k, hk, by simp [Cache.setAt, List.getD_eq_getElem?_getD, hk]⟩

theorem mem_set_eq_lineAt (s : List CacheLine) (l : CacheLine) (h : l ∈ s) :
    ∃ j, j < s.length ∧ l = lineAt s j := by
  obtain ⟨j, hj, rfl⟩ := List.getElem_of_mem h
  exact ⟨j, hj, (lineAt_eq_getElem s j hj).symm⟩

/-- The address decomposition of `access` is undone by the write-back address
formula (all in `unsigned int` arithmetic). -/
theorem rebuild_decode (c : Cache) (a : Nat) (ha : a < wordSize)
    (hp : c.blockSize * c.numSets < wordSize) :
    c.rebuildAddress (c.tagOf a) (c.setIndexOf a) (c.offsetOf a) = a := by
  unfold Cache.rebuildAddress Cache.tagOf Cache.setIndexOf Cache.offsetOf Cache.tagDivisor
  rw [Nat.mod_eq_of_lt hp, ← Nat.div_div_eq_div_mul]
  have h1 : a / c.blockSize / c.numSets * c.numSets + a / c.blockSize % c.numSets
      = a / c.blockSize := by
    rw [Nat.mul_comm]; exact Nat.div_add_mod _ _
  rw [h1]
  have h2 : a / c.blockSize * c.blockSize + a % c.blockSize = a := by
    rw [Nat.mul_comm]; exact Nat.div_add_mod _ _
  rw [h2]
  exact Nat.mod_eq_of_lt ha

theorem updateLRU_fields (n : Nat) (s : List CacheLine) (k j : Nat) :
    (lineAt (updateLRU n s k) j).valid = (lineAt s j).valid ∧
    (lineAt (updateLRU n s k) j).dirty = (lineAt s j).dirty ∧
    (lineAt (updateLRU n s k) j).tag = (lineAt s j).tag ∧
    (lineAt (updateLRU n s k) j).offset = (lineAt s j).offset := by
  rw [lineAt_updateLRU]
  by_cases hj : j = k
  · subst hj; simp
  · rw [if_neg hj]
    split <;> simp

theorem setAt_set (c : Cache) (i j : Nat) (x : List CacheLine) (st : CacheStats) :
    Cache.setAt { c with sets := c.sets.set i x, stats := st } j =
      if i = j ∧ i < c.sets.length then x else c.setAt j := by
  unfold Cache.setAt
  exact getD_set_sets c.sets i j x

/-- The set `k` of the cache after `access`: only the accessed set changes. -/
theorem access_setAt_other (c : Cache) (a : Nat) (w : Bool) (k : Nat)
    (hk : k ≠ c.setIndexOf a) : (c.access a w).1.setAt k = c.setAt k := by
  unfold Cache.access
  simp only []
  split
  · rw [setAt_set]
    rw [if_neg (fun h => hk h.1.symm)]
  · rw [setAt_set]
    rw [if_neg (fun h => hk h.1.symm)]

/-- Geometry and write policy are never changed by `access`. -/
theorem access_config (c : Cache) (a : Nat) (w : Bool) :
    (c.access a w).1.numSets = c.numSets ∧ (c.access a w).1.associativity = c.associativity ∧
    (c.access a w).1.blockSize = c.blockSize ∧
    (c.access a w).1.isWriteThrough = c.isWriteThrough ∧
    (c.access a w).1.sets.length = c.sets.length := by
  unfold Cache.access
  simp only []
  split <;> simp

theorem evict_config (c : Cache) (a : Nat) :
    (c.evict a).numSets = c.numSets ∧ (c.evict a).associativity = c.associativity ∧
    (c.evict a).blockSize = c.blockSize ∧ (c.evict a).isWriteThrough = c.isWriteThrough ∧
    (c.evict a).sets.length = c.sets.length ∧ (c.evict a).stats = c.stats := by
  unfold Cache.evict
  simp only []
  split <;> simp

theorem clearCache_config (c : Cache) :
    c.clearCache.numSets = c.numSets ∧ c.clearCache.associativity = c.associativity ∧
    c.clearCache.blockSize = c.blockSize ∧ c.clearCache.isWriteThrough = c.isWriteThrough ∧
    c.clearCache.sets.length = c.sets.length := by
  simp [Cache.clearCache]

theorem step_config (c : Cache) (op : Op) :
    (c.step op).1.numSets = c.numSets ∧ (c.step op).1.associativity = c.associativity ∧
    (c.step op).1.blockSize = c.blockSize ∧
    (c.step op).1.isWriteThrough = c.isWriteThrough ∧
    (c.step op).1.sets.length = c.sets.length := by
  cases op with
  | access a w => exact access_config c a w
  | evict a =>
    obtain ⟨h1, h2, h3, h4, h5, _⟩ := evict_config c a
    exact ⟨h1, h2, h3, h4, h5⟩
  | clearCache => exact clearCache_config c

/-- A property kept by every call holds after every sequence of calls. -/
theorem exec_induction (P : Cache → Prop) (hstep : ∀ c op, P c → P (c.step op).1) :
    ∀ ops c, P c → P (c.exec ops) := by
  intro ops
  induction ops with
  | nil => intro c h; exact h
  | cons op ops ih => intro c h; exact ih _ (hstep c op h)

/-- A property of the results that every call from a state satisfying an invariant
provides holds for all results of a sequence. -/
theorem results_induction (P : Cache → Prop) (Q : Option AccessResult → Prop)
    (hstep : ∀ c op, P c → P (c.step op).1 ∧ Q (c.step op).2) :
    ∀ ops c, P c → ∀ r ∈ c.results ops, Q r := by
  intro ops
  induction ops with
  | nil => intro c _ r hr; simp [Cache.results] at hr
  | cons op ops ih =>
    intro c h r hr
    simp only [Cache.results, List.mem_cons] at hr
    rcases hr with rfl | hr
    · exact (hstep c op h).2
    · exact ih _ (hstep c op h).1 r hr

theorem access_stats (c : Cache) (a : Nat) (w : Bool) :
    (c.access a w).1.stats.reads + (c.access a w).1.stats.writes
      = c.stats.reads + c.stats.writes + 1 ∧
    (c.access a w).1.stats.hits + (c.access a w).1.stats.misses
      = c.stats.hits + c.stats.misses + 1 := by
  unfold Cache.access
  simp only []
  split <;> cases w <;> simp [CacheStats.countAccess] <;> omega

/-! # Address decomposition -/

/-- C2: for every 32-bit address `a` and every geometry with `blockSize ≥ 1`,
`numSets ≥ 1` and `blockSize * numSets` representable, decoding `a` into offset,
set index and tag as `access` does and rebuilding
`(tag * numSets + setIndex) * blockSize + offset` in `unsigned int` arithmetic, as the
write-back address computation does, yields exactly `a`. -/
theorem decode_rebuild_roundtrip (c : Cache) (a : Nat) (ha : a < 2 ^ 32)
    (_hb : 1 ≤ c.blockSize) (_hs : 1 ≤ c.numSets)
    (hp : c.blockSize * c.numSets < 2 ^ 32) :
    c.offsetOf a = a % c.blockSize ∧
    c.setIndexOf a = (a / c.blockSize) % c.numSets ∧
    c.tagOf a = a / (c.blockSize * c.numSets) ∧
    c.rebuildAddress (c.tagOf a) (c.setIndexOf a) (c.offsetOf a) = a := by
  have hp2 : c.blockSize * c.numSets < wordSize := hp
  refine ⟨rfl, rfl, ?_, rebuild_decode c a ha hp2⟩
  unfold Cache.tagOf Cache.tagDivisor
  rw [Nat.mod_eq_of_lt hp2]

/-- Witness of `decode_rebuild_roundtrip`: the reference data cache (16384 sets of
64-byte blocks) at address `0x12345678`. -/
theorem decode_rebuild_roundtrip_witness :
    (Cache.new 16384 4 64 false).offsetOf 0x12345678 = 0x12345678 % 64 ∧
    (Cache.new 16384 4 64 false).setIndexOf 0x12345678 = (0x12345678 / 64) % 16384 ∧
    (Cache.new 16384 4 64 false).tagOf 0x12345678 = 0x12345678 / (64 * 16384) ∧
    (Cache.new 16384 4 64 false).rebuildAddress
      ((Cache.new 16384 4 64 false).tagOf 0x12345678)
      ((Cache.new 16384 4 64 false).setIndexOf 0x12345678)
      ((Cache.new 16384 4 64 false).offsetOf 0x12345678) = 0x12345678 :=
  decode_rebuild_roundtrip (Cache.new 16384 4 64 false) 0x12345678 (by norm_num)
    (by show 1 ≤ 64; decide) (by show 1 ≤ 16384; decide)
    (by show 64 * 16384 < 2 ^ 32; norm_num)

/-! # Statistics -/

/-- C4: after every sequence of `access`, `evict` and `clearCache` calls on a
freshly constructed cache `hits + misses = reads + writes`; every `access` adds
exactly one to `reads + writes` and exactly one to `hits + misses`; `evict`
changes no counter. -/
theorem stats_conservation (numSets assoc blockSize : Nat) (wt : Bool) (ops : List Op) :
    (((Cache.new numSets assoc blockSize wt).exec ops).stats.hits
        + ((Cache.new numSets assoc blockSize wt).exec ops).stats.misses
      = ((Cache.new numSets assoc blockSize wt).exec ops).stats.reads
        + ((Cache.new numSets assoc blockSize wt).exec ops).stats.writes) ∧
    (∀ (c : Cache) (a : Nat) (w : Bool),
      (c.access a w).1.stats.reads + (c.access a w).1.stats.writes
        = c.stats.reads + c.stats.writes + 1 ∧
      (c.access a w).1.stats.hits + (c.access a w).1.stats.misses
        = c.stats.hits + c.stats.misses + 1) ∧
    (∀ (c : Cache) (a : Nat), (c.evict a).stats = c.stats) := by
  refine ⟨?_, access_stats, fun c a => (evict_config c a).2.2.2.2.2⟩
  apply exec_induction
    (fun c => c.stats.hits + c.stats.misses = c.stats.reads + c.stats.writes)
  · intro c op h
    cases op with
    | access a w =>
      have := access_stats c a w
      simp only [Cache.step]
      omega
    | evict a =>
      simp only [Cache.step]
      rw [(evict_config c a).2.2.2.2.2]
      exact h
    | clearCache => simp [Cache.step, Cache.clearCache]
  · simp [Cache.new]

/-! # Unfolding `access`, `evict` and `clearCache` -/

/-- Unfolding of `access` on a hit at way `i`. -/
theorem access_hit_eq (c : Cache) (a : Nat) (w : Bool) (i : Nat)
    (h : findWay c.associativity (c.setAt (c.setIndexOf a)) (c.tagOf a) = some i) :
    c.access a w =
      ({ c with
          sets := c.sets.set (c.setIndexOf a)
            (updateLRU c.associativity
              (if w && !c.isWriteThrough then
                (c.setAt (c.setIndexOf a)).set i
                  { lineAt (c.setAt (c.setIndexOf a)) i with dirty := true }
              else c.setAt (c.setIndexOf a)) i),
          stats := { c.stats.countAccess w with hits := (c.stats.countAccess w).hits + 1 } },
        { hit := true, writeBack := none }) := by
  unfold Cache.access
  simp only [h]

/-- Unfolding of `access` on a miss. -/
theorem access_miss_eq (c : Cache) (a : Nat) (w : Bool)
    (h : findWay c.associativity (c.setAt (c.setIndexOf a)) (c.tagOf a) = none) :
    c.access a w =
      ({ c with
          sets := c.sets.set (c.setIndexOf a)
            (updateLRU c.associativity
              ((c.setAt (c.setIndexOf a)).set
                (findLRUIndex c.associativity (c.setAt (c.setIndexOf a)))
                { valid := true, dirty := w && !c.isWriteThrough, tag := c.tagOf a,
                  offset := c.offsetOf a, lru := 0 })
              (findLRUIndex c.associativity (c.setAt (c.setIndexOf a)))),
          stats := { c.stats.countAccess w with
            misses := (c.stats.countAccess w).misses + 1 } },
        { hit := false,
          writeBack :=
            if (lineAt (c.setAt (c.setIndexOf a))
                  (findLRUIndex c.associativity (c.setAt (c.setIndexOf a)))).valid &&
                ((lineAt (c.setAt (c.setIndexOf a))
                  (findLRUIndex c.associativity (c.setAt (c.setIndexOf a)))).dirty &&
                  !c.isWriteThrough) then
              some (c.rebuildAddress
                (lineAt (c.setAt (c.setIndexOf a))
                  (findLRUIndex c.associativity (c.setAt (c.setIndexOf a)))).tag
                (c.setIndexOf a) (c.offsetOf a))
            else none }) := by
  unfold Cache.access
  simp only [h]

/-- The result flag of `access` says whether the search found the block. -/
theorem access_hit_iff (c : Cache) (a : Nat) (w : Bool) :
    (c.access a w).2.hit = true ↔
      ∃ i, findWay c.associativity (c.setAt (c.setIndexOf a)) (c.tagOf a) = some i := by
  cases h : findWay c.associativity (c.setAt (c.setIndexOf a)) (c.tagOf a) with
  | some i => rw [access_hit_eq c a w i h]; simp
  | none => rw [access_miss_eq c a w h]; simp

/-- Unfolding of `evict` when the block is found at way `i`. -/
theorem evict_found_eq (c : Cache) (a : Nat) (i : Nat)
    (h : findWay c.associativity (c.setAt (c.setIndexOf a)) (c.tagOf a) = some i) :
    c.evict a =
      { c with
        sets := c.sets.set (c.setIndexOf a)
          ((c.setAt (c.setIndexOf a)).set i
            { lineAt (c.setAt (c.setIndexOf a)) i with valid := false, dirty := false }) } := by
  unfold Cache.evict
  simp only [h]

/-- Unfolding of `evict` when the block is absent: the cache is unchanged. -/
theorem evict_absent_eq (c : Cache) (a : Nat)
    (h : findWay c.associativity (c.setAt (c.setIndexOf a)) (c.tagOf a) = none) :
    c.evict a = c := by
  unfold Cache.evict
  simp only [h]

theorem setAt_clearCache (c : Cache) (k : Nat) :
    c.clearCache.setAt k = (c.setAt k).map (fun _ =>
      { valid := false, dirty := false, tag := 0, offset := 0, lru := 0 }) := by
  unfold Cache.setAt Cache.clearCache
  simp only [List.getD_eq_getElem?_getD, List.getElem?_map]
  cases c.sets[k]? <;> simp

theorem lineAt_cleared (s : List CacheLine) (j : Nat) :
    (lineAt (s.map (fun _ =>
      ({ valid := false, dirty := false, tag := 0, offset := 0, lru := 0 } : CacheLine))) j).valid
        = false ∧
    (lineAt (s.map (fun _ =>
      ({ valid := false, dirty := false, tag := 0, offset := 0, lru := 0 } : CacheLine))) j).dirty
        = false := by
  unfold lineAt
  simp only [List.getD_eq_getElem?_getD, List.getElem?_map]
  cases s[j]? with
  | none => exact ⟨rfl, rfl⟩
  | some x => simp

/-- In write-through mode no call makes a line dirty. -/
theorem writeThrough_step (c : Cache) (op : Op)
    (h : c.isWriteThrough = true ∧ ∀ k j, (lineAt (c.setAt k) j).dirty = false) :
    (c.step op).1.isWriteThrough = true ∧
      ∀ k j, (lineAt ((c.step op).1.setAt k) j).dirty = false := by
  obtain ⟨hwt, hd⟩ := h
  refine ⟨by rw [(step_config c op).2.2.2.1]; exact hwt, ?_⟩
  intro k j
  cases op with
  | access a w =>
    simp only [Cache.step]
    cases hf : findWay c.associativity (c.setAt (c.setIndexOf a)) (c.tagOf a) with
    | some i =>
      rw [access_hit_eq c a w i hf, setAt_set]
      split
      · rw [(updateLRU_fields _ _ _ _).2.1]
        simp [hwt, hd]
      · exact hd k j
    | none =>
      rw [access_miss_eq c a w hf, setAt_set]
      split
      · rw [(updateLRU_fields _ _ _ _).2.1, lineAt_set]
        split
        · simp [hwt]
        · exact hd _ j
      · exact hd k j
  | evict a =>
    simp only [Cache.step]
    cases hf : findWay c.associativity (c.setAt (c.setIndexOf a)) (c.tagOf a) with
    | some i =>
      rw [evict_found_eq c a i hf]
      have := setAt_set c (c.setIndexOf a) k ((c.setAt (c.setIndexOf a)).set i
            { lineAt (c.setAt (c.setIndexOf a)) i with valid := false, dirty := false }) c.stats
      simp only [] at this
      rw [this]
      split
      · rw [lineAt_set]
        split
        · rfl
        · exact hd _ j
      · exact hd k j
    | none => rw [evict_absent_eq c a hf]; exact hd k j
  | clearCache =>
    simp only [Cache.step]
    rw [setAt_clearCache]
    exact (lineAt_cleared _ j).2

/-- In write-through mode `access` never signals a write-back. -/
theorem writeThrough_no_writeBack (c : Cache) (a : Nat) (w : Bool)
    (hwt : c.isWriteThrough = true) : (c.access a w).2.writeBack = none := by
  cases hf : findWay c.associativity (c.setAt (c.setIndexOf a)) (c.tagOf a) with
  | some i => rw [access_hit_eq c a w i hf]
  | none => rw [access_miss_eq c a w hf]; simp [hwt]

/-- Every line of a freshly constructed cache is a default line. -/
theorem lineAt_new (numSets assoc blockSize : Nat) (wt : Bool) (k j : Nat) :
    lineAt ((Cache.new numSets assoc blockSize wt).setAt k) j = default := by
  unfold Cache.setAt Cache.new lineAt
  simp only [List.getD_eq_getElem?_getD, List.getElem?_replicate]
  by_cases hk : k < numSets
  · by_cases hj : j < assoc
    · simp [hk, hj, List.getElem?_replicate]
    · simp [hk, hj, List.getElem?_replicate]
  · simp [hk]

/-! # Write-through mode -/

/-- C5: for a cache constructed with `writeThrough = true`, after every sequence of
`access` (reads and writes), `evict` and `clearCache` calls from the freshly
constructed state no line has `dirty = true`, and no `access` call of the
sequence has signalled a write-back. -/
theorem writeThrough_never_dirty (numSets assoc blockSize : Nat) (ops : List Op) :
    (∀ s ∈ ((Cache.new numSets assoc blockSize true).exec ops).sets,
      ∀ l ∈ s, l.dirty = false) ∧
    (∀ r ∈ (Cache.new numSets assoc blockSize true).results ops,
      ∀ x, r = some x → x.writeBack = none) := by
  have h0 : (Cache.new numSets assoc blockSize true).isWriteThrough = true ∧
      ∀ k j, (lineAt ((Cache.new numSets assoc blockSize true).setAt k) j).dirty = false := by
    refine ⟨rfl, fun k j => ?_⟩
    rw [lineAt_new]
    rfl
  constructor
  · have h := exec_induction
      (fun c => c.isWriteThrough = true ∧ ∀ k j, (lineAt (c.setAt k) j).dirty = false)
      writeThrough_step ops _ h0
    intro s hs l hl
    obtain ⟨k, _, rfl⟩ := mem_sets_eq_setAt _ s hs
    obtain ⟨j, _, rfl⟩ := mem_set_eq_lineAt _ l hl
    exact h.2 k j
  · apply results_induction
      (fun c => c.isWriteThrough = true ∧ ∀ k j, (lineAt (c.setAt k) j).dirty = false)
      (fun r => ∀ x, r = some x → x.writeBack = none) _ ops _ h0
    intro c op h
    refine ⟨writeThrough_step c op h, ?_⟩
    cases op with
    | access a w =>
      intro x hx
      simp only [Cache.step, Option.some.injEq] at hx
      rw [← hx]
      exact writeThrough_no_writeBack c a w h.1
    | evict a => intro x hx; simp [Cache.step] at hx
    | clearCache => intro x hx; simp [Cache.step] at hx

/-! # Reset -/

/-- C8: for every cache state, `clearCache` produces a state in which every line of
every set is invalid and clean and `reads = writes = hits = misses = 0`, and
applying `clearCache` twice in a row gives exactly the state of applying it once. -/
theorem clearCache_resets_and_idempotent (c : Cache) :
    (∀ s ∈ c.clearCache.sets, ∀ l ∈ s, l.valid = false ∧ l.dirty = false) ∧
    c.clearCache.stats.reads = 0 ∧ c.clearCache.stats.writes = 0 ∧
    c.clearCache.stats.hits = 0 ∧ c.clearCache.stats.misses = 0 ∧
    c.clearCache.clearCache = c.clearCache := by
  refine ⟨?_, rfl, rfl, rfl, rfl, ?_⟩
  · intro s hs l hl
    simp only [Cache.clearCache, List.mem_map] at hs
    obtain ⟨s0, _, rfl⟩ := hs
    simp only [List.mem_map] at hl
    obtain ⟨_, _, rfl⟩ := hl
    exact ⟨rfl, rfl⟩
  · simp [Cache.clearCache, List.map_map, Function.comp_def]

/-! # The verbosity flag and the evict command of the trace driver -/

/-- C9 (the code at a failing input): from the caches `main` builds (16384 sets of
64-byte blocks, 2-way instruction and 4-way data cache, cleared), the trace
`0 0`, `3 0`, `0 0` gives a hit for the last read with verbosity mode 0 and a miss
with verbosity mode 1, and the final data-cache statistics differ: case 3 of
`processTrace` calls `evict` only inside `if (mode > 0)`. -/
theorem verbosity_changes_decisions :
    (processTrace 0 (Cache.new 16384 2 64 false).clearCache
        (Cache.new 16384 4 64 false).clearCache [(0, 0), (3, 0), (0, 0)]).decisions
      = [some { hit := false, writeBack := none }, none,
          some { hit := true, writeBack := none }] ∧
    (processTrace 1 (Cache.new 16384 2 64 false).clearCache
        (Cache.new 16384 4 64 false).clearCache [(0, 0), (3, 0), (0, 0)]).decisions
      = [some { hit := false, writeBack := none }, none,
          some { hit := false, writeBack := none }] ∧
    (processTrace 0 (Cache.new 16384 2 64 false).clearCache
        (Cache.new 16384 4 64 false).clearCache [(0, 0), (3, 0), (0, 0)]).dataCache.stats
      = { reads := 2, writes := 0, hits := 1, misses := 1 } ∧
    (processTrace 1 (Cache.new 16384 2 64 false).clearCache
        (Cache.new 16384 4 64 false).clearCache [(0, 0), (3, 0), (0, 0)]).dataCache.stats
      = { reads := 2, writes := 0, hits := 0, misses := 2 } := by
  decide

/-- C10 (the code at a failing input): with verbosity mode 0 the event `(3, 0)`
leaves the data cache that has just read address 0 unchanged: it still holds the
valid line of that block in set 0, way 0, whereas `evict 0` invalidates it. -/
theorem evict_command_skipped_in_mode_zero :
    (processLine 0 (Cache.new 16384 2 64 false).clearCache
        ((Cache.new 16384 4 64 false).clearCache.access 0 false).1 3 0).dataCache
      = ((Cache.new 16384 4 64 false).clearCache.access 0 false).1 ∧
    (lineAt ((processLine 0 (Cache.new 16384 2 64 false).clearCache
        ((Cache.new 16384 4 64 false).clearCache.access 0 false).1 3 0).dataCache.setAt 0) 0).valid
      = true ∧
    (lineAt ((processLine 0 (Cache.new 16384 2 64 false).clearCache
        ((Cache.new 16384 4 64 false).clearCache.access 0 false).1 3 0).dataCache.setAt 0) 0).tag
      = ((Cache.new 16384 4 64 false).clearCache.access 0 false).1.tagOf 0 ∧
    (lineAt ((((Cache.new 16384 4 64 false).clearCache.access 0 false).1.evict 0).setAt 0) 0).valid
      = false := by
  refine ⟨rfl, ?_, ?_, ?_⟩ <;> decide

/-! # Counting valid lines -/

theorem lineAt_cons_zero (x : CacheLine) (xs : List CacheLine) : lineAt (x :: xs) 0 = x := rfl

theorem lineAt_cons_succ (x : CacheLine) (xs : List CacheLine) (j : Nat) :
    lineAt (x :: xs) (j + 1) = lineAt xs j := rfl

theorem validCount_cons (x : CacheLine) (xs : List CacheLine) :
    validCount (x :: xs) = validCount xs + if x.valid = true then 1 else 0 := by
  unfold validCount
  rw [List.countP_cons]

/-- Sets of equal size with the same valid flags have the same number of valid lines. -/
theorem validCount_congr (s : List CacheLine) :
    ∀ s2 : List CacheLine, s2.length = s.length →
      (∀ j, (lineAt s2 j).valid = (lineAt s j).valid) → validCount s2 = validCount s := by
  induction s with
  | nil =>
    intro s2 hl _
    rw [List.length_eq_zero.mp hl]
  | cons x xs ih =>
    intro s2 hl h
    cases s2 with
    | nil => simp at hl
    | cons y ys =>
      have h0 := h 0
      rw [lineAt_cons_zero, lineAt_cons_zero] at h0
      rw [validCount_cons, validCount_cons, h0,
        ih ys (by simpa using hl) (fun j => by simpa [lineAt_cons_succ] using h (j + 1))]

/-- Turning one invalid line valid and keeping the other flags adds one valid line. -/
theorem validCount_succ (s : List CacheLine) :
    ∀ (s2 : List CacheLine) (k : Nat), s2.length = s.length → k < s.length →
      (lineAt s k).valid = false → (lineAt s2 k).valid = true →
      (∀ j, j ≠ k → (lineAt s2 j).valid = (lineAt s j).valid) →
      validCount s2 = validCount s + 1 := by
  induction s with
  | nil => intro s2 k _ hk; simp at hk
  | cons x xs ih =>
    intro s2 k hl hk h1 h2 hother
    cases s2 with
    | nil => simp at hl
    | cons y ys =>
      have hl2 : ys.length = xs.length := by simpa using hl
      cases k with
      | zero =>
        rw [lineAt_cons_zero] at h1 h2
        rw [validCount_cons, validCount_cons, h1, h2,
          validCount_congr xs ys hl2 (fun j => by
            simpa [lineAt_cons_succ] using hother (j + 1) (by omega))]
        simp
      | succ k =>
        rw [lineAt_cons_succ] at h1 h2
        have h0 := hother 0 (by omega)
        rw [lineAt_cons_zero, lineAt_cons_zero] at h0
        rw [validCount_cons, validCount_cons, h0,
          ih ys k hl2 (by simpa using hk) h1 h2 (fun j hj => by
            simpa [lineAt_cons_succ] using hother (j + 1) (by omega))]
        omega

/-- In a well-formed cache the accessed set exists and has `associativity` lines. -/
theorem wellFormed_setAt (c : Cache) (hwf : c.WellFormed) (k : Nat) (hk : k < c.numSets) :
    (c.setAt k).length = c.associativity := by
  apply hwf.2
  unfold Cache.setAt
  have hk2 : k < c.sets.length := by rw [hwf.1]; exact hk
  simp [List.getD_eq_getElem?_getD, hk2]

theorem setIndexOf_lt (c : Cache) (a : Nat) (hs : 1 ≤ c.numSets) : c.setIndexOf a < c.numSets :=
  Nat.mod_lt _ (by omega)

/-- The accessed set after a miss. -/
theorem access_miss_setAt (c : Cache) (a : Nat) (w : Bool)
    (h : findWay c.associativity (c.setAt (c.setIndexOf a)) (c.tagOf a) = none)
    (hk : c.setIndexOf a < c.sets.length) :
    (c.access a w).1.setAt (c.setIndexOf a) =
      updateLRU c.associativity
        ((c.setAt (c.setIndexOf a)).set
          (findLRUIndex c.associativity (c.setAt (c.setIndexOf a)))
          { valid := true, dirty := w && !c.isWriteThrough, tag := c.tagOf a,
            offset := c.offsetOf a, lru := 0 })
        (findLRUIndex c.associativity (c.setAt (c.setIndexOf a))) := by
  rw [access_miss_eq c a w h, setAt_set, if_pos ⟨rfl, hk⟩]

/-- The accessed set after a hit at way `i`. -/
theorem access_hit_setAt (c : Cache) (a : Nat) (w : Bool) (i : Nat)
    (h : findWay c.associativity (c.setAt (c.setIndexOf a)) (c.tagOf a) = some i)
    (hk : c.setIndexOf a < c.sets.length) :
    (c.access a w).1.setAt (c.setIndexOf a) =
      updateLRU c.associativity
        (if w && !c.isWriteThrough then
          (c.setAt (c.setIndexOf a)).set i
            { lineAt (c.setAt (c.setIndexOf a)) i with dirty := true }
        else c.setAt (c.setIndexOf a)) i := by
  rw [access_hit_eq c a w i h, setAt_set, if_pos ⟨rfl, hk⟩]

/-! # Victim selection with a free slot -/

/-- C6: for every (well-formed) cache state and every access that misses in a set
containing at least one invalid line, the victim is the lowest-indexed invalid
line and receives the new block; every line of the set that was valid before the
access is still valid afterwards with the same tag and dirty flag, and the number
of valid lines of the set grows by exactly one. -/
theorem miss_prefers_invalid_line (c : Cache) (a : Nat) (w : Bool) (hwf : c.WellFormed)
    (hs : 1 ≤ c.numSets) (hmiss : (c.access a w).2.hit = false)
    (hinv : ∃ i, i < c.associativity ∧ (lineAt (c.setAt (c.setIndexOf a)) i).valid = false) :
    (findLRUIndex c.associativity (c.setAt (c.setIndexOf a)) < c.associativity ∧
      (lineAt (c.setAt (c.setIndexOf a))
        (findLRUIndex c.associativity (c.setAt (c.setIndexOf a)))).valid = false ∧
      ∀ j, j < findLRUIndex c.associativity (c.setAt (c.setIndexOf a)) →
        (lineAt (c.setAt (c.setIndexOf a)) j).valid = true) ∧
    ((lineAt ((c.access a w).1.setAt (c.setIndexOf a))
        (findLRUIndex c.associativity (c.setAt (c.setIndexOf a)))).valid = true ∧
      (lineAt ((c.access a w).1.setAt (c.setIndexOf a))
        (findLRUIndex c.associativity (c.setAt (c.setIndexOf a)))).tag = c.tagOf a) ∧
    (∀ j, j < c.associativity → (lineAt (c.setAt (c.setIndexOf a)) j).valid = true →
      (lineAt ((c.access a w).1.setAt (c.setIndexOf a)) j).valid = true ∧
      (lineAt ((c.access a w).1.setAt (c.setIndexOf a)) j).tag
        = (lineAt (c.setAt (c.setIndexOf a)) j).tag ∧
      (lineAt ((c.access a w).1.setAt (c.setIndexOf a)) j).dirty
        = (lineAt (c.setAt (c.setIndexOf a)) j).dirty) ∧
    validCount ((c.access a w).1.setAt (c.setIndexOf a))
      = validCount (c.setAt (c.setIndexOf a)) + 1 := by
  have hfw : findWay c.associativity (c.setAt (c.setIndexOf a)) (c.tagOf a) = none := by
    cases hf : findWay c.associativity (c.setAt (c.setIndexOf a)) (c.tagOf a) with
    | none => rfl
    | some i =>
      have := (access_hit_iff c a w).mpr ⟨i, hf⟩
      rw [hmiss] at this
      exact absurd this (by decide)
  have hidx : c.setIndexOf a < c.sets.length := by
    rw [hwf.1]; exact setIndexOf_lt c a hs
  have hlen : (c.setAt (c.setIndexOf a)).length = c.associativity :=
    wellFormed_setAt c hwf _ (setIndexOf_lt c a hs)
  obtain ⟨k, hk, hkinv, hkfirst⟩ := exists_first_invalid _ _ hinv
  have hv : findLRUIndex c.associativity (c.setAt (c.setIndexOf a)) = k :=
    findLRUIndex_invalid _ _ k hk hkinv hkfirst
  rw [access_miss_setAt c a w hfw hidx, hv]
  have hkl : k < (c.setAt (c.setIndexOf a)).length := by rw [hlen]; exact hk
  refine ⟨⟨hk, hkinv, hkfirst⟩, ⟨?_, ?_⟩, ?_, ?_⟩
  · rw [(updateLRU_fields _ _ _ _).1, lineAt_set, if_pos ⟨rfl, hkl⟩]
  · rw [(updateLRU_fields _ _ _ _).2.2.1, lineAt_set, if_pos ⟨rfl, hkl⟩]
  · intro j _ hjv
    have hjk : ¬ (k = j ∧ k < (c.setAt (c.setIndexOf a)).length) := by
      intro h
      rw [← h.1, hkinv] at hjv
      exact absurd hjv (by decide)
    rw [(updateLRU_fields _ _ _ _).1, (updateLRU_fields _ _ _ _).2.2.1,
      (updateLRU_fields _ _ _ _).2.1, lineAt_set, if_neg hjk]
    exact ⟨hjv, rfl, rfl⟩
  · apply validCount_succ _ _ k
    · rw [length_updateLRU, List.length_set]
    · exact hkl
    · exact hkinv
    · rw [(updateLRU_fields _ _ _ _).1, lineAt_set, if_pos ⟨rfl, hkl⟩]
    · intro j hj
      rw [(updateLRU_fields _ _ _ _).1, lineAt_set, if_neg (fun h => hj h.1.symm)]

/-- Witness of `miss_prefers_invalid_line`: the 2-way cache (2 sets, 64-byte blocks)
that holds block 0 in way 0 of set 0, at a read of address `0x80`. -/
theorem miss_prefers_invalid_line_witness :
    findLRUIndex 2 ((((Cache.new 2 2 64 false).access 0 true).1).setAt 0) = 1 ∧
    validCount ((((Cache.new 2 2 64 false).access 0 true).1.access 0x80 false).1.setAt 0) = 2 :=
  have h := miss_prefers_invalid_line ((Cache.new 2 2 64 false).access 0 true).1 0x80 false
    (by decide) (by decide) (by decide) ⟨1, by decide, by decide⟩
  ⟨by decide, h.2.2.2⟩

/-! # Decoding rebuilt addresses -/

/-- The decomposition is exact: tag, set index and offset recombine to the address
(before any reduction modulo `2 ^ 32`). -/
theorem decode_exact (c : Cache) (a : Nat) (hp : c.blockSize * c.numSets < wordSize) :
    (c.tagOf a * c.numSets + c.setIndexOf a) * c.blockSize + c.offsetOf a = a := by
  unfold Cache.tagOf Cache.setIndexOf Cache.offsetOf Cache.tagDivisor
  rw [Nat.mod_eq_of_lt hp, ← Nat.div_div_eq_div_mul]
  have h1 : a / c.blockSize / c.numSets * c.numSets + a / c.blockSize % c.numSets
      = a / c.blockSize := by
    rw [Nat.mul_comm]; exact Nat.div_add_mod _ _
  rw [h1, Nat.mul_comm]
  exact Nat.div_add_mod _ _

/-- Decoding a rebuilt address gives back tag, set index and offset exactly when
the rebuilt value does not wrap around `2 ^ 32`. -/
theorem decode_rebuild_iff (c : Cache) (t s o : Nat) (hs : s < c.numSets)
    (ho : o < c.blockSize) (hp : c.blockSize * c.numSets < wordSize) :
    (c.tagOf (c.rebuildAddress t s o) = t ∧ c.setIndexOf (c.rebuildAddress t s o) = s ∧
      c.offsetOf (c.rebuildAddress t s o) = o) ↔
    (t * c.numSets + s) * c.blockSize + o < wordSize := by
  constructor
  · rintro ⟨h1, h2, h3⟩
    have hlt : c.rebuildAddress t s o < wordSize := Nat.mod_lt _ (by decide)
    have hrt := decode_exact c (c.rebuildAddress t s o) hp
    rw [h1, h2, h3] at hrt
    rw [hrt]
    exact hlt
  · intro hlt
    have hr : c.rebuildAddress t s o = (t * c.numSets + s) * c.blockSize + o :=
      Nat.mod_eq_of_lt hlt
    rw [hr]
    have hb : 0 < c.blockSize := by omega
    have hn : 0 < c.numSets := by omega
    have hoff : ((t * c.numSets + s) * c.blockSize + o) % c.blockSize = o := by
      rw [Nat.add_comm, Nat.add_mul_mod_self_right, Nat.mod_eq_of_lt ho]
    have hdiv : ((t * c.numSets + s) * c.blockSize + o) / c.blockSize = t * c.numSets + s := by
      rw [Nat.add_comm, Nat.add_mul_div_right _ _ hb, Nat.div_eq_of_lt ho, Nat.zero_add]
    refine ⟨?_, ?_, hoff⟩
    · unfold Cache.tagOf Cache.tagDivisor
      rw [Nat.mod_eq_of_lt hp, ← Nat.div_div_eq_div_mul, hdiv, Nat.add_comm,
        Nat.add_mul_div_right _ _ hn, Nat.div_eq_of_lt hs, Nat.zero_add]
    · unfold Cache.setIndexOf
      rw [hdiv, Nat.add_comm, Nat.add_mul_mod_self_right, Nat.mod_eq_of_lt hs]

/-! # Write-back signalling -/

/-- Characterisation of the write-back output of `access`: when it is signalled,
which address is reported, and when that address decodes back to the victim's tag,
the accessed set index and the new offset. -/
theorem writeBack_characterisation (c : Cache) (a : Nat) (w : Bool)
    (hb : 1 ≤ c.blockSize) (hs : 1 ≤ c.numSets) (hp : c.blockSize * c.numSets < 2 ^ 32) :
    ((c.access a w).2.writeBack.isSome = true ↔
      ((c.access a w).2.hit = false ∧ c.isWriteThrough = false ∧
        (c.victim a).valid = true ∧ (c.victim a).dirty = true)) ∧
    (∀ ea, (c.access a w).2.writeBack = some ea →
      ea = (((c.victim a).tag * c.numSets + c.setIndexOf a) * c.blockSize + c.offsetOf a)
            % 2 ^ 32 ∧
      ((c.tagOf ea = (c.victim a).tag ∧ c.setIndexOf ea = c.setIndexOf a ∧
          c.offsetOf ea = c.offsetOf a) ↔
        ((c.victim a).tag * c.numSets + c.setIndexOf a) * c.blockSize + c.offsetOf a
          < 2 ^ 32)) := by
  unfold Cache.victim
  cases hf : findWay c.associativity (c.setAt (c.setIndexOf a)) (c.tagOf a) with
  | some i =>
    rw [access_hit_eq c a w i hf]
    simp
  | none =>
    rw [access_miss_eq c a w hf]
    constructor
    · cases (lineAt (c.setAt (c.setIndexOf a))
          (findLRUIndex c.associativity (c.setAt (c.setIndexOf a)))).valid <;>
        cases (lineAt (c.setAt (c.setIndexOf a))
          (findLRUIndex c.associativity (c.setAt (c.setIndexOf a)))).dirty <;>
        cases c.isWriteThrough <;> simp
    · intro ea hea
      simp only [] at hea
      split at hea
      · simp only [Option.some.injEq] at hea
        subst hea
        exact ⟨rfl, decode_rebuild_iff c _ _ _ (setIndexOf_lt c a hs)
          (Nat.mod_lt _ (by omega)) hp⟩
      · exact absurd hea (by simp)

/-- Remark on geometries outside the precondition of the specification (block size
not a power of two): in the 1-way write-back cache with one set of 3-byte blocks,
after a write to `0xFFFFFFFF` a read of address 2 misses and signals a write-back;
the victim's tag is `0x55555555`, the rebuilt value `0x55555555 * 3 + 2 = 2 ^ 32 + 1`
wraps to the reported address 1, which decodes to tag 0 and offset 1. -/
theorem writeBack_address_can_wrap :
    (((Cache.new 1 1 3 false).access 0xFFFFFFFF true).1.access 2 false).2
      = { hit := false, writeBack := some 1 } ∧
    (((Cache.new 1 1 3 false).access 0xFFFFFFFF true).1.victim 2).tag = 0x55555555 ∧
    ((Cache.new 1 1 3 false).access 0xFFFFFFFF true).1.tagOf 1 = 0 ∧
    ((Cache.new 1 1 3 false).access 0xFFFFFFFF true).1.offsetOf 1 = 1 ∧
    ((Cache.new 1 1 3 false).access 0xFFFFFFFF true).1.offsetOf 2 = 2 ∧
    ((Cache.new 1 1 3 false).access 0xFFFFFFFF true).1.tagOf 1
      ≠ (((Cache.new 1 1 3 false).access 0xFFFFFFFF true).1.victim 2).tag := by
  decide

/-! # Invariants of the reachable states -/

/-- A set of a well-formed cache has `associativity` lines, or is the empty
placeholder of an index outside the vector. -/
theorem wellFormed_setAt_cases (c : Cache) (hwf : c.WellFormed) (k : Nat) :
    (k < c.sets.length ∧ (c.setAt k).length = c.associativity) ∨
    (c.sets.length ≤ k ∧ c.setAt k = []) := by
  by_cases hk : k < c.sets.length
  · left
    exact ⟨hk, wellFormed_setAt c hwf k (by rw [← hwf.1]; exact hk)⟩
  · right
    refine ⟨by omega, ?_⟩
    unfold Cache.setAt
    simp [List.getD_eq_getElem?_getD, List.getElem?_eq_none (Nat.le_of_not_lt hk)]

/-- A valid line of a well-formed cache sits at a way below `associativity`. -/
theorem valid_lt_associativity (c : Cache) (hwf : c.WellFormed) (k j : Nat)
    (hv : (lineAt (c.setAt k) j).valid = true) : j < c.associativity := by
  have hl := valid_lt_length _ _ hv
  rcases wellFormed_setAt_cases c hwf k with ⟨_, h⟩ | ⟨_, h⟩
  · rw [← h]; exact hl
  · rw [h] at hl; simp at hl

/-- Replacing one set by a set of the same size keeps the cache well-formed. -/
theorem wellFormed_replace (c : Cache) (hwf : c.WellFormed) (k : Nat) (x : List CacheLine)
    (st : CacheStats) (hx : x.length = (c.setAt k).length) :
    Cache.WellFormed { c with sets := c.sets.set k x, stats := st } := by
  refine ⟨by simp [hwf.1], ?_⟩
  intro s hs
  simp only [] at hs
  rcases wellFormed_setAt_cases c hwf k with ⟨hk, hlen⟩ | ⟨hk, _⟩
  · rcases List.mem_or_eq_of_mem_set hs with h | h
    · exact hwf.2 s h
    · rw [h, hx, hlen]
  · rw [List.set_eq_of_length_le hk] at hs
    exact hwf.2 s hs

/-- Every call keeps the vector sizes. -/
theorem wellFormed_step (c : Cache) (op : Op) (hwf : c.WellFormed) :
    (c.step op).1.WellFormed := by
  cases op with
  | access a w =>
    simp only [Cache.step]
    cases hf : findWay c.associativity (c.setAt (c.setIndexOf a)) (c.tagOf a) with
    | some i =>
      rw [access_hit_eq c a w i hf]
      apply wellFormed_replace c hwf
      rw [length_updateLRU]
      split <;> simp
    | none =>
      rw [access_miss_eq c a w hf]
      apply wellFormed_replace c hwf
      rw [length_updateLRU, List.length_set]
  | evict a =>
    simp only [Cache.step]
    cases hf : findWay c.associativity (c.setAt (c.setIndexOf a)) (c.tagOf a) with
    | some i =>
      rw [evict_found_eq c a i hf]
      exact wellFormed_replace c hwf _ _ c.stats (by rw [List.length_set])
    | none => rw [evict_absent_eq c a hf]; exact hwf
  | clearCache =>
    simp only [Cache.step]
    refine ⟨by simp [Cache.clearCache, hwf.1], ?_⟩
    intro s hs
    simp only [Cache.clearCache, List.mem_map] at hs
    obtain ⟨s0, hs0, rfl⟩ := hs
    rw [List.length_map]
    exact hwf.2 s0 hs0

theorem wellFormed_new (numSets assoc blockSize : Nat) (wt : Bool) :
    (Cache.new numSets assoc blockSize wt).WellFormed := by
  refine ⟨by simp [Cache.new], ?_⟩
  intro s hs
  simp only [Cache.new] at hs
  rw [List.eq_of_mem_replicate hs, List.length_replicate]
  rfl

/-- A valid line lives in an existing set at an existing way. -/
theorem valid_in_range (c : Cache) (k j : Nat) (hv : (lineAt (c.setAt k) j).valid = true) :
    k < c.sets.length ∧ j < (c.setAt k).length := by
  have hj := valid_lt_length _ _ hv
  refine ⟨?_, hj⟩
  by_contra hk
  have : c.setAt k = [] := by
    unfold Cache.setAt
    simp [List.getD_eq_getElem?_getD, List.getElem?_eq_none (Nat.le_of_not_lt hk)]
  rw [this] at hj
  simp at hj

/-- A hit changes neither the valid flag nor the tag of any line. -/
theorem access_hit_line (c : Cache) (a : Nat) (w : Bool) (i : Nat)
    (hf : findWay c.associativity (c.setAt (c.setIndexOf a)) (c.tagOf a) = some i) (k j : Nat) :
    (lineAt ((c.access a w).1.setAt k) j).valid = (lineAt (c.setAt k) j).valid ∧
    (lineAt ((c.access a w).1.setAt k) j).tag = (lineAt (c.setAt k) j).tag := by
  rw [access_hit_eq c a w i hf, setAt_set]
  split
  · rename_i h
    rw [(updateLRU_fields _ _ _ _).1, (updateLRU_fields _ _ _ _).2.2.1, ← h.1]
    split
    · rw [lineAt_set]
      split
      · rename_i h2
        rw [← h2.1]
        exact ⟨rfl, rfl⟩
      · exact ⟨rfl, rfl⟩
    · exact ⟨rfl, rfl⟩
  · exact ⟨rfl, rfl⟩

/-- A miss changes valid flag and tag only at the victim way of the accessed set,
which becomes valid with the tag of the address. -/
theorem access_miss_line (c : Cache) (a : Nat) (w : Bool)
    (hf : findWay c.associativity (c.setAt (c.setIndexOf a)) (c.tagOf a) = none) (k j : Nat) :
    (k = c.setIndexOf a ∧ j = findLRUIndex c.associativity (c.setAt (c.setIndexOf a)) ∧
      (lineAt ((c.access a w).1.setAt k) j).valid = true ∧
      (lineAt ((c.access a w).1.setAt k) j).tag = c.tagOf a) ∨
    ((lineAt ((c.access a w).1.setAt k) j).valid = (lineAt (c.setAt k) j).valid ∧
      (lineAt ((c.access a w).1.setAt k) j).tag = (lineAt (c.setAt k) j).tag) := by
  rw [access_miss_eq c a w hf, setAt_set]
  split
  · rename_i h
    rw [(updateLRU_fields _ _ _ _).1, (updateLRU_fields _ _ _ _).2.2.1, lineAt_set]
    split
    · rename_i h2
      left
      exact ⟨h.1.symm, h2.1.symm, rfl, rfl⟩
    · right
      rw [← h.1]
      exact ⟨rfl, rfl⟩
  · right
    exact ⟨rfl, rfl⟩

/-- Pointwise description of `evict`: exactly the way found by the search is
invalidated and cleaned. -/
theorem evict_line (c : Cache) (a : Nat) (k j : Nat) :
    lineAt ((c.evict a).setAt k) j =
      if k = c.setIndexOf a ∧
          findWay c.associativity (c.setAt (c.setIndexOf a)) (c.tagOf a) = some j then
        { lineAt (c.setAt k) j with valid := false, dirty := false }
      else lineAt (c.setAt k) j := by
  cases hf : findWay c.associativity (c.setAt (c.setIndexOf a)) (c.tagOf a) with
  | none => rw [evict_absent_eq c a hf]; simp
  | some i =>
    rw [evict_found_eq c a i hf]
    have hi := findWay_some _ _ _ _ hf
    have hr := valid_in_range c _ _ hi.2.1
    have := setAt_set c (c.setIndexOf a) k ((c.setAt (c.setIndexOf a)).set i
      { lineAt (c.setAt (c.setIndexOf a)) i with valid := false, dirty := false }) c.stats
    simp only [] at this
    rw [this]
    by_cases hk : k = c.setIndexOf a
    · subst hk
      rw [if_pos ⟨rfl, hr.1⟩, lineAt_set]
      by_cases hij : i = j
      · subst hij
        simp [hr.2]
      · simp [hij]
    · rw [if_neg (fun h => hk h.1.symm), if_neg (fun h => hk h.1)]

/-- Every call keeps the tags of the valid lines of each set distinct. -/
theorem uniqueTags_step (c : Cache) (op : Op) (h : c.WellFormed ∧ c.UniqueTags) :
    (c.step op).1.WellFormed ∧ (c.step op).1.UniqueTags := by
  obtain ⟨hwf, hu⟩ := h
  refine ⟨wellFormed_step c op hwf, ?_⟩
  intro k i j hvi hvj htag
  cases op with
  | access a w =>
    simp only [Cache.step] at hvi hvj htag
    cases hf : findWay c.associativity (c.setAt (c.setIndexOf a)) (c.tagOf a) with
    | some i0 =>
      rw [(access_hit_line c a w i0 hf k i).1] at hvi
      rw [(access_hit_line c a w i0 hf k j).1] at hvj
      rw [(access_hit_line c a w i0 hf k i).2, (access_hit_line c a w i0 hf k j).2] at htag
      exact hu k i j hvi hvj htag
    | none =>
      have hnone := (findWay_eq_none _ _ _).mp hf
      rcases access_miss_line c a w hf k i with ⟨hk, hi, _, hti⟩ | ⟨hi1, hi2⟩ <;>
        rcases access_miss_line c a w hf k j with ⟨hk2, hj, _, htj⟩ | ⟨hj1, hj2⟩
      · rw [hi, hj]
      · exfalso
        rw [hj1] at hvj
        rw [hti, hj2, hk] at htag
        rw [hk] at hvj
        exact hnone j (valid_lt_associativity c hwf _ j hvj) hvj htag.symm
      · exfalso
        rw [hi1] at hvi
        rw [htj, hi2, hk2] at htag
        rw [hk2] at hvi
        exact hnone i (valid_lt_associativity c hwf _ i hvi) hvi htag
      · rw [hi1] at hvi
        rw [hj1] at hvj
        rw [hi2, hj2] at htag
        exact hu k i j hvi hvj htag
  | evict a =>
    simp only [Cache.step] at hvi hvj htag
    rw [evict_line] at hvi hvj htag
    rw [evict_line] at htag
    split at hvi
    · simp at hvi
    · split at hvj
      · simp at hvj
      · rename_i h1 h2
        rw [if_neg h1, if_neg h2] at htag
        exact hu k i j hvi hvj htag
  | clearCache =>
    simp only [Cache.step] at hvi
    rw [setAt_clearCache, (lineAt_cleared _ i).1] at hvi
    exact absurd hvi (by decide)

theorem uniqueTags_new (numSets assoc blockSize : Nat) (wt : Bool) :
    (Cache.new numSets assoc blockSize wt).UniqueTags := by
  intro k i j hvi
  rw [lineAt_new] at hvi
  exact absurd hvi (by decide)

/-- Every state reached from a freshly constructed cache is well-formed and has
distinct valid tags in each set. -/
theorem reachable_invariant (numSets assoc blockSize : Nat) (wt : Bool) (ops : List Op) :
    ((Cache.new numSets assoc blockSize wt).exec ops).WellFormed ∧
    ((Cache.new numSets assoc blockSize wt).exec ops).UniqueTags :=
  exec_induction (fun c => c.WellFormed ∧ c.UniqueTags) uniqueTags_step ops _
    ⟨wellFormed_new numSets assoc blockSize wt, uniqueTags_new numSets assoc blockSize wt⟩

theorem reachable_wellFormed_uniqueTags (c : Cache) (hr : c.Reachable) :
    c.WellFormed ∧ c.UniqueTags := by
  obtain ⟨numSets, assoc, blockSize, wt, ops, rfl⟩ := hr
  exact reachable_invariant numSets assoc blockSize wt ops

theorem evict_decoders (c : Cache) (a b : Nat) :
    (c.evict a).setIndexOf b = c.setIndexOf b ∧ (c.evict a).tagOf b = c.tagOf b := by
  obtain ⟨h1, _, h3, _⟩ := evict_config c a
  unfold Cache.setIndexOf Cache.tagOf Cache.tagDivisor
  rw [h1, h3]
  exact ⟨rfl, rfl⟩

/-! # External invalidation -/

/-- C7: for every cache state reachable from a freshly constructed cache and every
address `a`, `evict(a)` leaves the statistics, the configuration and every line
unchanged except that the valid line in `a`'s set whose tag equals `a`'s tag (if
there is one) gets `valid = false` and `dirty = false`; afterwards no valid line in
`a`'s set carries `a`'s tag, so an immediately following access to `a` misses; and if
`a`'s block was not present the whole cache state is unchanged. -/
theorem evict_frame (c : Cache) (hr : c.Reachable) (a : Nat) :
    ((c.evict a).stats = c.stats ∧ (c.evict a).numSets = c.numSets ∧
      (c.evict a).associativity = c.associativity ∧ (c.evict a).blockSize = c.blockSize ∧
      (c.evict a).isWriteThrough = c.isWriteThrough ∧
      (c.evict a).sets.length = c.sets.length) ∧
    (∀ k j, lineAt ((c.evict a).setAt k) j =
      if k = c.setIndexOf a ∧ (lineAt (c.setAt k) j).valid = true ∧
          (lineAt (c.setAt k) j).tag = c.tagOf a then
        { lineAt (c.setAt k) j with valid := false, dirty := false }
      else lineAt (c.setAt k) j) ∧
    (∀ j, (lineAt ((c.evict a).setAt (c.setIndexOf a)) j).valid = true →
      (lineAt ((c.evict a).setAt (c.setIndexOf a)) j).tag ≠ c.tagOf a) ∧
    (∀ w, ((c.evict a).access a w).2.hit = false) ∧
    ((∀ j, (lineAt (c.setAt (c.setIndexOf a)) j).valid = true →
        (lineAt (c.setAt (c.setIndexOf a)) j).tag ≠ c.tagOf a) → c.evict a = c) := by
  obtain ⟨hwf, hu⟩ := reachable_wellFormed_uniqueTags c hr
  have hcond : ∀ k j, (k = c.setIndexOf a ∧
      findWay c.associativity (c.setAt (c.setIndexOf a)) (c.tagOf a) = some j) ↔
      (k = c.setIndexOf a ∧ (lineAt (c.setAt k) j).valid = true ∧
        (lineAt (c.setAt k) j).tag = c.tagOf a) := by
    intro k j
    constructor
    · rintro ⟨rfl, hf⟩
      have := findWay_some _ _ _ _ hf
      exact ⟨rfl, this.2.1, this.2.2⟩
    · rintro ⟨rfl, hv, ht⟩
      refine ⟨rfl, ?_⟩
      obtain ⟨i, hi⟩ := findWay_isSome c.associativity _ _ j
        (valid_lt_associativity c hwf _ j hv) hv ht
      have hi2 := findWay_some _ _ _ _ hi
      rw [hi, hu _ i j hi2.2.1 hv (by rw [hi2.2.2, ht])]
  have hline : ∀ k j, lineAt ((c.evict a).setAt k) j =
      if k = c.setIndexOf a ∧ (lineAt (c.setAt k) j).valid = true ∧
          (lineAt (c.setAt k) j).tag = c.tagOf a then
        { lineAt (c.setAt k) j with valid := false, dirty := false }
      else lineAt (c.setAt k) j := by
    intro k j
    rw [evict_line]
    by_cases h : k = c.setIndexOf a ∧
        findWay c.associativity (c.setAt (c.setIndexOf a)) (c.tagOf a) = some j
    · rw [if_pos h, if_pos ((hcond k j).mp h)]
    · rw [if_neg h, if_neg (fun h2 => h ((hcond k j).mpr h2))]
  have hgone : ∀ j, (lineAt ((c.evict a).setAt (c.setIndexOf a)) j).valid = true →
      (lineAt ((c.evict a).setAt (c.setIndexOf a)) j).tag ≠ c.tagOf a := by
    intro j hv ht
    rw [hline] at hv ht
    split at hv
    · simp at hv
    · rename_i hn
      rw [if_neg hn] at ht
      exact hn ⟨rfl, hv, ht⟩
  obtain ⟨h1, h2, h3, h4, h5, h6⟩ := evict_config c a
  refine ⟨⟨h6, h1, h2, h3, h4, h5⟩, hline, hgone, ?_, ?_⟩
  · intro w
    cases hh : ((c.evict a).access a w).2.hit with
    | false => rfl
    | true =>
      obtain ⟨i, hi⟩ := (access_hit_iff _ a w).mp hh
      rw [(evict_decoders c a a).1, (evict_decoders c a a).2] at hi
      have := findWay_some _ _ _ _ hi
      exact absurd this.2.2 (hgone i this.2.1)
  · intro habsent
    apply evict_absent_eq
    rw [findWay_eq_none]
    intro i _ hv
    exact habsent i hv

/-- Witness of `evict_frame`: the 2-way cache (2 sets, 64-byte blocks) after a write
to address 0, evicting address 0. -/
theorem evict_frame_witness :
    ((Cache.new 2 2 64 false).exec [Op.access 0 true]).Reachable ∧
    ∀ w, ((((Cache.new 2 2 64 false).exec [Op.access 0 true]).evict 0).access 0 w).2.hit
      = false :=
  ⟨⟨2, 2, 64, false, [Op.access 0 true], rfl⟩,
    (evict_frame ((Cache.new 2 2 64 false).exec [Op.access 0 true])
      ⟨2, 2, 64, false, [Op.access 0 true], rfl⟩ 0).2.2.2.1⟩

/-! # Simulation of the reference true-LRU cache -/

/-- Erasing commutes with a map that is injective on the list. -/
theorem map_erase_of_nodup (f : Nat → Nat) :
    ∀ (p : List Nat) (i : Nat), (p.map f).Nodup → i ∈ p →
      (p.erase i).map f = (p.map f).erase (f i) := by
  intro p
  induction p with
  | nil => intro i _ hi; simp at hi
  | cons x xs ih =>
    intro i hnd hi
    rw [List.map_cons, List.nodup_cons] at hnd
    by_cases hx : x = i
    · subst hx
      simp
    · have hi2 : i ∈ xs := by
        rcases List.mem_cons.mp hi with h | h
        · exact absurd h.symm hx
        · exact h
      have hfx : f x ≠ f i := by
        intro h
        apply hnd.1
        rw [h]
        exact List.mem_map_of_mem f hi2
      rw [List.erase_cons_tail (by simpa using hx), List.map_cons, List.map_cons,
        List.erase_cons_tail (by simpa using hfx), ih i hnd.2 hi2]

theorem lruOrder_nodup (n : Nat) (s : List CacheLine) (p : List Nat) (h : LRUOrder n s p) :
    p.Nodup := List.Nodup.of_map _ h.2.2.2

/-- The valid ways never outnumber the ways of the set. -/
theorem lruOrder_length_le (n : Nat) (s : List CacheLine) (p : List Nat)
    (h : LRUOrder n s p) : p.length ≤ n := by
  have hsub : p ⊆ List.range n := fun i hi => List.mem_range.mpr ((h.1 i).mp hi).1
  have := (List.subperm_of_subset (lruOrder_nodup n s p h) hsub).length_le
  simpa using this

/-- The list of valid ways is shorter than the set exactly when the set has an
invalid line. -/
theorem lruOrder_length_lt_iff (n : Nat) (s : List CacheLine) (p : List Nat)
    (h : LRUOrder n s p) :
    p.length < n ↔ ∃ i, i < n ∧ (lineAt s i).valid = false := by
  constructor
  · intro hlt
    by_contra hno
    have hall : List.range n ⊆ p := by
      intro i hi
      rw [h.1 i]
      refine ⟨List.mem_range.mp hi, ?_⟩
      cases hv : (lineAt s i).valid with
      | true => rfl
      | false => exact absurd ⟨i, List.mem_range.mp hi, hv⟩ hno
    have := (List.subperm_of_subset (List.nodup_range n) hall).length_le
    simp at this
    omega
  · rintro ⟨i, hi, hv⟩
    have hip : i ∉ p := by
      intro hc
      have := ((h.1 i).mp hc).2
      rw [hv] at this
      exact absurd this (by decide)
    have hsub : p ⊆ (List.range n).erase i := by
      intro j hj
      rw [(List.nodup_range n).mem_erase_iff]
      refine ⟨fun hji => hip (hji ▸ hj), List.mem_range.mpr ((h.1 j).mp hj).1⟩
    have := (List.subperm_of_subset (lruOrder_nodup n s p h) hsub).length_le
    rw [List.length_erase_of_mem (List.mem_range.mpr hi)] at this
    simp at this
    omega

/-- Touching way `i` (a hit or an insertion): `i` moves to the front of the
recency order, the other listed ways age by one. -/
theorem lruOrder_touch (n : Nat) (s s2 : List CacheLine) (p q : List Nat) (i : Nat)
    (h : LRUOrder n s p) (hq : ∀ j, j ∈ q ↔ j ∈ p ∧ j ≠ i) (hsub : q.Sublist p)
    (hi : i < n) (hvi : (lineAt s2 i).valid = true)
    (hvalid : ∀ j, j ≠ i → (lineAt s2 j).valid = (lineAt s j).valid)
    (htag : ∀ j, j ≠ i → (lineAt s2 j).tag = (lineAt s j).tag)
    (hlru0 : (lineAt s2 i).lru = 0)
    (hlru : ∀ j, j ∈ q → (lineAt s2 j).lru = (lineAt s j).lru + 1)
    (hnew : (lineAt s2 i).tag ∉ q.map (fun j => (lineAt s j).tag)) :
    LRUOrder n s2 (i :: q) ∧
      (i :: q).map (fun j => (lineAt s2 j).tag)
        = (lineAt s2 i).tag :: q.map (fun j => (lineAt s j).tag) := by
  have hmap : q.map (fun j => (lineAt s2 j).tag) = q.map (fun j => (lineAt s j).tag) := by
    apply List.map_congr_left
    intro j hj
    exact htag j ((hq j).mp hj).2
  refine ⟨⟨?_, ?_, ?_, ?_⟩, by rw [List.map_cons, hmap]⟩
  · intro j
    by_cases hji : j = i
    · subst hji
      simp [hi, hvi]
    · rw [List.mem_cons, hq j, hvalid j hji, ← h.1 j]
      constructor
      · rintro (h1 | h1)
        · exact absurd h1 hji
        · exact h1.1
      · intro h1
        exact Or.inr ⟨h1, hji⟩
  · rw [List.pairwise_cons]
    constructor
    · intro j hj
      rw [hlru0, hlru j hj]
      have := h.2.2.1 j ((hq j).mp hj).1
      omega
    · apply List.Pairwise.imp_of_mem _ (List.Pairwise.sublist hsub h.2.1)
      intro a b ha hb hab
      rw [hlru a ha, hlru b hb]
      omega
  · intro j hj
    rcases List.mem_cons.mp hj with rfl | hj
    · rw [hlru0]
    · rw [hlru j hj]
      have := h.2.2.1 j ((hq j).mp hj).1
      omega
  · rw [List.map_cons, hmap, List.nodup_cons]
    exact ⟨hnew, List.Nodup.sublist (hsub.map _) h.2.2.2⟩

/-- A hit on one set refines the reference access: the hit way moves to the front. -/
theorem set_hit_refines (n : Nat) (s s0 : List CacheLine) (p : List Nat) (t i : Nat)
    (h : LRUOrder n s p) (hf : findWay n s t = some i)
    (hs0 : ∀ j, (lineAt s0 j).valid = (lineAt s j).valid ∧
      (lineAt s0 j).tag = (lineAt s j).tag ∧ (lineAt s0 j).lru = (lineAt s j).lru) :
    LRUOrder n (updateLRU n s0 i) (i :: p.erase i) ∧
      (i :: p.erase i).map (fun j => (lineAt (updateLRU n s0 i) j).tag)
        = (RefSet.access n (p.map (fun j => (lineAt s j).tag)) t).1 ∧
      (RefSet.access n (p.map (fun j => (lineAt s j).tag)) t).2 = (true, none) := by
  obtain ⟨hi, hvi, hti⟩ := findWay_some n s t i hf
  have hip : i ∈ p := (h.1 i).mpr ⟨hi, hvi⟩
  have hnd := lruOrder_nodup n s p h
  have htl : t ∈ p.map (fun j => (lineAt s j).tag) := by
    rw [← hti]
    exact List.mem_map_of_mem (fun j => (lineAt s j).tag) hip
  have hq : ∀ j, j ∈ p.erase i ↔ j ∈ p ∧ j ≠ i := by
    intro j
    rw [hnd.mem_erase_iff]
    exact And.comm
  have hti2 : (lineAt (updateLRU n s0 i) i).tag = t := by
    rw [(updateLRU_fields n s0 i i).2.2.1, (hs0 i).2.1, hti]
  have herase : (p.erase i).map (fun j => (lineAt s j).tag)
      = (p.map (fun j => (lineAt s j).tag)).erase t := by
    rw [map_erase_of_nodup _ p i h.2.2.2 hip, hti]
  obtain ⟨h1, h2⟩ := lruOrder_touch n s (updateLRU n s0 i) p (p.erase i) i h hq
    (List.erase_sublist i p) hi
    (by rw [(updateLRU_fields n s0 i i).1, (hs0 i).1, hvi])
    (fun j _ => by rw [(updateLRU_fields n s0 i j).1, (hs0 j).1])
    (fun j _ => by rw [(updateLRU_fields n s0 i j).2.2.1, (hs0 j).2.1])
    (by rw [lineAt_updateLRU, if_pos rfl])
    (fun j hj => by
      have hjp := (hq j).mp hj
      have hjv := (h.1 j).mp hjp.1
      rw [lineAt_updateLRU, if_neg hjp.2, if_pos ⟨hjv.1, by rw [(hs0 j).1]; exact hjv.2⟩]
      show (lineAt s0 j).lru + 1 = _
      rw [(hs0 j).2.2])
    (by
      rw [hti2, herase]
      exact h.2.2.2.not_mem_erase)
  refine ⟨h1, ?_, ?_⟩
  · rw [h2, hti2, herase]
    unfold RefSet.access
    rw [if_pos htl]
  · unfold RefSet.access
    rw [if_pos htl]

/-- A miss on one set refines the reference access: a free slot is filled when
the set is not full, otherwise the least recently used block is replaced. -/
theorem set_miss_refines (n : Nat) (s : List CacheLine) (p : List Nat) (t : Nat)
    (nl : CacheLine) (h : LRUOrder n s p) (hlen : s.length = n) (hn : 1 ≤ n)
    (hf : findWay n s t = none) (hnv : nl.valid = true) (hnt : nl.tag = t) :
    ∃ p2, LRUOrder n (updateLRU n (s.set (findLRUIndex n s) nl) (findLRUIndex n s)) p2 ∧
      p2.map (fun j =>
          (lineAt (updateLRU n (s.set (findLRUIndex n s) nl) (findLRUIndex n s)) j).tag)
        = (RefSet.access n (p.map (fun j => (lineAt s j).tag)) t).1 ∧
      (RefSet.access n (p.map (fun j => (lineAt s j).tag)) t).2
        = (false, if (lineAt s (findLRUIndex n s)).valid = true
            then some (lineAt s (findLRUIndex n s)).tag else none) := by
  have hv := findLRUIndex_lt n s hn
  have hvl : findLRUIndex n s < s.length := by rw [hlen]; exact hv
  have hnone := (findWay_eq_none n s t).mp hf
  have htl : t ∉ p.map (fun j => (lineAt s j).tag) := by
    intro hc
    obtain ⟨j, hj, hjt⟩ := List.mem_map.mp hc
    have := (h.1 j).mp hj
    exact hnone j this.1 this.2 hjt
  have hat : ∀ j, lineAt (s.set (findLRUIndex n s) nl) j
      = if findLRUIndex n s = j then nl else lineAt s j := by
    intro j
    rw [lineAt_set]
    by_cases hj : findLRUIndex n s = j
    · rw [if_pos ⟨hj, hvl⟩, if_pos hj]
    · rw [if_neg (fun hc => hj hc.1), if_neg hj]
  have hti2 : (lineAt (updateLRU n (s.set (findLRUIndex n s) nl) (findLRUIndex n s))
      (findLRUIndex n s)).tag = t := by
    rw [(updateLRU_fields _ _ _ _).2.2.1, hat, if_pos rfl, hnt]
  have hvi2 : (lineAt (updateLRU n (s.set (findLRUIndex n s) nl) (findLRUIndex n s))
      (findLRUIndex n s)).valid = true := by
    rw [(updateLRU_fields _ _ _ _).1, hat, if_pos rfl, hnv]
  have hvalid : ∀ j, j ≠ findLRUIndex n s →
      (lineAt (updateLRU n (s.set (findLRUIndex n s) nl) (findLRUIndex n s)) j).valid
        = (lineAt s j).valid := by
    intro j hj
    rw [(updateLRU_fields _ _ _ _).1, hat, if_neg (fun hc => hj hc.symm)]
  have htag : ∀ j, j ≠ findLRUIndex n s →
      (lineAt (updateLRU n (s.set (findLRUIndex n s) nl) (findLRUIndex n s)) j).tag
        = (lineAt s j).tag := by
    intro j hj
    rw [(updateLRU_fields _ _ _ _).2.2.1, hat, if_neg (fun hc => hj hc.symm)]
  have hlru0 : (lineAt (updateLRU n (s.set (findLRUIndex n s) nl) (findLRUIndex n s))
      (findLRUIndex n s)).lru = 0 := by
    rw [lineAt_updateLRU, if_pos rfl]
  have hlru : ∀ j, j ∈ p → j ≠ findLRUIndex n s →
      (lineAt (updateLRU n (s.set (findLRUIndex n s) nl) (findLRUIndex n s)) j).lru
        = (lineAt s j).lru + 1 := by
    intro j hj hne
    have hjv := (h.1 j).mp hj
    have hsj : lineAt (s.set (findLRUIndex n s) nl) j = lineAt s j := by
      rw [hat, if_neg (fun hc => hne hc.symm)]
    rw [lineAt_updateLRU, if_neg hne, hsj, if_pos ⟨hjv.1, hjv.2⟩]
  by_cases hfull : p.length < n
  · -- a free slot exists: the victim is the first invalid way
    obtain ⟨k, hk, hkinv, hkfirst⟩ :=
      exists_first_invalid s n ((lruOrder_length_lt_iff n s p h).mp hfull)
    have hvk : findLRUIndex n s = k := findLRUIndex_invalid n s k hk hkinv hkfirst
    have hvinv : (lineAt s (findLRUIndex n s)).valid = false := by rw [hvk]; exact hkinv
    have hvp : findLRUIndex n s ∉ p := by
      intro hc
      have := ((h.1 _).mp hc).2
      rw [hvinv] at this
      exact absurd this (by decide)
    obtain ⟨h1, h2⟩ := lruOrder_touch n s _ p p (findLRUIndex n s) h
      (fun j => ⟨fun hj => ⟨hj, fun hc => hvp (hc ▸ hj)⟩, fun hj => hj.1⟩)
      (List.Sublist.refl p) hv hvi2 hvalid htag hlru0
      (fun j hj => hlru j hj (fun hc => hvp (hc ▸ hj)))
      (by rw [hti2]; exact htl)
    refine ⟨_, h1, ?_, ?_⟩
    · rw [h2, hti2]
      unfold RefSet.access
      rw [if_neg htl, if_pos (by rw [List.length_map]; exact hfull)]
    · unfold RefSet.access
      rw [if_neg htl, if_pos (by rw [List.length_map]; exact hfull), hvinv]
      simp
  · -- the set is full: the victim is the last way of the recency order
    have hallv : ∀ j, j < n → (lineAt s j).valid = true := by
      intro j hj
      cases hvj : (lineAt s j).valid with
      | true => rfl
      | false => exact absurd ((lruOrder_length_lt_iff n s p h).mpr ⟨j, hj, hvj⟩) hfull
    have hne : p ≠ [] := by
      intro hc
      rw [hc] at hfull
      simp at hfull
      omega
    have hnn : ∀ j, j < n → 0 ≤ (lineAt s j).lru :=
      fun j hj => h.2.2.1 j ((h.1 j).mpr ⟨hj, hallv j hj⟩)
    obtain ⟨_, hmax, _⟩ := findLRUIndex_full n s hn hallv hnn
    have hsplit := List.dropLast_append_getLast hne
    have hpw := h.2.1
    rw [← hsplit, List.pairwise_append] at hpw
    have hbelow : ∀ j, j ∈ p.dropLast → (lineAt s j).lru < (lineAt s (p.getLast hne)).lru :=
      fun j hj => hpw.2.2 j hj _ (List.mem_singleton.mpr rfl)
    have hvp : findLRUIndex n s ∈ p := (h.1 _).mpr ⟨hv, hallv _ hv⟩
    have hlastp : p.getLast hne ∈ p := List.getLast_mem hne
    have hvlast : findLRUIndex n s = p.getLast hne := by
      rw [← hsplit, List.mem_append] at hvp
      rcases hvp with hc | hc
      · have h1 := hbelow _ hc
        have h2 := hmax _ ((h.1 _).mp hlastp).1
        omega
      · exact List.mem_singleton.mp hc
    have hq : ∀ j, j ∈ p.dropLast ↔ j ∈ p ∧ j ≠ findLRUIndex n s := by
      intro j
      constructor
      · intro hj
        refine ⟨(List.dropLast_sublist p).subset hj, ?_⟩
        intro hc
        have := hbelow j hj
        rw [hc, hvlast] at this
        omega
      · rintro ⟨hj, hjne⟩
        rw [← hsplit, List.mem_append] at hj
        rcases hj with hj | hj
        · exact hj
        · exact absurd (by rw [hvlast]; exact List.mem_singleton.mp hj) hjne
    have htl2 : t ∉ p.dropLast.map (fun j => (lineAt s j).tag) :=
      fun hc => htl (((List.dropLast_sublist p).map _).subset hc)
    obtain ⟨h1, h2⟩ := lruOrder_touch n s _ p p.dropLast (findLRUIndex n s) h hq
      (List.dropLast_sublist p) hv hvi2 hvalid htag hlru0
      (fun j hj => hlru j ((hq j).mp hj).1 ((hq j).mp hj).2)
      (by rw [hti2]; exact htl2)
    have hlenl : ¬ (p.map (fun j => (lineAt s j).tag)).length < n := by
      rw [List.length_map]; exact hfull
    refine ⟨_, h1, ?_, ?_⟩
    · rw [h2, hti2]
      unfold RefSet.access
      rw [if_neg htl, if_neg hlenl, List.map_dropLast]
    · unfold RefSet.access
      rw [if_neg htl, if_neg hlenl, List.getLast?_map, List.getLast?_eq_getLast p hne,
        hallv _ hv, hvlast]
      simp

theorem getD_set_refSets (sets : List RefSet) (i j : Nat) (x : RefSet) :
    (sets.set i x).getD j [] = if i = j ∧ i < sets.length then x else sets.getD j [] := by
  by_cases h : i = j
  · subst h
    by_cases hl : i < sets.length
    · simp [List.getD_eq_getElem?_getD, hl]
    · have h1 : (sets.set i x)[i]? = none := List.getElem?_eq_none (by simpa using hl)
      have h2 : sets[i]? = none := List.getElem?_eq_none (by simpa using hl)
      simp [List.getD_eq_getElem?_getD, hl, h1, h2]
  · simp [List.getD_eq_getElem?_getD, h, List.getElem?_set_ne h]

/-- The empty recency order describes a set without valid lines. -/
theorem lruOrder_nil (n : Nat) (s : List CacheLine)
    (h : ∀ j, (lineAt s j).valid = false) : LRUOrder n s [] := by
  refine ⟨?_, List.Pairwise.nil, fun i hi => by simp at hi, by simp⟩
  intro i
  simp [h i]

/-- Invalidating the way found by the search removes it from the recency order. -/
theorem set_evict_refines (n : Nat) (s : List CacheLine) (p : List Nat) (t i : Nat)
    (h : LRUOrder n s p) (hf : findWay n s t = some i) :
    LRUOrder n (s.set i { lineAt s i with valid := false, dirty := false }) (p.erase i) ∧
      (p.erase i).map (fun j =>
          (lineAt (s.set i { lineAt s i with valid := false, dirty := false }) j).tag)
        = (p.map (fun j => (lineAt s j).tag)).erase t := by
  obtain ⟨hi, hvi, hti⟩ := findWay_some n s t i hf
  have hil := valid_lt_length s i hvi
  have hip : i ∈ p := (h.1 i).mpr ⟨hi, hvi⟩
  have hnd := lruOrder_nodup n s p h
  have htag : ∀ j, (lineAt (s.set i { lineAt s i with valid := false, dirty := false }) j).tag
      = (lineAt s j).tag := by
    intro j
    rw [lineAt_set]
    split
    · rename_i hc; rw [← hc.1]
    · rfl
  have hlru : ∀ j, (lineAt (s.set i { lineAt s i with valid := false, dirty := false }) j).lru
      = (lineAt s j).lru := by
    intro j
    rw [lineAt_set]
    split
    · rename_i hc; rw [← hc.1]
    · rfl
  have hval : ∀ j,
      (lineAt (s.set i { lineAt s i with valid := false, dirty := false }) j).valid
        = if j = i then false else (lineAt s j).valid := by
    intro j
    rw [lineAt_set]
    by_cases hj : j = i
    · subst hj
      rw [if_pos ⟨rfl, hil⟩, if_pos rfl]
    · rw [if_neg (fun hc => hj hc.1.symm), if_neg hj]
  have hmap : (p.erase i).map (fun j =>
      (lineAt (s.set i { lineAt s i with valid := false, dirty := false }) j).tag)
      = (p.erase i).map (fun j => (lineAt s j).tag) :=
    List.map_congr_left (fun j _ => htag j)
  refine ⟨⟨?_, ?_, ?_, ?_⟩, ?_⟩
  · intro j
    rw [hnd.mem_erase_iff, hval, h.1 j]
    by_cases hj : j = i
    · simp [hj]
    · simp [hj]
  · apply List.Pairwise.imp _ (List.Pairwise.sublist (List.erase_sublist i p) h.2.1)
    intro a b hab
    rw [hlru a, hlru b]
    exact hab
  · intro j hj
    rw [hlru j]
    exact h.2.2.1 j ((List.erase_sublist i p).subset hj)
  · rw [hmap]
    exact List.Nodup.sublist ((List.erase_sublist i p).map _) h.2.2.2
  · rw [hmap, map_erase_of_nodup _ p i h.2.2.2 hip, hti]

theorem refines_new (numSets assoc blockSize : Nat) (wt : Bool) :
    Refines (Cache.new numSets assoc blockSize wt) (RefCache.new numSets) := by
  refine ⟨wellFormed_new numSets assoc blockSize wt, by simp [RefCache.new, Cache.new], ?_⟩
  intro k hk
  have hk2 : k < numSets := by simpa [Cache.new] using hk
  refine ⟨[], lruOrder_nil _ _ (fun j => by rw [lineAt_new]; rfl), ?_⟩
  simp [RefCache.new, List.getD_eq_getElem?_getD, List.getElem?_replicate, hk2]

theorem refines_clearCache (c : Cache) (r : RefCache) (h : Refines c r) :
    Refines c.clearCache r.clearCache := by
  obtain ⟨hwf, hlen, _⟩ := h
  refine ⟨wellFormed_step c Op.clearCache hwf, by simp [RefCache.clearCache, Cache.clearCache, hlen],
    ?_⟩
  intro k hk
  have hk2 : k < r.sets.length := by simpa [Cache.clearCache, hlen] using hk
  refine ⟨[], lruOrder_nil _ _ (fun j => by rw [setAt_clearCache]; exact (lineAt_cleared _ j).1),
    ?_⟩
  simp [RefCache.clearCache, List.getD_eq_getElem?_getD, List.getElem?_map, hk2]

/-- Re-establishing the simulation after one set of the cache and the
corresponding reference set have been replaced. -/
theorem refines_replace (c c2 : Cache) (r : RefCache) (k : Nat) (x : RefSet) (p2 : List Nat)
    (h : Refines c r) (hk : k < c.sets.length) (hwf2 : c2.WellFormed)
    (hlen2 : c2.sets.length = c.sets.length) (hassoc : c2.associativity = c.associativity)
    (hother : ∀ j, j ≠ k → c2.setAt j = c.setAt j)
    (hp2 : LRUOrder c.associativity (c2.setAt k) p2)
    (hx : x = p2.map (fun i => (lineAt (c2.setAt k) i).tag)) :
    Refines c2 { sets := r.sets.set k x } := by
  obtain ⟨_, hlen, hsets⟩ := h
  refine ⟨hwf2, by simp [hlen, hlen2], ?_⟩
  intro j hj
  rw [hlen2] at hj
  simp only []
  rw [getD_set_refSets, hassoc]
  by_cases hjk : j = k
  · subst hjk
    rw [if_pos ⟨rfl, by rw [hlen]; exact hk⟩]
    exact ⟨p2, hp2, hx⟩
  · rw [if_neg (fun hc => hjk hc.1.symm), hother j hjk]
    exact hsets j hj

/-- One `access` keeps the simulation and gives the same hit flag and replaced
block as the reference access. -/
theorem refines_access (c : Cache) (r : RefCache) (a : Nat) (w : Bool) (h : Refines c r)
    (hn : 1 ≤ c.numSets) (ha : 1 ≤ c.associativity) :
    Refines (c.access a w).1
        (RefCache.accessAt c.associativity r (c.setIndexOf a) (c.tagOf a)).1 ∧
      ((c.access a w).2.hit, c.replacedTag a)
        = (RefCache.accessAt c.associativity r (c.setIndexOf a) (c.tagOf a)).2 := by
  have hwf := h.1
  have hk : c.setIndexOf a < c.sets.length := by rw [hwf.1]; exact setIndexOf_lt c a hn
  obtain ⟨p, hp, hrp⟩ := h.2.2 _ hk
  have hwf2 : (c.access a w).1.WellFormed := wellFormed_step c (Op.access a w) hwf
  obtain ⟨_, hassoc, _, _, hlen2⟩ := access_config c a w
  have hother : ∀ j, j ≠ c.setIndexOf a → (c.access a w).1.setAt j = c.setAt j :=
    fun j hj => access_setAt_other c a w j hj
  unfold RefCache.accessAt
  simp only []
  rw [hrp]
  cases hf : findWay c.associativity (c.setAt (c.setIndexOf a)) (c.tagOf a) with
  | some i =>
    have hs0 : ∀ j,
        (lineAt (if w && !c.isWriteThrough then
            (c.setAt (c.setIndexOf a)).set i
              { lineAt (c.setAt (c.setIndexOf a)) i with dirty := true }
          else c.setAt (c.setIndexOf a)) j).valid = (lineAt (c.setAt (c.setIndexOf a)) j).valid ∧
        (lineAt (if w && !c.isWriteThrough then
            (c.setAt (c.setIndexOf a)).set i
              { lineAt (c.setAt (c.setIndexOf a)) i with dirty := true }
          else c.setAt (c.setIndexOf a)) j).tag = (lineAt (c.setAt (c.setIndexOf a)) j).tag ∧
        (lineAt (if w && !c.isWriteThrough then
            (c.setAt (c.setIndexOf a)).set i
              { lineAt (c.setAt (c.setIndexOf a)) i with dirty := true }
          else c.setAt (c.setIndexOf a)) j).lru = (lineAt (c.setAt (c.setIndexOf a)) j).lru := by
      intro j
      split
      · rw [lineAt_set]
        split
        · rename_i hc
          rw [← hc.1]
          exact ⟨rfl, rfl, rfl⟩
        · exact ⟨rfl, rfl, rfl⟩
      · exact ⟨rfl, rfl, rfl⟩
    obtain ⟨h1, h2, h3⟩ := set_hit_refines c.associativity _ _ p (c.tagOf a) i hp hf hs0
    rw [← access_hit_setAt c a w i hf hk] at h1 h2
    constructor
    · exact refines_replace c _ r _ _ _ h hk hwf2 hlen2 hassoc hother h1 h2.symm
    · rw [h3]
      have hr : c.replacedTag a = none := by
        unfold Cache.replacedTag
        simp only [hf]
      rw [hr, access_hit_eq c a w i hf]
  | none =>
    obtain ⟨p2, h1, h2, h3⟩ := set_miss_refines c.associativity _ p (c.tagOf a)
      { valid := true, dirty := w && !c.isWriteThrough, tag := c.tagOf a,
        offset := c.offsetOf a, lru := 0 }
      hp (wellFormed_setAt c hwf _ (setIndexOf_lt c a hn)) ha hf rfl rfl
    rw [← access_miss_setAt c a w hf hk] at h1 h2
    constructor
    · exact refines_replace c _ r _ _ _ h hk hwf2 hlen2 hassoc hother h1 h2.symm
    · rw [h3]
      have hr : c.replacedTag a =
          if (lineAt (c.setAt (c.setIndexOf a))
              (findLRUIndex c.associativity (c.setAt (c.setIndexOf a)))).valid = true
          then some (lineAt (c.setAt (c.setIndexOf a))
              (findLRUIndex c.associativity (c.setAt (c.setIndexOf a)))).tag
          else none := by
        unfold Cache.replacedTag
        simp only [hf]
      rw [hr, access_miss_eq c a w hf]

/-- One `evict` keeps the simulation with the reference evict. -/
theorem refines_evict (c : Cache) (r : RefCache) (a : Nat) (h : Refines c r)
    (hn : 1 ≤ c.numSets) :
    Refines (c.evict a) (RefCache.evictAt r (c.setIndexOf a) (c.tagOf a)) := by
  have hwf := h.1
  have hk : c.setIndexOf a < c.sets.length := by rw [hwf.1]; exact setIndexOf_lt c a hn
  obtain ⟨p, hp, hrp⟩ := h.2.2 _ hk
  have hwf2 : (c.evict a).WellFormed := wellFormed_step c (Op.evict a) hwf
  obtain ⟨_, hassoc, _, _, hlen2, _⟩ := evict_config c a
  unfold RefCache.evictAt
  rw [hrp]
  cases hf : findWay c.associativity (c.setAt (c.setIndexOf a)) (c.tagOf a) with
  | some i =>
    obtain ⟨h1, h2⟩ := set_evict_refines c.associativity _ p (c.tagOf a) i hp hf
    have hset : (c.evict a).setAt (c.setIndexOf a)
        = (c.setAt (c.setIndexOf a)).set i
          { lineAt (c.setAt (c.setIndexOf a)) i with valid := false, dirty := false } := by
      apply set_ext
      · have := (wellFormed_setAt_cases (c.evict a) hwf2 (c.setIndexOf a))
        rcases this with ⟨_, hl⟩ | ⟨hl, _⟩
        · rw [hl, hassoc, List.length_set]
          exact (wellFormed_setAt c hwf _ (setIndexOf_lt c a hn)).symm
        · rw [hlen2] at hl; omega
      · intro j _
        rw [evict_line, lineAt_set]
        have hil := valid_lt_length _ _ (findWay_some _ _ _ _ hf).2.1
        by_cases hij : i = j
        · subst hij
          rw [if_pos ⟨rfl, hf⟩, if_pos ⟨rfl, hil⟩]
        · rw [if_neg (fun hc => hij (Option.some.inj (hf.symm.trans hc.2))),
            if_neg (fun hc => hij hc.1)]
    rw [← hset] at h1 h2
    have hother : ∀ j, j ≠ c.setIndexOf a → (c.evict a).setAt j = c.setAt j := by
      intro j hj
      rw [evict_found_eq c a i hf]
      have := setAt_set c (c.setIndexOf a) j ((c.setAt (c.setIndexOf a)).set i
        { lineAt (c.setAt (c.setIndexOf a)) i with valid := false, dirty := false }) c.stats
      simp only [] at this
      rw [this, if_neg (fun hc => hj hc.1.symm)]
    exact refines_replace c _ r _ _ _ h hk hwf2 hlen2 hassoc hother h1 h2.symm
  | none =>
    have hnone := (findWay_eq_none _ _ _).mp hf
    have htl : c.tagOf a ∉ p.map (fun j => (lineAt (c.setAt (c.setIndexOf a)) j).tag) := by
      intro hc
      obtain ⟨j, hj, hjt⟩ := List.mem_map.mp hc
      have := (hp.1 j).mp hj
      exact hnone j this.1 this.2 hjt
    rw [List.erase_of_not_mem htl, evict_absent_eq c a hf]
    exact refines_replace c c r _ _ p h hk hwf rfl rfl (fun _ _ => rfl) hp rfl

/-- With a representable geometry the decoder of the cache computes the set index
and the tag of the specification. -/
theorem decode_eq_ref (c : Cache) (a : Nat) (hp : c.blockSize * c.numSets < 2 ^ 32) :
    c.setIndexOf a = refSetIndex c.numSets c.blockSize a ∧
    c.tagOf a = refTag c.numSets c.blockSize a := by
  have hp2 : c.blockSize * c.numSets < wordSize := hp
  unfold Cache.setIndexOf Cache.tagOf Cache.tagDivisor refSetIndex refTag
  rw [Nat.mod_eq_of_lt hp2]
  exact ⟨rfl, rfl⟩

/-- From related states the cache (with unbounded counters) and the reference take
the same decisions on every sequence of calls, when the geometry is representable. -/
theorem decisions_refine (numSets assoc blockSize : Nat) (hn : 1 ≤ numSets) (ha : 1 ≤ assoc)
    (hp : blockSize * numSets < 2 ^ 32) :
    ∀ (ops : List Op) (c : Cache) (r : RefCache), Refines c r → c.numSets = numSets →
      c.associativity = assoc → c.blockSize = blockSize →
      c.decisions ops = RefCache.decisions numSets assoc blockSize r ops := by
  intro ops
  induction ops with
  | nil => intro c r _ _ _ _; rfl
  | cons op ops ih =>
    intro c r h h1 h2 h3
    have hdec : ∀ a, c.setIndexOf a = refSetIndex numSets blockSize a ∧
        c.tagOf a = refTag numSets blockSize a := by
      intro a
      have := decode_eq_ref c a (by rw [h1, h3]; exact hp)
      rw [h1, h3] at this
      exact this
    cases op with
    | access a w =>
      obtain ⟨hc1, hc2, hc3, _, _⟩ := access_config c a w
      obtain ⟨hr, hd⟩ := refines_access c r a w h (by rw [h1]; exact hn) (by rw [h2]; exact ha)
      rw [h2, (hdec a).1, (hdec a).2] at hr hd
      simp only [Cache.decisions, RefCache.decisions, RefCache.step, RefCache.access]
      rw [← hd, ih _ _ hr (hc1.trans h1) (hc2.trans h2) (hc3.trans h3)]
    | evict a =>
      obtain ⟨hc1, hc2, hc3, _, _⟩ := evict_config c a
      have hr := refines_evict c r a h (by rw [h1]; exact hn)
      rw [(hdec a).1, (hdec a).2] at hr
      simp only [Cache.decisions, RefCache.decisions, RefCache.step, RefCache.evict, Cache.step]
      exact ih _ _ hr (hc1.trans h1) (hc2.trans h2) (hc3.trans h3)
    | clearCache =>
      obtain ⟨hc1, hc2, hc3, _, _⟩ := clearCache_config c
      have hr := refines_clearCache c r h
      simp only [Cache.decisions, RefCache.decisions, RefCache.step, Cache.step]
      exact ih _ _ hr (hc1.trans h1) (hc2.trans h2) (hc3.trans h3)

/-! # Blocks and decoded addresses -/

/-- With a representable geometry, set index and tag together identify the memory
block `address / blockSize`. -/
theorem same_block_iff (c : Cache) (a b : Nat) (hp : c.blockSize * c.numSets < wordSize) :
    (c.setIndexOf a = c.setIndexOf b ∧ c.tagOf a = c.tagOf b) ↔
      a / c.blockSize = b / c.blockSize := by
  have key : ∀ x, c.tagOf x * c.numSets + c.setIndexOf x = x / c.blockSize := by
    intro x
    unfold Cache.tagOf Cache.setIndexOf Cache.tagDivisor
    rw [Nat.mod_eq_of_lt hp, ← Nat.div_div_eq_div_mul, Nat.mul_comm]
    exact Nat.div_add_mod _ _
  constructor
  · rintro ⟨h1, h2⟩
    rw [← key a, ← key b, h1, h2]
  · intro h
    unfold Cache.tagOf Cache.setIndexOf Cache.tagDivisor
    rw [Nat.mod_eq_of_lt hp, ← Nat.div_div_eq_div_mul, ← Nat.div_div_eq_div_mul, h]
    exact ⟨rfl, rfl⟩

/-! # Write-back addresses in the reachable states -/

theorem step_decoders (c : Cache) (op : Op) (b : Nat) :
    (c.step op).1.setIndexOf b = c.setIndexOf b ∧ (c.step op).1.tagOf b = c.tagOf b := by
  obtain ⟨h1, _, h3, _⟩ := step_config c op
  unfold Cache.setIndexOf Cache.tagOf Cache.tagDivisor
  rw [h1, h3]
  exact ⟨rfl, rfl⟩

/-- Calls with 32-bit addresses only store tags of 32-bit addresses. -/
theorem tagsFromAddresses_step (c : Cache) (op : Op) (hop : op.InRange)
    (h : c.TagsFromAddresses) : (c.step op).1.TagsFromAddresses := by
  intro k j hv
  have hdec := step_decoders c op
  suffices hs : ∃ a, a < wordSize ∧ c.setIndexOf a = k ∧
      c.tagOf a = (lineAt ((c.step op).1.setAt k) j).tag by
    obtain ⟨a, ha, h1, h2⟩ := hs
    exact ⟨a, ha, by rw [(hdec a).1]; exact h1, by rw [(hdec a).2]; exact h2⟩
  cases op with
  | access a w =>
    simp only [Cache.step] at hv ⊢
    cases hf : findWay c.associativity (c.setAt (c.setIndexOf a)) (c.tagOf a) with
    | some i =>
      rw [(access_hit_line c a w i hf k j).1] at hv
      rw [(access_hit_line c a w i hf k j).2]
      exact h k j hv
    | none =>
      rcases access_miss_line c a w hf k j with ⟨hk, _, _, ht⟩ | ⟨h1, h2⟩
      · exact ⟨a, hop, hk.symm, ht.symm⟩
      · rw [h1] at hv
        rw [h2]
        exact h k j hv
  | evict a =>
    simp only [Cache.step] at hv ⊢
    rw [evict_line] at hv ⊢
    split at hv
    · simp at hv
    · rename_i hc
      rw [if_neg hc]
      exact h k j hv
  | clearCache =>
    simp only [Cache.step] at hv
    rw [setAt_clearCache, (lineAt_cleared _ j).1] at hv
    exact absurd hv (by decide)

theorem tagsFromAddresses_exec :
    ∀ (ops : List Op) (c : Cache), (∀ op ∈ ops, op.InRange) → c.TagsFromAddresses →
      (c.exec ops).TagsFromAddresses := by
  intro ops
  induction ops with
  | nil => intro c _ h; exact h
  | cons op ops ih =>
    intro c hops h
    exact ih _ (fun o ho => hops o (List.mem_cons_of_mem _ ho))
      (tagsFromAddresses_step c op (hops op (List.mem_cons_self _ _)) h)

theorem exec_config : ∀ (ops : List Op) (c : Cache),
    (c.exec ops).numSets = c.numSets ∧ (c.exec ops).associativity = c.associativity ∧
    (c.exec ops).blockSize = c.blockSize ∧ (c.exec ops).isWriteThrough = c.isWriteThrough := by
  intro ops
  induction ops with
  | nil => intro c; exact ⟨rfl, rfl, rfl, rfl⟩
  | cons op ops ih =>
    intro c
    obtain ⟨h1, h2, h3, h4, _⟩ := step_config c op
    obtain ⟨i1, i2, i3, i4⟩ := ih (c.step op).1
    exact ⟨i1.trans h1, i2.trans h2, i3.trans h3, i4.trans h4⟩

/-- In the states reached with 32-bit addresses, when the block size divides
`2 ^ 32` (a power of two) and the geometry is representable, the write-back
address never wraps: it decodes to the victim's tag, the accessed set index and
the offset of the new access. -/
theorem reachable_writeBack_decodes (numSets assoc blockSize : Nat) (wt : Bool)
    (ops : List Op) (a : Nat) (w : Bool) (hops : ∀ op ∈ ops, op.InRange)
    (hs : 1 ≤ numSets) (hp : blockSize * numSets < 2 ^ 32) (hdvd : blockSize ∣ 2 ^ 32) :
    ∀ ea, (((Cache.new numSets assoc blockSize wt).exec ops).access a w).2.writeBack = some ea →
      ((Cache.new numSets assoc blockSize wt).exec ops).tagOf ea
        = (((Cache.new numSets assoc blockSize wt).exec ops).victim a).tag ∧
      ((Cache.new numSets assoc blockSize wt).exec ops).setIndexOf ea
        = ((Cache.new numSets assoc blockSize wt).exec ops).setIndexOf a ∧
      ((Cache.new numSets assoc blockSize wt).exec ops).offsetOf ea
        = ((Cache.new numSets assoc blockSize wt).exec ops).offsetOf a := by
  obtain ⟨g1, _, g3, _⟩ := exec_config ops (Cache.new numSets assoc blockSize wt)
  have hb : 1 ≤ blockSize := by
    rcases Nat.eq_zero_or_pos blockSize with h0 | h0
    · rw [h0] at hdvd
      have := Nat.eq_zero_of_zero_dvd hdvd
      norm_num at this
    · exact h0
  have hinv : ((Cache.new numSets assoc blockSize wt).exec ops).TagsFromAddresses := by
    apply tagsFromAddresses_exec ops _ hops
    intro k j hv
    rw [lineAt_new] at hv
    exact absurd hv (by decide)
  generalize (Cache.new numSets assoc blockSize wt).exec ops = c at g1 g3 hinv ⊢
  have g1 : c.numSets = numSets := g1
  have g3 : c.blockSize = blockSize := g3
  have hp2 : c.blockSize * c.numSets < 2 ^ 32 := by rw [g1, g3]; exact hp
  have hb2 : 1 ≤ c.blockSize := by rw [g3]; exact hb
  have hs2 : 1 ≤ c.numSets := by rw [g1]; exact hs
  intro ea hea
  obtain ⟨hiff, haddr⟩ := writeBack_characterisation c a w hb2 hs2 hp2
  have hsome : (c.access a w).2.writeBack.isSome = true := by rw [hea]; rfl
  obtain ⟨_, _, hvv, _⟩ := hiff.mp hsome
  apply (haddr ea hea).2.mpr
  obtain ⟨a2, ha2, hset, htag⟩ := hinv _ _ hvv
  have hex := decode_exact c a2 hp2
  rw [hset, htag] at hex
  have hoff : c.offsetOf a < c.blockSize := Nat.mod_lt _ (by omega)
  obtain ⟨q, hq⟩ := hdvd
  rw [← g3] at hq
  -- the block of `a2` lies below `2 ^ 32`, which is a whole number of blocks
  have hblk : (Cache.victim c a).tag * c.numSets + c.setIndexOf a < q := by
    by_contra hge
    have hge2 : q ≤ (Cache.victim c a).tag * c.numSets + c.setIndexOf a := Nat.le_of_not_lt hge
    have := Nat.mul_le_mul_right c.blockSize hge2
    have hwa : a2 < c.blockSize * q := by rw [← hq]; exact ha2
    rw [Nat.mul_comm] at hwa
    have : ((Cache.victim c a).tag * c.numSets + c.setIndexOf a) * c.blockSize ≤ a2 := by
      rw [← hex]; exact Nat.le_add_right _ _
    omega
  have h3 : ((Cache.victim c a).tag * c.numSets + c.setIndexOf a + 1) * c.blockSize
      ≤ q * c.blockSize := Nat.mul_le_mul_right _ hblk
  rw [Nat.add_mul, Nat.one_mul] at h3
  rw [hq, Nat.mul_comm c.blockSize q]
  unfold Cache.victim at h3 ⊢
  omega

/-! # Invalid opcodes -/

/-- An opcode without a `case` of its own only produces the "Invalid operation"
line. -/
theorem processLine_unknown (mode : Nat) (ic dc : Cache) (operation : Int) (address : Nat)
    (h : knownOpcode operation = false) :
    processLine mode ic dc operation address =
      { instructionCache := ic, dataCache := dc, decision := none,
        output := [Msg.invalidOperation operation] } := by
  unfold knownOpcode at h
  simp only [Bool.or_eq_false_iff, decide_eq_false_iff_not] at h
  obtain ⟨⟨⟨⟨⟨h0, h1⟩, h2⟩, h3⟩, h8⟩, h9⟩ := h
  unfold processLine
  rw [if_neg h0, if_neg h1, if_neg h2, if_neg h3, if_neg h8, if_neg h9]

/-- Removing the lines with an unknown opcode changes neither the final caches nor
the results of the accesses. -/
theorem processTrace_filter_known (mode : Nat) :
    ∀ (trace : List (Int × Nat)) (ic dc : Cache),
      (processTrace mode ic dc trace).instructionCache
        = (processTrace mode ic dc (trace.filter (fun e => knownOpcode e.1))).instructionCache ∧
      (processTrace mode ic dc trace).dataCache
        = (processTrace mode ic dc (trace.filter (fun e => knownOpcode e.1))).dataCache ∧
      (processTrace mode ic dc trace).decisions.reduceOption
        = (processTrace mode ic dc
            (trace.filter (fun e => knownOpcode e.1))).decisions.reduceOption := by
  intro trace
  induction trace with
  | nil => intro ic dc; exact ⟨rfl, rfl, rfl⟩
  | cons e rest ih =>
    intro ic dc
    obtain ⟨operation, address⟩ := e
    cases hk : knownOpcode operation with
    | true =>
      rw [List.filter_cons_of_pos (by simpa using hk)]
      simp only [processTrace]
      obtain ⟨h1, h2, h3⟩ := ih (processLine mode ic dc operation address).instructionCache
        (processLine mode ic dc operation address).dataCache
      refine ⟨h1, h2, ?_⟩
      cases (processLine mode ic dc operation address).decision with
      | none => simpa [List.reduceOption_cons_of_none] using h3
      | some r => simpa [List.reduceOption_cons_of_some] using h3
    | false =>
      rw [List.filter_cons_of_neg (by simpa using hk)]
      simp only [processTrace]
      rw [processLine_unknown mode ic dc operation address hk]
      simpa [List.reduceOption_cons_of_none] using ih ic dc

/-- C11: for every opcode outside `{0, 1, 2, 3, 8, 9}` and every address the step of
the trace driver leaves both caches (lines and statistics) unchanged, makes no cache
call and prints only the "Invalid operation" line; and it does not stop the run:
for every trace the final cache states (and the results of the accesses) equal
those obtained from the same trace with all invalid-opcode lines removed. -/
theorem invalid_opcode_is_skipped (mode : Nat) (ic dc : Cache) :
    knownOpcode 99 = false ∧
    (∀ (operation : Int) (address : Nat), knownOpcode operation = false →
      (processLine mode ic dc operation address).instructionCache = ic ∧
      (processLine mode ic dc operation address).dataCache = dc ∧
      (processLine mode ic dc operation address).decision = none ∧
      (processLine mode ic dc operation address).output = [Msg.invalidOperation operation]) ∧
    (∀ trace : List (Int × Nat),
      (processTrace mode ic dc trace).instructionCache
        = (processTrace mode ic dc (trace.filter (fun e => knownOpcode e.1))).instructionCache ∧
      (processTrace mode ic dc trace).dataCache
        = (processTrace mode ic dc (trace.filter (fun e => knownOpcode e.1))).dataCache ∧
      (processTrace mode ic dc trace).decisions.reduceOption
        = (processTrace mode ic dc
            (trace.filter (fun e => knownOpcode e.1))).decisions.reduceOption) := by
  refine ⟨by decide, ?_, ?_⟩
  · intro operation address h
    rw [processLine_unknown mode ic dc operation address h]
    exact ⟨rfl, rfl, rfl, rfl⟩
  · intro trace
    exact processTrace_filter_known mode trace ic dc

/-! # The scenario of the specification (64-byte blocks, 2 sets, 2 ways, write-back) -/

/-- C12 (counterexample): in the scenario geometry, after write `0x00`, write `0x80`,
read `0x00` from the fresh cache, it is not the case that the write to `0x100`
reports the write-back address `0x00` and the following write to `0x180` reports
`0x80`. -/
theorem scenario_writeBack_order_differs :
    ¬ ((((Cache.new 2 2 64 false).exec
            [Op.access 0x00 true, Op.access 0x80 true, Op.access 0x00 false]).access
          0x100 true).2 = { hit := false, writeBack := some 0x00 } ∧
        ((((Cache.new 2 2 64 false).exec
            [Op.access 0x00 true, Op.access 0x80 true, Op.access 0x00 false]).access
          0x100 true).1.access 0x180 true).2 = { hit := false, writeBack := some 0x80 }) := by
  decide

/-- C12 (as amended): in the scenario geometry, after write `0x00`, write `0x80`,
read `0x00` from the fresh cache, the write to `0x100` is a miss that signals a
write-back with reported address `0x80` (the least recently used line of set 0), and
the following write to `0x180` is a miss that signals a write-back with reported
address `0x00`. -/
theorem scenario_writeBack_addresses :
    (((Cache.new 2 2 64 false).exec
          [Op.access 0x00 true, Op.access 0x80 true, Op.access 0x00 false]).access
        0x100 true).2 = { hit := false, writeBack := some 0x80 } ∧
    ((((Cache.new 2 2 64 false).exec
          [Op.access 0x00 true, Op.access 0x80 true, Op.access 0x00 false]).access
        0x100 true).1.access 0x180 true).2 = { hit := false, writeBack := some 0x00 } := by
  decide

/-- C13 (counterexample): in the scenario geometry the decoder of `access` does not
map `0x80` to tag 0 and to a set index different from that of `0x00`. -/
theorem scenario_0x80_not_in_other_set :
    ¬ ((Cache.new 2 2 64 false).tagOf 0x80 = 0 ∧
        (Cache.new 2 2 64 false).setIndexOf 0x80 ≠ (Cache.new 2 2 64 false).setIndexOf 0x00) := by
  decide

/-- C13 (as amended): in the scenario geometry the decoder of `access` maps `0x80` to
tag 1 and to set index 0, the set index of `0x00` (whose tag is 0), so the write to
`0x80` after the write to `0x00` lands in the same set, in the free way 1, and is a
miss with no write-back. -/
theorem scenario_0x80_same_set_other_tag :
    (Cache.new 2 2 64 false).tagOf 0x80 = 1 ∧
    (Cache.new 2 2 64 false).setIndexOf 0x80 = 0 ∧
    (Cache.new 2 2 64 false).setIndexOf 0x00 = 0 ∧
    (Cache.new 2 2 64 false).tagOf 0x00 = 0 ∧
    findLRUIndex 2 (((Cache.new 2 2 64 false).access 0x00 true).1.setAt 0) = 1 ∧
    (((Cache.new 2 2 64 false).access 0x00 true).1.access 0x80 true).2
      = { hit := false, writeBack := none } := by
  decide

/-! # Write-back reports of the trace driver -/

theorem allClean_new (numSets assoc blockSize : Nat) (wt : Bool) :
    (Cache.new numSets assoc blockSize wt).AllClean := by
  intro k j
  rw [lineAt_new]
  rfl

/-- A read access keeps a clean cache clean. -/
theorem allClean_access_read (c : Cache) (a : Nat) (h : c.AllClean) :
    (c.access a false).1.AllClean := by
  intro k j
  cases hf : findWay c.associativity (c.setAt (c.setIndexOf a)) (c.tagOf a) with
  | some i =>
    rw [access_hit_eq c a false i hf, setAt_set]
    split
    · rw [(updateLRU_fields _ _ _ _).2.1]
      simp only [Bool.false_and]
      exact h _ j
    · exact h k j
  | none =>
    rw [access_miss_eq c a false hf, setAt_set]
    split
    · rw [(updateLRU_fields _ _ _ _).2.1, lineAt_set]
      split
      · rfl
      · exact h _ j
    · exact h k j

theorem allClean_evict (c : Cache) (a : Nat) (h : c.AllClean) : (c.evict a).AllClean := by
  intro k j
  rw [evict_line]
  split
  · rfl
  · exact h k j

theorem allClean_clearCache (c : Cache) : c.clearCache.AllClean := by
  intro k j
  rw [setAt_clearCache]
  exact (lineAt_cleared _ j).2

/-- An access to a clean cache signals no write-back. -/
theorem allClean_no_writeBack (c : Cache) (a : Nat) (w : Bool) (h : c.AllClean) :
    (c.access a w).2.writeBack = none := by
  cases hf : findWay c.associativity (c.setAt (c.setIndexOf a)) (c.tagOf a) with
  | some i => rw [access_hit_eq c a w i hf]
  | none =>
    rw [access_miss_eq c a w hf]
    simp [h (c.setIndexOf a) (findLRUIndex c.associativity (c.setAt (c.setIndexOf a)))]

/-- The instruction cache only sees reads, evicts and clears: it stays clean. -/
theorem processLine_instruction_clean (mode : Nat) (ic dc : Cache) (operation : Int)
    (address : Nat) (h : ic.AllClean) :
    (processLine mode ic dc operation address).instructionCache.AllClean := by
  unfold processLine
  split
  · exact h
  · split
    · exact h
    · split
      · exact allClean_access_read ic address h
      · split
        · split
          · exact allClean_evict ic address h
          · exact h
        · split
          · exact allClean_clearCache ic
          · split <;> exact h

/-- In verbose mode every write-back signalled on a trace line is reported on
that line, provided the instruction cache is clean. -/
theorem processLine_reports_writeBack (mode : Nat) (hmode : 0 < mode) (ic dc : Cache)
    (operation : Int) (address : Nat) (h : ic.AllClean) (r : AccessResult) (ea : Nat)
    (hr : (processLine mode ic dc operation address).decision = some r)
    (hea : r.writeBack = some ea) :
    Msg.dataWriteToL2 ea ∈ (processLine mode ic dc operation address).output ∨
    Msg.dataWriteToL2Evict ea ∈ (processLine mode ic dc operation address).output := by
  by_cases h0 : operation = 0
  · simp only [processLine, if_pos h0, Option.some.injEq] at hr ⊢
    left
    simp [reportWriteBack, whenVerbose, hmode, hr, hea]
  · by_cases h1 : operation = 1
    · simp only [processLine, if_neg h0, if_pos h1, Option.some.injEq] at hr ⊢
      right
      simp [reportWriteBack, whenVerbose, hmode, hr, hea]
    · by_cases h2 : operation = 2
      · simp only [processLine, if_neg h0, if_neg h1, if_pos h2, Option.some.injEq] at hr
        have := allClean_no_writeBack ic address false h
        rw [hr, hea] at this
        exact absurd this (by simp)
      · simp only [processLine, if_neg h0, if_neg h1, if_neg h2] at hr
        split at hr <;> (try split at hr) <;> (try split at hr) <;> simp at hr

theorem traceOutcomes_report (mode : Nat) (hmode : 0 < mode) :
    ∀ (trace : List (Int × Nat)) (ic dc : Cache), ic.AllClean →
      ∀ o ∈ traceOutcomes mode ic dc trace, ∀ (r : AccessResult) (ea : Nat),
        o.decision = some r → r.writeBack = some ea →
        Msg.dataWriteToL2 ea ∈ o.output ∨ Msg.dataWriteToL2Evict ea ∈ o.output := by
  intro trace
  induction trace with
  | nil => intro ic dc _ o ho; simp [traceOutcomes] at ho
  | cons e rest ih =>
    intro ic dc h o ho r ea hr hea
    obtain ⟨operation, address⟩ := e
    simp only [traceOutcomes, List.mem_cons] at ho
    rcases ho with rfl | ho
    · exact processLine_reports_writeBack mode hmode ic dc operation address h r ea hr hea
    · exact ih _ _ (processLine_instruction_clean mode ic dc operation address h) o ho r ea hr hea

/-- The result of `processTrace` collects the outcomes of the lines. -/
theorem processTrace_eq_outcomes (mode : Nat) :
    ∀ (trace : List (Int × Nat)) (ic dc : Cache),
      (processTrace mode ic dc trace).decisions
        = (traceOutcomes mode ic dc trace).map (fun o => o.decision) ∧
      (processTrace mode ic dc trace).output
        = ((traceOutcomes mode ic dc trace).map (fun o => o.output)).flatten := by
  intro trace
  induction trace with
  | nil => intro ic dc; exact ⟨rfl, rfl⟩
  | cons e rest ih =>
    intro ic dc
    obtain ⟨operation, address⟩ := e
    obtain ⟨h1, h2⟩ := ih (processLine mode ic dc operation address).instructionCache
      (processLine mode ic dc operation address).dataCache
    simp only [processTrace, traceOutcomes, List.map_cons, List.flatten_cons]
    rw [h1, h2]
    exact ⟨rfl, rfl⟩

theorem processTrace_instruction_clean (mode : Nat) :
    ∀ (trace : List (Int × Nat)) (ic dc : Cache), ic.AllClean →
      (processTrace mode ic dc trace).instructionCache.AllClean := by
  intro trace
  induction trace with
  | nil => intro ic dc h; exact h
  | cons e rest ih =>
    intro ic dc h
    obtain ⟨operation, address⟩ := e
    simp only [processTrace]
    exact ih _ _ (processLine_instruction_clean mode ic dc operation address h)

/-- C14: for every trace processed in verbose mode from freshly constructed caches,
every access issued for opcode 0, 1 or 2 that signals a write-back gives rise to a
write-back line carrying the evicted address in the output of that same trace line
(the output of the run being the concatenation of the outputs of its lines); an
instruction fetch (opcode 2) never signals a write-back, because the instruction
cache is only read and stays clean, so none goes unreported. -/
theorem writeBack_always_reported (mode : Nat) (hmode : 0 < mode)
    (setsI assocI blockI setsD assocD blockD : Nat) (wtI wtD : Bool)
    (trace : List (Int × Nat)) :
    (∀ o ∈ traceOutcomes mode (Cache.new setsI assocI blockI wtI)
          (Cache.new setsD assocD blockD wtD) trace,
      ∀ (r : AccessResult) (ea : Nat), o.decision = some r → r.writeBack = some ea →
        Msg.dataWriteToL2 ea ∈ o.output ∨ Msg.dataWriteToL2Evict ea ∈ o.output) ∧
    ((processTrace mode (Cache.new setsI assocI blockI wtI)
          (Cache.new setsD assocD blockD wtD) trace).decisions
        = (traceOutcomes mode (Cache.new setsI assocI blockI wtI)
            (Cache.new setsD assocD blockD wtD) trace).map (fun o => o.decision) ∧
      (processTrace mode (Cache.new setsI assocI blockI wtI)
          (Cache.new setsD assocD blockD wtD) trace).output
        = ((traceOutcomes mode (Cache.new setsI assocI blockI wtI)
            (Cache.new setsD assocD blockD wtD) trace).map (fun o => o.output)).flatten) ∧
    (∀ address : Nat,
      (processLine mode
          (processTrace mode (Cache.new setsI assocI blockI wtI)
            (Cache.new setsD assocD blockD wtD) trace).instructionCache
          (processTrace mode (Cache.new setsI assocI blockI wtI)
            (Cache.new setsD assocD blockD wtD) trace).dataCache 2 address).decision
        = some ((processTrace mode (Cache.new setsI assocI blockI wtI)
            (Cache.new setsD assocD blockD wtD) trace).instructionCache.access
              address false).2 ∧
      ((processTrace mode (Cache.new setsI assocI blockI wtI)
          (Cache.new setsD assocD blockD wtD) trace).instructionCache.access
            address false).2.writeBack = none) := by
  refine ⟨traceOutcomes_report mode hmode trace _ _ (allClean_new _ _ _ _),
    processTrace_eq_outcomes mode trace _ _, ?_⟩
  intro address
  have hclean := processTrace_instruction_clean mode trace (Cache.new setsI assocI blockI wtI)
    (Cache.new setsD assocD blockD wtD) (allClean_new _ _ _ _)
  refine ⟨?_, allClean_no_writeBack _ address false hclean⟩
  simp [processLine]

/-- Witness of `writeBack_always_reported`: mode 1, 2-way data cache with 2 sets of
64-byte blocks, trace `1 0`, `1 80`, `1 100`: the third line signals the write-back of
address 0 and prints it. -/
theorem writeBack_always_reported_witness :
    Msg.dataWriteToL2 0 ∈
        (processLine 1 (Cache.new 2 2 64 false)
          (processTrace 1 (Cache.new 2 2 64 false) (Cache.new 2 2 64 false)
            [(1, 0), (1, 0x80)]).dataCache 1 0x100).output ∨
      Msg.dataWriteToL2Evict 0 ∈
        (processLine 1 (Cache.new 2 2 64 false)
          (processTrace 1 (Cache.new 2 2 64 false) (Cache.new 2 2 64 false)
            [(1, 0), (1, 0x80)]).dataCache 1 0x100).output :=
  (writeBack_always_reported 1 (by decide) 2 2 64 2 2 64 false false
      [(1, 0), (1, 0x80), (1, 0x100)]).1
    (processLine 1 (Cache.new 2 2 64 false)
      (processTrace 1 (Cache.new 2 2 64 false) (Cache.new 2 2 64 false)
        [(1, 0), (1, 0x80)]).dataCache 1 0x100)
    (by decide) { hit := false, writeBack := some 0 } 0 (by decide) rfl

/-! # Uniqueness of valid tags -/

/-- C15: in every cache state reachable from a freshly constructed cache by a finite
sequence of `access`, `evict` and `clearCache` calls, no set contains two distinct
valid lines with the same tag; so the lookup loop of `access` and `evict` can match
at most one line: the way it returns is the only valid way carrying the tag. -/
theorem reachable_unique_valid_tags (c : Cache) (hr : c.Reachable) :
    (∀ k i j, (lineAt (c.setAt k) i).valid = true → (lineAt (c.setAt k) j).valid = true →
      (lineAt (c.setAt k) i).tag = (lineAt (c.setAt k) j).tag → i = j) ∧
    (∀ k t i, (lineAt (c.setAt k) i).valid = true → (lineAt (c.setAt k) i).tag = t →
      findWay c.associativity (c.setAt k) t = some i) := by
  obtain ⟨hwf, hu⟩ := reachable_wellFormed_uniqueTags c hr
  refine ⟨hu, ?_⟩
  intro k t i hv ht
  obtain ⟨i2, hi2⟩ := findWay_isSome c.associativity _ t i
    (valid_lt_associativity c hwf k i hv) hv ht
  have h2 := findWay_some _ _ _ _ hi2
  rw [hi2, hu k i2 i h2.2.1 hv (by rw [h2.2.2, ht])]

/-- Witness of `reachable_unique_valid_tags`: the 2-way cache with 2 sets of 64-byte
blocks after writes to `0x00` and `0x80`, which share set 0. -/
theorem reachable_unique_valid_tags_witness :
    ((Cache.new 2 2 64 false).exec [Op.access 0 true, Op.access 0x80 true]).Reachable ∧
    findWay 2
      (((Cache.new 2 2 64 false).exec [Op.access 0 true, Op.access 0x80 true]).setAt 0) 1
      = some 1 :=
  ⟨⟨2, 2, 64, false, [Op.access 0 true, Op.access 0x80 true], rfl⟩,
    (reachable_unique_valid_tags
      ((Cache.new 2 2 64 false).exec [Op.access 0 true, Op.access 0x80 true])
      ⟨2, 2, 64, false, [Op.access 0 true, Op.access 0x80 true], rfl⟩).2 0 1 1
      (by decide) (by decide)⟩

/-! # Victim selection -/

/-- C16: for every set of size `associativity ≥ 1` whose recency counters are
non-negative, `findLRUIndex` returns the lowest index of an invalid line if the set
has an invalid line, and otherwise the lowest index among the lines whose recency
counter is the maximum of the set. -/
theorem findLRUIndex_selects_victim (n : Nat) (s : List CacheLine) (hn : 1 ≤ n)
    (_hlen : s.length = n) (hnn : ∀ j, j < n → 0 ≤ (lineAt s j).lru) :
    ((∃ i, i < n ∧ (lineAt s i).valid = false) →
      findLRUIndex n s < n ∧ (lineAt s (findLRUIndex n s)).valid = false ∧
      ∀ j, j < findLRUIndex n s → (lineAt s j).valid = true) ∧
    ((∀ i, i < n → (lineAt s i).valid = true) →
      findLRUIndex n s < n ∧
      (∀ j, j < n → (lineAt s j).lru ≤ (lineAt s (findLRUIndex n s)).lru) ∧
      (∀ j, j < findLRUIndex n s →
        (lineAt s j).lru < (lineAt s (findLRUIndex n s)).lru)) := by
  constructor
  · intro hinv
    obtain ⟨k, hk, hkinv, hkfirst⟩ := exists_first_invalid s n hinv
    rw [findLRUIndex_invalid n s k hk hkinv hkfirst]
    exact ⟨hk, hkinv, hkfirst⟩
  · intro hv
    exact findLRUIndex_full n s hn hv hnn

/-- Witness of `findLRUIndex_selects_victim`: a full 3-way set with counters
2, 0, 2 (a tie for the maximum): the victim is way 0. -/
theorem findLRUIndex_selects_victim_witness :
    findLRUIndex 3
      [{ valid := true, dirty := false, tag := 7, offset := 0, lru := 2 },
       { valid := true, dirty := false, tag := 8, offset := 0, lru := 0 },
       { valid := true, dirty := false, tag := 9, offset := 0, lru := 2 }] = 0 ∧
    findLRUIndex 3
      [{ valid := true, dirty := false, tag := 7, offset := 0, lru := 2 },
       { valid := true, dirty := false, tag := 8, offset := 0, lru := 0 },
       { valid := true, dirty := false, tag := 9, offset := 0, lru := 2 }] < 3 :=
  have h := (findLRUIndex_selects_victim 3
      [{ valid := true, dirty := false, tag := 7, offset := 0, lru := 2 },
       { valid := true, dirty := false, tag := 8, offset := 0, lru := 0 },
       { valid := true, dirty := false, tag := 9, offset := 0, lru := 2 }]
      (by decide) rfl (by decide)).2 (by decide)
  ⟨by decide, h.1⟩

/-! # Totality of `access` and `evict` -/

theorem exec_append (xs : List Op) : ∀ (ys : List Op) (c : Cache),
    c.exec (xs ++ ys) = (c.exec xs).exec ys := by
  induction xs with
  | nil => intro ys c; rfl
  | cons x xs ih => intro ys c; exact ih ys _

theorem exec_decoders (c : Cache) (ops : List Op) (b : Nat) :
    (c.exec ops).setIndexOf b = c.setIndexOf b ∧ (c.exec ops).tagOf b = c.tagOf b ∧
    (c.exec ops).offsetOf b = c.offsetOf b := by
  obtain ⟨h1, _, h3, _⟩ := exec_config ops c
  unfold Cache.setIndexOf Cache.tagOf Cache.tagDivisor Cache.offsetOf
  rw [h1, h3]
  exact ⟨rfl, rfl, rfl⟩

theorem exec_wellFormed (c : Cache) (ops : List Op) (h : c.WellFormed) :
    (c.exec ops).WellFormed :=
  exec_induction (fun c => c.WellFormed) wellFormed_step ops c h

/-- With a representable non-zero geometry no divisor of `access` and `evict` is
zero and every index they use is inside its vector. -/
theorem indices_in_range (c : Cache) (a : Nat) (hwf : c.WellFormed) (ha : 1 ≤ c.associativity)
    (hn : 1 ≤ c.numSets) (hb : 1 ≤ c.blockSize) (hp : c.blockSize * c.numSets < 2 ^ 32) :
    c.blockSize ≠ 0 ∧ c.numSets ≠ 0 ∧ c.tagDivisor ≠ 0 ∧
    c.setIndexOf a < c.numSets ∧ c.setIndexOf a < c.sets.length ∧
    (c.setAt (c.setIndexOf a)).length = c.associativity ∧
    (∀ i, findWay c.associativity (c.setAt (c.setIndexOf a)) (c.tagOf a) = some i →
      i < c.associativity) ∧
    findLRUIndex c.associativity (c.setAt (c.setIndexOf a)) < c.associativity := by
  have hidx := setIndexOf_lt c a hn
  refine ⟨by omega, by omega, ?_, hidx, by rw [hwf.1]; exact hidx,
    wellFormed_setAt c hwf _ hidx, fun i hi => (findWay_some _ _ _ _ hi).1,
    findLRUIndex_lt _ _ ha⟩
  unfold Cache.tagDivisor
  have hp2 : c.blockSize * c.numSets < wordSize := hp
  rw [Nat.mod_eq_of_lt hp2]
  exact Nat.mul_ne_zero (by omega) (by omega)

/-- C18 (counterexample): a cache constructed with `associativity = 1`,
`numSets = 65536` and `blockSize = 65536` has `blockSize * numSets = 2 ^ 32`, which is
zero as an `unsigned int`: the tag computation `address / (blockSize * numSets)` of
`access` and `evict` divides by zero. -/
theorem tag_divisor_can_be_zero :
    1 ≤ (Cache.new 65536 1 65536 false).associativity ∧
    1 ≤ (Cache.new 65536 1 65536 false).numSets ∧
    1 ≤ (Cache.new 65536 1 65536 false).blockSize ∧
    (Cache.new 65536 1 65536 false).tagDivisor = 0 := by
  decide

/-- C18 (as amended): for a cache constructed with `associativity ≥ 1`, `numSets ≥ 1`,
`blockSize ≥ 1` and a representable product `blockSize * numSets` (below `2 ^ 32`), in
every state it reaches and for every address, `access` and `evict` divide by no
zero (`blockSize`, `numSets` and the tag divisor are non-zero), the computed set
index is below `numSets` and inside the vector of sets, the set has `associativity`
lines, and the lookup index and the victim index returned by `findLRUIndex` are
below `associativity`. -/
theorem access_evict_indices_in_range (numSets assoc blockSize : Nat) (wt : Bool)
    (ha : 1 ≤ assoc) (hn : 1 ≤ numSets) (hb : 1 ≤ blockSize)
    (hp : blockSize * numSets < 2 ^ 32) (ops : List Op) (a : Nat) :
    ((Cache.new numSets assoc blockSize wt).exec ops).blockSize ≠ 0 ∧
    ((Cache.new numSets assoc blockSize wt).exec ops).numSets ≠ 0 ∧
    ((Cache.new numSets assoc blockSize wt).exec ops).tagDivisor ≠ 0 ∧
    ((Cache.new numSets assoc blockSize wt).exec ops).setIndexOf a
      < ((Cache.new numSets assoc blockSize wt).exec ops).numSets ∧
    ((Cache.new numSets assoc blockSize wt).exec ops).setIndexOf a
      < ((Cache.new numSets assoc blockSize wt).exec ops).sets.length ∧
    (((Cache.new numSets assoc blockSize wt).exec ops).setAt
        (((Cache.new numSets assoc blockSize wt).exec ops).setIndexOf a)).length
      = ((Cache.new numSets assoc blockSize wt).exec ops).associativity ∧
    (∀ i, findWay ((Cache.new numSets assoc blockSize wt).exec ops).associativity
        (((Cache.new numSets assoc blockSize wt).exec ops).setAt
          (((Cache.new numSets assoc blockSize wt).exec ops).setIndexOf a))
        (((Cache.new numSets assoc blockSize wt).exec ops).tagOf a) = some i →
      i < ((Cache.new numSets assoc blockSize wt).exec ops).associativity) ∧
    findLRUIndex ((Cache.new numSets assoc blockSize wt).exec ops).associativity
        (((Cache.new numSets assoc blockSize wt).exec ops).setAt
          (((Cache.new numSets assoc blockSize wt).exec ops).setIndexOf a))
      < ((Cache.new numSets assoc blockSize wt).exec ops).associativity := by
  obtain ⟨g1, g2, g3, _⟩ := exec_config ops (Cache.new numSets assoc blockSize wt)
  have g1b : ((Cache.new numSets assoc blockSize wt).exec ops).numSets = numSets := g1
  have g2b : ((Cache.new numSets assoc blockSize wt).exec ops).associativity = assoc := g2
  have g3b : ((Cache.new numSets assoc blockSize wt).exec ops).blockSize = blockSize := g3
  exact indices_in_range _ a (exec_wellFormed _ ops (wellFormed_new _ _ _ _))
    (by rw [g2b]; exact ha) (by rw [g1b]; exact hn) (by rw [g3b]; exact hb)
    (by rw [g1b, g3b]; exact hp)

/-- Witness of `access_evict_indices_in_range`: the data cache of `main` (16384
sets, 4 ways, 64-byte blocks) after a write to address 0, at address `0x12345678`. -/
theorem access_evict_indices_in_range_witness :
    ((Cache.new 16384 4 64 false).exec [Op.access 0 true]).tagDivisor ≠ 0 ∧
    ((Cache.new 16384 4 64 false).exec [Op.access 0 true]).setIndexOf 0x12345678
      < ((Cache.new 16384 4 64 false).exec [Op.access 0 true]).numSets :=
  have h := access_evict_indices_in_range 16384 4 64 false (by decide) (by decide) (by decide)
    (by norm_num) [Op.access 0 true] 0x12345678
  ⟨h.2.2.1, h.2.2.2.1⟩

/-! # Effect of one access on the valid lines -/

/-- Lines after a hit at way `i`: flags and tags are kept, the hit line becomes
dirty on a write in write-back mode, and in the accessed set the hit line gets
counter 0 while the other valid lines age by one. -/
theorem access_hit_valid (c : Cache) (a : Nat) (w : Bool) (i : Nat)
    (hf : findWay c.associativity (c.setAt (c.setIndexOf a)) (c.tagOf a) = some i)
    (hwf : c.WellFormed) (k j : Nat) :
    (lineAt ((c.access a w).1.setAt k) j).valid = (lineAt (c.setAt k) j).valid ∧
    (lineAt ((c.access a w).1.setAt k) j).tag = (lineAt (c.setAt k) j).tag ∧
    (lineAt ((c.access a w).1.setAt k) j).dirty
      = (if k = c.setIndexOf a ∧ j = i then
          ((lineAt (c.setAt k) j).dirty || (w && !c.isWriteThrough))
        else (lineAt (c.setAt k) j).dirty) ∧
    ((lineAt (c.setAt k) j).valid = true →
      (lineAt ((c.access a w).1.setAt k) j).lru
        = if k = c.setIndexOf a then (if j = i then 0 else (lineAt (c.setAt k) j).lru + 1)
          else (lineAt (c.setAt k) j).lru) := by
  obtain ⟨hi, hvi, _⟩ := findWay_some _ _ _ _ hf
  obtain ⟨hk, hil⟩ := valid_in_range c _ _ hvi
  by_cases hks : k = c.setIndexOf a
  · subst hks
    rw [access_hit_setAt c a w i hf hk]
    have hs0 : ∀ j, lineAt (if w && !c.isWriteThrough then
          (c.setAt (c.setIndexOf a)).set i
            { lineAt (c.setAt (c.setIndexOf a)) i with dirty := true }
        else c.setAt (c.setIndexOf a)) j
        = if j = i ∧ (w && !c.isWriteThrough) = true then
            { lineAt (c.setAt (c.setIndexOf a)) j with dirty := true }
          else lineAt (c.setAt (c.setIndexOf a)) j := by
      intro j
      by_cases hw : (w && !c.isWriteThrough) = true
      · rw [if_pos hw, lineAt_set]
        by_cases hji : j = i
        · subst hji
          rw [if_pos ⟨rfl, hil⟩, if_pos ⟨rfl, hw⟩]
        · rw [if_neg (fun hc => hji hc.1.symm), if_neg (fun hc => hji hc.1)]
      · rw [if_neg hw, if_neg (fun hc => hw hc.2)]
    refine ⟨?_, ?_, ?_, ?_⟩
    · rw [(updateLRU_fields _ _ _ _).1, hs0]
      split <;> rfl
    · rw [(updateLRU_fields _ _ _ _).2.2.1, hs0]
      split <;> rfl
    · rw [(updateLRU_fields _ _ _ _).2.1, hs0]
      by_cases hji : j = i
      · subst hji
        by_cases hw : (w && !c.isWriteThrough) = true
        · rw [if_pos ⟨rfl, hw⟩, if_pos ⟨rfl, rfl⟩, hw]
          simp
        · rw [if_neg (fun hc => hw hc.2), if_pos ⟨rfl, rfl⟩]
          simp only [Bool.not_eq_true] at hw
          rw [hw]
          simp
      · rw [if_neg (fun hc => hji hc.1), if_neg (fun hc => hji hc.2)]
    · intro hv
      rw [if_pos rfl, lineAt_updateLRU]
      by_cases hji : j = i
      · rw [if_pos hji, if_pos hji]
      · have hjn := valid_lt_associativity c hwf _ j hv
        have hv0 : (lineAt (if w && !c.isWriteThrough then
            (c.setAt (c.setIndexOf a)).set i
              { lineAt (c.setAt (c.setIndexOf a)) i with dirty := true }
          else c.setAt (c.setIndexOf a)) j) = lineAt (c.setAt (c.setIndexOf a)) j := by
          rw [hs0, if_neg (fun hc => hji hc.1)]
        rw [if_neg hji, if_neg hji, hv0, if_pos ⟨hjn, hv⟩]
  · rw [access_setAt_other c a w k hks, if_neg (fun hc => hks hc.1)]
    refine ⟨rfl, rfl, rfl, fun _ => ?_⟩
    rw [if_neg hks]

/-- Valid lines after a miss: either the line is the inserted one (victim way of
the accessed set, counter 0, tag of the address, dirty exactly on a write in
write-back mode), or it was valid before with the same tag and dirty flag and, in
the accessed set, has aged by one. -/
theorem access_miss_valid (c : Cache) (a : Nat) (w : Bool)
    (hf : findWay c.associativity (c.setAt (c.setIndexOf a)) (c.tagOf a) = none)
    (hwf : c.WellFormed) (k j : Nat)
    (hv : (lineAt ((c.access a w).1.setAt k) j).valid = true) :
    (k = c.setIndexOf a ∧ j = findLRUIndex c.associativity (c.setAt (c.setIndexOf a)) ∧
      (lineAt ((c.access a w).1.setAt k) j).tag = c.tagOf a ∧
      (lineAt ((c.access a w).1.setAt k) j).dirty = (w && !c.isWriteThrough) ∧
      (lineAt ((c.access a w).1.setAt k) j).lru = 0) ∨
    (¬ (k = c.setIndexOf a ∧ j = findLRUIndex c.associativity (c.setAt (c.setIndexOf a))) ∧
      (lineAt (c.setAt k) j).valid = true ∧
      (lineAt ((c.access a w).1.setAt k) j).tag = (lineAt (c.setAt k) j).tag ∧
      (lineAt ((c.access a w).1.setAt k) j).dirty = (lineAt (c.setAt k) j).dirty ∧
      (lineAt ((c.access a w).1.setAt k) j).lru
        = if k = c.setIndexOf a then (lineAt (c.setAt k) j).lru + 1
          else (lineAt (c.setAt k) j).lru) := by
  obtain ⟨hk2, hjl⟩ := valid_in_range _ _ _ hv
  rw [(access_config c a w).2.2.2.2] at hk2
  by_cases hks : k = c.setIndexOf a
  · subst hks
    rw [access_miss_setAt c a w hf hk2] at hv hjl ⊢
    rw [length_updateLRU, List.length_set] at hjl
    by_cases hjv : j = findLRUIndex c.associativity (c.setAt (c.setIndexOf a))
    · left
      subst hjv
      refine ⟨rfl, rfl, ?_, ?_, ?_⟩
      · rw [(updateLRU_fields _ _ _ _).2.2.1, lineAt_set, if_pos ⟨rfl, hjl⟩]
      · rw [(updateLRU_fields _ _ _ _).2.1, lineAt_set, if_pos ⟨rfl, hjl⟩]
      · rw [lineAt_updateLRU, if_pos rfl]
    · right
      have hs1 : lineAt ((c.setAt (c.setIndexOf a)).set
          (findLRUIndex c.associativity (c.setAt (c.setIndexOf a)))
          { valid := true, dirty := w && !c.isWriteThrough, tag := c.tagOf a,
            offset := c.offsetOf a, lru := 0 }) j = lineAt (c.setAt (c.setIndexOf a)) j := by
        rw [lineAt_set, if_neg (fun hc => hjv hc.1.symm)]
      rw [(updateLRU_fields _ _ _ _).1, hs1] at hv
      refine ⟨fun hc => hjv hc.2, hv, ?_, ?_, ?_⟩
      · rw [(updateLRU_fields _ _ _ _).2.2.1, hs1]
      · rw [(updateLRU_fields _ _ _ _).2.1, hs1]
      · rw [if_pos rfl, lineAt_updateLRU, if_neg hjv, hs1,
          if_pos ⟨valid_lt_associativity c hwf _ j hv, hv⟩]
  · right
    rw [access_setAt_other c a w k hks] at hv ⊢
    exact ⟨fun hc => hks hc.1, hv, rfl, rfl, by rw [if_neg hks]⟩

/-! # Recency counters -/

/-- Counter of a valid line after an access: 0 for the touched way of the accessed
set, one more than before for the other valid lines of that set, unchanged in the
other sets. -/
theorem access_valid_lru (c : Cache) (a : Nat) (w : Bool) (hwf : c.WellFormed) (k j : Nat)
    (hv : (lineAt ((c.access a w).1.setAt k) j).valid = true) :
    (k = c.setIndexOf a ∧ j = c.touchedWay a ∧
      (lineAt ((c.access a w).1.setAt k) j).lru = 0) ∨
    (¬ (k = c.setIndexOf a ∧ j = c.touchedWay a) ∧ (lineAt (c.setAt k) j).valid = true ∧
      (lineAt ((c.access a w).1.setAt k) j).lru
        = if k = c.setIndexOf a then (lineAt (c.setAt k) j).lru + 1
          else (lineAt (c.setAt k) j).lru) := by
  unfold Cache.touchedWay
  cases hf : findWay c.associativity (c.setAt (c.setIndexOf a)) (c.tagOf a) with
  | some i =>
    simp only []
    obtain ⟨h1, _, _, h4⟩ := access_hit_valid c a w i hf hwf k j
    rw [h1] at hv
    have h5 := h4 hv
    by_cases hks : k = c.setIndexOf a
    · by_cases hji : j = i
      · left
        rw [if_pos hks, if_pos hji] at h5
        exact ⟨hks, hji, h5⟩
      · right
        rw [if_pos hks, if_neg hji] at h5
        exact ⟨fun hc => hji hc.2, hv, by rw [if_pos hks]; exact h5⟩
    · right
      rw [if_neg hks] at h5 ⊢
      exact ⟨fun hc => hks hc.1, hv, h5⟩
  | none =>
    simp only []
    rcases access_miss_valid c a w hf hwf k j hv with ⟨h1, h2, _, _, h5⟩ | ⟨h1, h2, _, _, h5⟩
    · left; exact ⟨h1, h2, h5⟩
    · right; exact ⟨h1, h2, h5⟩

/-- Every call keeps the counters of the valid lines distinct and non-negative. -/
theorem distinctCounters_step (c : Cache) (op : Op)
    (h : c.WellFormed ∧ c.DistinctCounters) :
    (c.step op).1.WellFormed ∧ (c.step op).1.DistinctCounters := by
  obtain ⟨hwf, hd, hnn⟩ := h
  refine ⟨wellFormed_step c op hwf, ?_, ?_⟩
  · intro k i j hvi hvj hlru
    cases op with
    | access a w =>
      simp only [Cache.step] at hvi hvj hlru
      rcases access_valid_lru c a w hwf k i hvi with ⟨_, hi2, hi3⟩ | ⟨hi1, hi2, hi3⟩ <;>
        rcases access_valid_lru c a w hwf k j hvj with ⟨hj1, hj2, hj3⟩ | ⟨hj1, hj2, hj3⟩
      · rw [hi2, hj2]
      · exfalso
        rw [hi3, hj3, if_pos (by assumption)] at hlru
        have := hnn k j hj2
        omega
      · exfalso
        rw [hi3, hj3, if_pos hj1] at hlru
        have := hnn k i hi2
        omega
      · rw [hi3, hj3] at hlru
        apply hd k i j hi2 hj2
        split at hlru <;> omega
    | evict a =>
      simp only [Cache.step] at hvi hvj hlru
      rw [evict_line] at hvi hvj hlru
      rw [evict_line] at hlru
      split at hvi
      · simp at hvi
      · split at hvj
        · simp at hvj
        · rename_i h1 h2
          rw [if_neg h1, if_neg h2] at hlru
          exact hd k i j hvi hvj hlru
    | clearCache =>
      simp only [Cache.step] at hvi
      rw [setAt_clearCache, (lineAt_cleared _ i).1] at hvi
      exact absurd hvi (by decide)
  · intro k i hvi
    cases op with
    | access a w =>
      simp only [Cache.step] at hvi ⊢
      rcases access_valid_lru c a w hwf k i hvi with ⟨_, _, hi3⟩ | ⟨_, hi2, hi3⟩
      · rw [hi3]
      · rw [hi3]
        have := hnn k i hi2
        split <;> omega
    | evict a =>
      simp only [Cache.step] at hvi ⊢
      rw [evict_line] at hvi ⊢
      split at hvi
      · simp at hvi
      · rename_i h1
        rw [if_neg h1]
        exact hnn k i hvi
    | clearCache =>
      simp only [Cache.step] at hvi
      rw [setAt_clearCache, (lineAt_cleared _ i).1] at hvi
      exact absurd hvi (by decide)

theorem distinctCounters_new (numSets assoc blockSize : Nat) (wt : Bool) :
    (Cache.new numSets assoc blockSize wt).DistinctCounters := by
  constructor
  · intro k i j hvi
    rw [lineAt_new] at hvi
    exact absurd hvi (by decide)
  · intro k i hvi
    rw [lineAt_new] at hvi
    exact absurd hvi (by decide)

/-- The counter of a valid line equals the history counter of its way. -/
theorem accessesSinceTouch_counter (k i : Nat) :
    ∀ (ops : List Op) (c : Cache) (acc : Option Nat), c.WellFormed →
      ((lineAt (c.setAt k) i).valid = true →
        ∃ n : Nat, acc = some n ∧ (lineAt (c.setAt k) i).lru = (n : Int)) →
      (lineAt ((c.exec ops).setAt k) i).valid = true →
      ∃ n : Nat, accessesSinceTouch k i c ops acc = some n ∧
        (lineAt ((c.exec ops).setAt k) i).lru = (n : Int) := by
  intro ops
  induction ops with
  | nil => intro c acc _ h hv; exact h hv
  | cons op ops ih =>
    intro c acc hwf h hv
    cases op with
    | access a w =>
      simp only [Cache.exec, Cache.step, accessesSinceTouch] at hv ⊢
      apply ih _ _ (wellFormed_step c (Op.access a w) hwf) _ hv
      intro hv2
      change (lineAt ((c.access a w).1.setAt k) i).valid = true at hv2
      show ∃ n : Nat, _ ∧ (lineAt ((c.access a w).1.setAt k) i).lru = (n : Int)
      rcases access_valid_lru c a w hwf k i hv2 with ⟨h1, h2, h3⟩ | ⟨h1, h2, h3⟩
      · rw [if_pos h1.symm, if_pos h2.symm]
        exact ⟨0, rfl, by rw [h3]; rfl⟩
      · obtain ⟨n, hn, hl⟩ := h h2
        by_cases hks : k = c.setIndexOf a
        · have hne : ¬ c.touchedWay a = i := fun hc => h1 ⟨hks, hc.symm⟩
          rw [if_pos hks.symm, if_neg hne, hn]
          refine ⟨n + 1, rfl, ?_⟩
          rw [h3, if_pos hks, hl]
          push_cast
          rfl
        · rw [if_neg (fun hc => hks hc.symm)]
          refine ⟨n, hn, ?_⟩
          rw [h3, if_neg hks, hl]
    | evict a =>
      simp only [Cache.exec, Cache.step, accessesSinceTouch] at hv ⊢
      apply ih _ _ (wellFormed_step c (Op.evict a) hwf) _ hv
      intro hv2
      change (lineAt ((c.evict a).setAt k) i).valid = true at hv2
      show ∃ n : Nat, _ ∧ (lineAt ((c.evict a).setAt k) i).lru = (n : Int)
      rw [evict_line] at hv2 ⊢
      split at hv2
      · simp at hv2
      · rename_i h1
        rw [if_neg h1]
        exact h hv2
    | clearCache =>
      simp only [Cache.exec, Cache.step, accessesSinceTouch] at hv ⊢
      apply ih _ _ (wellFormed_step c Op.clearCache hwf) _ hv
      intro hv2
      change (lineAt (c.clearCache.setAt k) i).valid = true at hv2
      rw [setAt_clearCache, (lineAt_cleared _ i).1] at hv2
      exact absurd hv2 (by decide)

theorem reachable_distinctCounters (numSets assoc blockSize : Nat) (wt : Bool)
    (ops : List Op) :
    ((Cache.new numSets assoc blockSize wt).exec ops).WellFormed ∧
    ((Cache.new numSets assoc blockSize wt).exec ops).DistinctCounters :=
  exec_induction (fun c => c.WellFormed ∧ c.DistinctCounters) distinctCounters_step ops _
    ⟨wellFormed_new numSets assoc blockSize wt, distinctCounters_new numSets assoc blockSize wt⟩

/-- In a full set with distinct non-negative counters the victim carries the
strictly greatest counter. -/
theorem full_set_victim_strict (c : Cache) (hd : c.DistinctCounters) (k : Nat)
    (hfull : ∀ i, i < c.associativity → (lineAt (c.setAt k) i).valid = true) (j : Nat)
    (hj : j < c.associativity) (hne : j ≠ findLRUIndex c.associativity (c.setAt k)) :
    (lineAt (c.setAt k) j).lru
      < (lineAt (c.setAt k) (findLRUIndex c.associativity (c.setAt k))).lru := by
  obtain ⟨hv, hmax, _⟩ := findLRUIndex_full c.associativity (c.setAt k) (by omega) hfull
    (fun i hi => hd.2 k i (hfull i hi))
  have hle := hmax j hj
  have hneq : (lineAt (c.setAt k) j).lru
      ≠ (lineAt (c.setAt k) (findLRUIndex c.associativity (c.setAt k))).lru :=
    fun hc => hne (hd.1 k _ _ (hfull j hj) (hfull _ hv) hc)
  omega

/-- C19: in every cache state reachable from a freshly constructed cache by a finite
sequence of `access`, `evict` and `clearCache` calls (counters unbounded), the valid
lines of each set have pairwise distinct, non-negative recency counters, each equal
to the number of accesses to that set since the line was last hit or inserted;
consequently in a full set the victim of `findLRUIndex` carries the strictly
greatest counter, so its lowest-index tie-break is never exercised. -/
theorem recency_counters_count_accesses (numSets assoc blockSize : Nat) (wt : Bool)
    (ops : List Op) :
    (∀ k i j, (lineAt (((Cache.new numSets assoc blockSize wt).exec ops).setAt k) i).valid = true →
      (lineAt (((Cache.new numSets assoc blockSize wt).exec ops).setAt k) j).valid = true →
      (lineAt (((Cache.new numSets assoc blockSize wt).exec ops).setAt k) i).lru
        = (lineAt (((Cache.new numSets assoc blockSize wt).exec ops).setAt k) j).lru → i = j) ∧
    (∀ k i, (lineAt (((Cache.new numSets assoc blockSize wt).exec ops).setAt k) i).valid = true →
      0 ≤ (lineAt (((Cache.new numSets assoc blockSize wt).exec ops).setAt k) i).lru) ∧
    (∀ k i, (lineAt (((Cache.new numSets assoc blockSize wt).exec ops).setAt k) i).valid = true →
      ∃ n : Nat,
        accessesSinceTouch k i (Cache.new numSets assoc blockSize wt) ops none = some n ∧
        (lineAt (((Cache.new numSets assoc blockSize wt).exec ops).setAt k) i).lru = (n : Int)) ∧
    (∀ k, (∀ i, i < assoc →
        (lineAt (((Cache.new numSets assoc blockSize wt).exec ops).setAt k) i).valid = true) →
      ∀ j, j < assoc →
        j ≠ findLRUIndex assoc (((Cache.new numSets assoc blockSize wt).exec ops).setAt k) →
        (lineAt (((Cache.new numSets assoc blockSize wt).exec ops).setAt k) j).lru
          < (lineAt (((Cache.new numSets assoc blockSize wt).exec ops).setAt k)
              (findLRUIndex assoc
                (((Cache.new numSets assoc blockSize wt).exec ops).setAt k))).lru) := by
  obtain ⟨_, hd⟩ := reachable_distinctCounters numSets assoc blockSize wt ops
  have g2 : ((Cache.new numSets assoc blockSize wt).exec ops).associativity = assoc :=
    (exec_config ops (Cache.new numSets assoc blockSize wt)).2.1
  refine ⟨hd.1, hd.2, ?_, ?_⟩
  · intro k i hv
    apply accessesSinceTouch_counter k i ops _ none (wellFormed_new _ _ _ _) _ hv
    intro hv0
    rw [lineAt_new] at hv0
    exact absurd hv0 (by decide)
  · intro k hfull j hj hne
    have := full_set_victim_strict _ hd k (by rw [g2]; exact hfull) j (by rw [g2]; exact hj)
      (by rw [g2]; exact hne)
    rw [g2] at this
    exact this

/-! # Dirty lines and write-backs -/

/-- A write-back is signalled exactly on a miss in write-back mode whose victim is
valid and dirty. -/
theorem writeBack_isSome_iff (c : Cache) (a : Nat) (w : Bool) :
    (c.access a w).2.writeBack.isSome = true ↔
      ((c.access a w).2.hit = false ∧ c.isWriteThrough = false ∧
        (c.victim a).valid = true ∧ (c.victim a).dirty = true) := by
  unfold Cache.victim
  cases hf : findWay c.associativity (c.setAt (c.setIndexOf a)) (c.tagOf a) with
  | some i =>
    rw [access_hit_eq c a w i hf]
    simp
  | none =>
    rw [access_miss_eq c a w hf]
    cases (lineAt (c.setAt (c.setIndexOf a))
        (findLRUIndex c.associativity (c.setAt (c.setIndexOf a)))).valid <;>
      cases (lineAt (c.setAt (c.setIndexOf a))
        (findLRUIndex c.associativity (c.setAt (c.setIndexOf a)))).dirty <;>
      cases c.isWriteThrough <;> simp

/-- In write-back mode the dirty flag of a valid line equals the history flag of
its block. -/
theorem writtenSinceInsert_dirty (k t : Nat) :
    ∀ (ops : List Op) (c : Cache) (acc : Option Bool), c.WellFormed → c.UniqueTags →
      c.isWriteThrough = false →
      (∀ i, (lineAt (c.setAt k) i).valid = true → (lineAt (c.setAt k) i).tag = t →
        acc = some (lineAt (c.setAt k) i).dirty) →
      ∀ i, (lineAt ((c.exec ops).setAt k) i).valid = true →
        (lineAt ((c.exec ops).setAt k) i).tag = t →
        writtenSinceInsert k t c ops acc = some (lineAt ((c.exec ops).setAt k) i).dirty := by
  intro ops
  induction ops with
  | nil => intro c acc _ _ _ h i hv ht; exact h i hv ht
  | cons op ops ih =>
    intro c acc hwf hu hwt h i hv ht
    obtain ⟨hwf2, hu2⟩ := uniqueTags_step c op ⟨hwf, hu⟩
    have hwt2 : (c.step op).1.isWriteThrough = false := by
      rw [(step_config c op).2.2.2.1]; exact hwt
    cases op with
    | access a w =>
      simp only [Cache.exec, Cache.step, writtenSinceInsert] at hv ht ⊢
      apply ih _ _ hwf2 hu2 hwt2 _ i hv ht
      intro j hvj htj
      change (lineAt ((c.access a w).1.setAt k) j).valid = true at hvj
      change (lineAt ((c.access a w).1.setAt k) j).tag = t at htj
      show _ = some (lineAt ((c.access a w).1.setAt k) j).dirty
      cases hf : findWay c.associativity (c.setAt (c.setIndexOf a)) (c.tagOf a) with
      | some i0 =>
        obtain ⟨h1, h2, h3, _⟩ := access_hit_valid c a w i0 hf hwf k j
        rw [h1] at hvj
        rw [h2] at htj
        have hacc := h j hvj htj
        have hhit : (c.access a w).2.hit = true := by rw [access_hit_eq c a w i0 hf]
        obtain ⟨_, hv0, ht0⟩ := findWay_some _ _ _ _ hf
        by_cases hcond : c.setIndexOf a = k ∧ c.tagOf a = t
        · obtain ⟨hk, hta⟩ := hcond
          subst hk
          have hji : j = i0 := hu _ j i0 hvj hv0 (by rw [htj, ht0, hta])
          rw [if_pos ⟨rfl, hta⟩, if_pos hhit, hacc, h3, if_pos ⟨rfl, hji⟩, hwt]
          simp
        · rw [if_neg hcond, hacc, h3]
          have hne : ¬ (k = c.setIndexOf a ∧ j = i0) := by
            rintro ⟨hk, hji⟩
            apply hcond
            refine ⟨hk.symm, ?_⟩
            rw [← ht0, ← htj, hji, hk]
          rw [if_neg hne]
      | none =>
        have hhit : ¬ (c.access a w).2.hit = true := by
          rw [access_miss_eq c a w hf]; simp
        rcases access_miss_valid c a w hf hwf k j hvj with
          ⟨hk, _, htag, hdirty, _⟩ | ⟨_, hvold, htag, hdirty, _⟩
        · rw [if_pos ⟨hk.symm, by rw [← htag, htj]⟩, if_neg hhit, hdirty, hwt]
          simp
        · rw [htag] at htj
          have hcond : ¬ (c.setIndexOf a = k ∧ c.tagOf a = t) := by
            rintro ⟨hk, hta⟩
            subst hk
            exact (findWay_eq_none _ _ _).mp hf j (valid_lt_associativity c hwf _ j hvold)
              hvold (by rw [htj, hta])
          rw [if_neg hcond, hdirty]
          exact h j hvold htj
    | evict a =>
      simp only [Cache.exec, Cache.step, writtenSinceInsert] at hv ht ⊢
      apply ih _ _ hwf2 hu2 hwt2 _ i hv ht
      intro j hvj htj
      change (lineAt ((c.evict a).setAt k) j).valid = true at hvj
      change (lineAt ((c.evict a).setAt k) j).tag = t at htj
      show _ = some (lineAt ((c.evict a).setAt k) j).dirty
      rw [evict_line] at hvj htj ⊢
      split at hvj
      · simp at hvj
      · rename_i h1
        rw [if_neg h1] at htj ⊢
        exact h j hvj htj
    | clearCache =>
      simp only [Cache.exec, Cache.step, writtenSinceInsert] at hv ht ⊢
      apply ih _ _ hwf2 hu2 hwt2 _ i hv ht
      intro j hvj _
      change (lineAt (c.clearCache.setAt k) j).valid = true at hvj
      rw [setAt_clearCache, (lineAt_cleared _ j).1] at hvj
      exact absurd hvj (by decide)

/-- C20: for a write-back cache and every finite sequence of `access`, `evict` and
`clearCache` calls from the freshly constructed state, a valid line is dirty if and
only if a write access to its block has occurred since, and including, the miss
that inserted it; hence a miss that replaces a valid block signals a write-back
exactly when that block has been written since its insertion (no written block is
replaced silently, no block that was only read is written back), and a write-back
is only signalled by a miss that replaces a valid block. -/
theorem dirty_iff_written_since_insert (numSets assoc blockSize : Nat) (ops : List Op) :
    (∀ k i, (lineAt (((Cache.new numSets assoc blockSize false).exec ops).setAt k) i).valid = true →
      writtenSinceInsert k
          (lineAt (((Cache.new numSets assoc blockSize false).exec ops).setAt k) i).tag
          (Cache.new numSets assoc blockSize false) ops none
        = some (lineAt (((Cache.new numSets assoc blockSize false).exec ops).setAt k) i).dirty) ∧
    (∀ a w, (((Cache.new numSets assoc blockSize false).exec ops).access a w).2.hit = false →
      (((Cache.new numSets assoc blockSize false).exec ops).victim a).valid = true →
      ((((Cache.new numSets assoc blockSize false).exec ops).access a w).2.writeBack.isSome = true ↔
        writtenSinceInsert (((Cache.new numSets assoc blockSize false).exec ops).setIndexOf a)
            (((Cache.new numSets assoc blockSize false).exec ops).victim a).tag
            (Cache.new numSets assoc blockSize false) ops none
          = some true)) ∧
    (∀ a w,
      (((Cache.new numSets assoc blockSize false).exec ops).access a w).2.writeBack.isSome = true →
      (((Cache.new numSets assoc blockSize false).exec ops).access a w).2.hit = false ∧
      (((Cache.new numSets assoc blockSize false).exec ops).victim a).valid = true) := by
  have hwt : ((Cache.new numSets assoc blockSize false).exec ops).isWriteThrough = false :=
    (exec_config ops (Cache.new numSets assoc blockSize false)).2.2.2
  have hdirty : ∀ k i,
      (lineAt (((Cache.new numSets assoc blockSize false).exec ops).setAt k) i).valid = true →
      writtenSinceInsert k
          (lineAt (((Cache.new numSets assoc blockSize false).exec ops).setAt k) i).tag
          (Cache.new numSets assoc blockSize false) ops none
        = some (lineAt (((Cache.new numSets assoc blockSize false).exec ops).setAt k) i).dirty := by
    intro k i hv
    apply writtenSinceInsert_dirty k _ ops _ none (wellFormed_new _ _ _ _)
      (uniqueTags_new _ _ _ _) rfl _ i hv rfl
    intro j hvj
    rw [lineAt_new] at hvj
    exact absurd hvj (by decide)
  refine ⟨hdirty, ?_, ?_⟩
  · intro a w hmiss hvalid
    have hw := hdirty _ _ hvalid
    rw [writeBack_isSome_iff]
    unfold Cache.victim at hvalid ⊢
    rw [hw]
    constructor
    · rintro ⟨_, _, _, hd⟩
      rw [hd]
    · intro hd
      exact ⟨hmiss, hwt, hvalid, Option.some.inj hd⟩
  · intro a w hwb
    obtain ⟨h1, _, h3, _⟩ := (writeBack_isSome_iff _ a w).mp hwb
    exact ⟨h1, h3⟩

/-! # Hits and prior insertions -/

theorem keepsLineAlong_append (k i t : Nat) (op : Op) :
    ∀ (xs : List Op) (c : Cache), c.keepsLineAlong k i t xs →
      (c.exec xs).keepsLine k i t op → c.keepsLineAlong k i t (xs ++ [op]) := by
  intro xs
  induction xs with
  | nil => intro c _ h; exact ⟨h, trivial⟩
  | cons x xs ih => intro c h1 h2; exact ⟨h1.1, ih _ h1.2 h2⟩

/-- In a well-formed state with unique tags the search finds every valid line. -/
theorem findWay_of_valid (c : Cache) (hwf : c.WellFormed) (hu : c.UniqueTags) (k t i : Nat)
    (hv : (lineAt (c.setAt k) i).valid = true) (ht : (lineAt (c.setAt k) i).tag = t) :
    findWay c.associativity (c.setAt k) t = some i := by
  obtain ⟨i2, hi2⟩ := findWay_isSome c.associativity _ t i
    (valid_lt_associativity c hwf k i hv) hv ht
  have h2 := findWay_some _ _ _ _ hi2
  rw [hi2, hu k i2 i h2.2.1 hv (by rw [h2.2.2, ht])]

theorem exec_snoc (c : Cache) (xs : List Op) (op : Op) :
    c.exec (xs ++ [op]) = ((c.exec xs).step op).1 := by
  rw [exec_append]
  rfl

/-- Every valid line of a state reached from a cache without valid lines was
inserted by an earlier miss on its set and tag, and no later call removed it. -/
theorem valid_line_history (c0 : Cache) (hwf0 : c0.WellFormed) (hu0 : c0.UniqueTags)
    (hempty : ∀ k i, (lineAt (c0.setAt k) i).valid = false) :
    ∀ (pre : List Op) (k i : Nat), (lineAt ((c0.exec pre).setAt k) i).valid = true →
      ∃ (pre1 : List Op) (a : Nat) (w : Bool) (post : List Op),
        pre = pre1 ++ Op.access a w :: post ∧
        ((c0.exec pre1).access a w).2.hit = false ∧
        (c0.exec pre1).setIndexOf a = k ∧
        (c0.exec pre1).tagOf a = (lineAt ((c0.exec pre).setAt k) i).tag ∧
        findLRUIndex (c0.exec pre1).associativity ((c0.exec pre1).setAt k) = i ∧
        ((c0.exec pre1).access a w).1.keepsLineAlong k i
          (lineAt ((c0.exec pre).setAt k) i).tag post := by
  intro pre
  induction pre using List.reverseRecOn with
  | nil =>
    intro k i hv
    rw [show c0.exec [] = c0 from rfl, hempty k i] at hv
    exact absurd hv (by decide)
  | append_singleton pre op ih =>
    intro k i hv
    have hinv : (c0.exec pre).WellFormed ∧ (c0.exec pre).UniqueTags :=
      exec_induction (fun c => c.WellFormed ∧ c.UniqueTags) uniqueTags_step pre c0 ⟨hwf0, hu0⟩
    obtain ⟨hwf, hu⟩ := hinv
    rw [exec_snoc] at hv ⊢
    -- a line that was already valid with the same tag, and survives `op`
    have extend : (lineAt ((c0.exec pre).setAt k) i).valid = true →
        (lineAt (((c0.exec pre).step op).1.setAt k) i).tag
          = (lineAt ((c0.exec pre).setAt k) i).tag →
        (c0.exec pre).keepsLine k i (lineAt ((c0.exec pre).setAt k) i).tag op →
        ∃ (pre1 : List Op) (a : Nat) (w : Bool) (post : List Op),
          pre ++ [op] = pre1 ++ Op.access a w :: post ∧
          ((c0.exec pre1).access a w).2.hit = false ∧
          (c0.exec pre1).setIndexOf a = k ∧
          (c0.exec pre1).tagOf a = (lineAt (((c0.exec pre).step op).1.setAt k) i).tag ∧
          findLRUIndex (c0.exec pre1).associativity ((c0.exec pre1).setAt k) = i ∧
          ((c0.exec pre1).access a w).1.keepsLineAlong k i
            (lineAt (((c0.exec pre).step op).1.setAt k) i).tag post := by
      intro hvold htag hkeep
      obtain ⟨pre1, a, w, post, hpre, hmiss, hset, htg, hvic, hkeeps⟩ := ih k i hvold
      refine ⟨pre1, a, w, post ++ [op], ?_, hmiss, hset, ?_, hvic, ?_⟩
      · rw [hpre, List.append_assoc, List.cons_append]
      · rw [htag]; exact htg
      · rw [htag]
        apply keepsLineAlong_append k i _ op post _ hkeeps
        have hstate : ((c0.exec pre1).access a w).1.exec post = c0.exec pre := by
          conv_rhs => rw [hpre, exec_append]
          rfl
        rw [hstate]
        exact hkeep
    cases op with
    | access b w =>
      change (lineAt (((c0.exec pre).access b w).1.setAt k) i).valid = true at hv
      cases hf : findWay (c0.exec pre).associativity
          ((c0.exec pre).setAt ((c0.exec pre).setIndexOf b)) ((c0.exec pre).tagOf b) with
      | some i0 =>
        obtain ⟨h1, h2⟩ := access_hit_line (c0.exec pre) b w i0 hf k i
        rw [h1] at hv
        apply extend hv h2
        intro hc
        have := (access_hit_iff (c0.exec pre) b w).mpr ⟨i0, hf⟩
        rw [hc.1] at this
        exact absurd this (by decide)
      | none =>
        have hmiss : ((c0.exec pre).access b w).2.hit = false := by
          rw [access_miss_eq _ b w hf]
        rcases access_miss_valid (c0.exec pre) b w hf hwf k i hv with
          ⟨hk, hi, htag, _, _⟩ | ⟨hne, hvold, htag, _, _⟩
        · refine ⟨pre, b, w, [], rfl, hmiss, hk.symm, ?_, ?_, trivial⟩
          · exact htag.symm
          · rw [hi, hk]
        · apply extend hvold htag
          intro hc
          apply hne
          refine ⟨hc.2.1.symm, ?_⟩
          rw [← hc.2.2, hc.2.1]
    | evict b =>
      change (lineAt (((c0.exec pre).evict b).setAt k) i).valid = true at hv
      rw [evict_line] at hv
      split at hv
      · simp at hv
      · rename_i hcond
        apply extend hv
        · show (lineAt (((c0.exec pre).evict b).setAt k) i).tag = _
          rw [evict_line, if_neg hcond]
        · intro hc
          apply hcond
          refine ⟨hc.1.symm, ?_⟩
          have := findWay_of_valid (c0.exec pre) hwf hu k _ i hv rfl
          rw [hc.2, hc.1]
          exact this
    | clearCache =>
      change (lineAt ((c0.exec pre).clearCache.setAt k) i).valid = true at hv
      rw [setAt_clearCache, (lineAt_cleared _ i).1] at hv
      exact absurd hv (by decide)

/-- C17: for every finite sequence of `access`, `evict` and `clearCache` calls on a
freshly constructed cache, if the access that follows the calls `pre` hits on
address `a`, then `pre` contains an earlier access that missed on an address with
the same set index and tag as `a` (and so inserted that line), and none of the
calls after it is a `clearCache`, an `evict` of that set and tag, or a miss in the
same set that chose the way of that line as victim. -/
theorem hit_implies_prior_insertion (numSets assoc blockSize : Nat) (wt : Bool)
    (pre : List Op) (a : Nat) (w : Bool)
    (hhit : (((Cache.new numSets assoc blockSize wt).exec pre).access a w).2.hit = true) :
    ∃ (pre1 : List Op) (a1 : Nat) (w1 : Bool) (post : List Op),
      pre = pre1 ++ Op.access a1 w1 :: post ∧
      (((Cache.new numSets assoc blockSize wt).exec pre1).access a1 w1).2.hit = false ∧
      (Cache.new numSets assoc blockSize wt).setIndexOf a1
        = (Cache.new numSets assoc blockSize wt).setIndexOf a ∧
      (Cache.new numSets assoc blockSize wt).tagOf a1
        = (Cache.new numSets assoc blockSize wt).tagOf a ∧
      (((Cache.new numSets assoc blockSize wt).exec pre1).access a1 w1).1.keepsLineAlong
        ((Cache.new numSets assoc blockSize wt).setIndexOf a)
        (findLRUIndex assoc (((Cache.new numSets assoc blockSize wt).exec pre1).setAt
          ((Cache.new numSets assoc blockSize wt).setIndexOf a)))
        ((Cache.new numSets assoc blockSize wt).tagOf a) post := by
  obtain ⟨i, hi⟩ := (access_hit_iff _ a w).mp hhit
  obtain ⟨_, hv, ht⟩ := findWay_some _ _ _ _ hi
  obtain ⟨d1, d2, _⟩ := exec_decoders (Cache.new numSets assoc blockSize wt) pre a
  rw [d1] at hv ht
  rw [d2] at ht
  obtain ⟨pre1, a1, w1, post, hpre, hmiss, hset, htag, hvic, hkeeps⟩ :=
    valid_line_history (Cache.new numSets assoc blockSize wt) (wellFormed_new _ _ _ _)
      (uniqueTags_new _ _ _ _) (fun k j => by rw [lineAt_new]; rfl) pre _ i hv
  obtain ⟨e1, e2, _⟩ := exec_decoders (Cache.new numSets assoc blockSize wt) pre1 a1
  have g2 : ((Cache.new numSets assoc blockSize wt).exec pre1).associativity = assoc :=
    (exec_config pre1 (Cache.new numSets assoc blockSize wt)).2.1
  rw [ht] at htag hkeeps
  rw [e1] at hset
  rw [e2] at htag
  rw [g2] at hvic
  refine ⟨pre1, a1, w1, post, hpre, hmiss, hset, htag, ?_⟩
  rw [hvic]
  exact hkeeps

/-- Witness of `hit_implies_prior_insertion`: 2 sets, 2 ways, 64-byte blocks; after
write `0x00`, write `0x80` the read of `0x00` hits. -/
theorem hit_implies_prior_insertion_witness :
    (((Cache.new 2 2 64 false).exec [Op.access 0 true, Op.access 0x80 true]).access
        0 false).2.hit = true ∧
    ∃ (pre1 : List Op) (a1 : Nat) (w1 : Bool) (post : List Op),
      [Op.access 0 true, Op.access 0x80 true] = pre1 ++ Op.access a1 w1 :: post ∧
      (((Cache.new 2 2 64 false).exec pre1).access a1 w1).2.hit = false ∧
      (Cache.new 2 2 64 false).setIndexOf a1 = (Cache.new 2 2 64 false).setIndexOf 0 ∧
      (Cache.new 2 2 64 false).tagOf a1 = (Cache.new 2 2 64 false).tagOf 0 ∧
      (((Cache.new 2 2 64 false).exec pre1).access a1 w1).1.keepsLineAlong
        ((Cache.new 2 2 64 false).setIndexOf 0)
        (findLRUIndex 2 (((Cache.new 2 2 64 false).exec pre1).setAt
          ((Cache.new 2 2 64 false).setIndexOf 0)))
        ((Cache.new 2 2 64 false).tagOf 0) post :=
  ⟨by decide,
    hit_implies_prior_insertion 2 2 64 false [Op.access 0 true, Op.access 0x80 true] 0 false
      (by decide)⟩

/-! # The history functions on a sample sequence -/

/-- Sample run (2 sets, 2 ways, 64-byte blocks): read `0x00`, read `0x80`, write
`0x00`, read `0x40`, evict `0x80`, read `0x100`.  Way 0 of set 0 holds the written
block of tag 0, last touched one access to set 0 ago; way 1 holds the block of tag 2,
only read and just inserted. -/
theorem history_sample :
    ((Cache.new 2 2 64 false).exec
        [Op.access 0 false, Op.access 0x80 false, Op.access 0 true, Op.access 0x40 false,
          Op.evict 0x80, Op.access 0x100 false]).setAt 0
      = [{ valid := true, dirty := true, tag := 0, offset := 0, lru := 1 },
         { valid := true, dirty := false, tag := 2, offset := 0, lru := 0 }] ∧
    writtenSinceInsert 0 0 (Cache.new 2 2 64 false)
        [Op.access 0 false, Op.access 0x80 false, Op.access 0 true, Op.access 0x40 false,
          Op.evict 0x80, Op.access 0x100 false] none = some true ∧
    writtenSinceInsert 0 2 (Cache.new 2 2 64 false)
        [Op.access 0 false, Op.access 0x80 false, Op.access 0 true, Op.access 0x40 false,
          Op.evict 0x80, Op.access 0x100 false] none = some false ∧
    accessesSinceTouch 0 0 (Cache.new 2 2 64 false)
        [Op.access 0 false, Op.access 0x80 false, Op.access 0 true, Op.access 0x40 false,
          Op.evict 0x80, Op.access 0x100 false] none = some 1 ∧
    accessesSinceTouch 0 1 (Cache.new 2 2 64 false)
        [Op.access 0 false, Op.access 0x80 false, Op.access 0 true, Op.access 0x40 false,
          Op.evict 0x80, Op.access 0x100 false] none = some 0 := by
  decide

/-- C3: for every cache state reached from a freshly constructed cache by calls with
32-bit addresses (block size a power of two, that is a divisor of `2 ^ 32`; geometry
representable) and every call `access(address, isWrite)`: a write-back is signalled
exactly when the access misses, the cache is in write-back mode and the victim line
chosen by `findLRUIndex` is valid and dirty before the access; and in that case the
reported address equals `(victim.tag * numSets + setIndex) * blockSize + offset` with
the set index and offset of the new access (the 32-bit computation does not wrap),
so that it decodes under the same geometry to the victim's tag, the accessed set
index and the byte offset of the new access. -/
theorem writeBack_signal_and_decode (numSets assoc blockSize : Nat) (wt : Bool)
    (ops : List Op) (a : Nat) (w : Bool) (hops : ∀ op ∈ ops, op.InRange)
    (hs : 1 ≤ numSets) (hp : blockSize * numSets < 2 ^ 32) (hdvd : blockSize ∣ 2 ^ 32) :
    ((((Cache.new numSets assoc blockSize wt).exec ops).access a w).2.writeBack.isSome = true ↔
      ((((Cache.new numSets assoc blockSize wt).exec ops).access a w).2.hit = false ∧
        ((Cache.new numSets assoc blockSize wt).exec ops).isWriteThrough = false ∧
        (((Cache.new numSets assoc blockSize wt).exec ops).victim a).valid = true ∧
        (((Cache.new numSets assoc blockSize wt).exec ops).victim a).dirty = true)) ∧
    (∀ ea, (((Cache.new numSets assoc blockSize wt).exec ops).access a w).2.writeBack = some ea →
      ea = ((((Cache.new numSets assoc blockSize wt).exec ops).victim a).tag
              * ((Cache.new numSets assoc blockSize wt).exec ops).numSets
            + ((Cache.new numSets assoc blockSize wt).exec ops).setIndexOf a)
            * ((Cache.new numSets assoc blockSize wt).exec ops).blockSize
          + ((Cache.new numSets assoc blockSize wt).exec ops).offsetOf a ∧
      ((Cache.new numSets assoc blockSize wt).exec ops).tagOf ea
        = (((Cache.new numSets assoc blockSize wt).exec ops).victim a).tag ∧
      ((Cache.new numSets assoc blockSize wt).exec ops).setIndexOf ea
        = ((Cache.new numSets assoc blockSize wt).exec ops).setIndexOf a ∧
      ((Cache.new numSets assoc blockSize wt).exec ops).offsetOf ea
        = ((Cache.new numSets assoc blockSize wt).exec ops).offsetOf a) := by
  have hdec := reachable_writeBack_decodes numSets assoc blockSize wt ops a w hops hs hp hdvd
  obtain ⟨g1, _, g3, _⟩ := exec_config ops (Cache.new numSets assoc blockSize wt)
  have g1b : ((Cache.new numSets assoc blockSize wt).exec ops).numSets = numSets := g1
  have g3b : ((Cache.new numSets assoc blockSize wt).exec ops).blockSize = blockSize := g3
  have hb : 1 ≤ blockSize := by
    rcases Nat.eq_zero_or_pos blockSize with h0 | h0
    · rw [h0] at hdvd
      have := Nat.eq_zero_of_zero_dvd hdvd
      norm_num at this
    · exact h0
  obtain ⟨hiff, haddr⟩ := writeBack_characterisation
    ((Cache.new numSets assoc blockSize wt).exec ops) a w (by rw [g3b]; exact hb)
    (by rw [g1b]; exact hs) (by rw [g1b, g3b]; exact hp)
  refine ⟨hiff, ?_⟩
  intro ea hea
  obtain ⟨h1, h2⟩ := haddr ea hea
  have hd := hdec ea hea
  refine ⟨?_, hd⟩
  rw [h1]
  exact Nat.mod_eq_of_lt (h2.mp hd)

/-- Witness of `writeBack_signal_and_decode`: in the 2-way write-back cache with 2
sets of 64-byte blocks, after writing `0x00` and `0x80`, a write to `0x100` signals a
write-back of address `0x00`, which decodes to tag 0, set 0, offset 0. -/
theorem writeBack_signal_and_decode_witness :
    (((Cache.new 2 2 64 false).exec [Op.access 0 true, Op.access 0x80 true]).access
        0x100 true).2.writeBack = some 0 ∧
    ((Cache.new 2 2 64 false).exec [Op.access 0 true, Op.access 0x80 true]).tagOf 0
      = (((Cache.new 2 2 64 false).exec [Op.access 0 true, Op.access 0x80 true]).victim
          0x100).tag :=
  have h := writeBack_signal_and_decode 2 2 64 false [Op.access 0 true, Op.access 0x80 true]
    0x100 true
    (by
      intro op hop
      simp only [List.mem_cons, List.mem_singleton, List.not_mem_nil, or_false] at hop
      rcases hop with rfl | rfl
      · show 0 < wordSize
        decide
      · show 0x80 < wordSize
        decide)
    (by decide) (by norm_num) ⟨2 ^ 26, by norm_num⟩
  ⟨by decide, (h.2 0 (by decide)).2.1⟩

/-! # The machine model: 32-bit counters and faults -/

/-- A value in the range of `int` is stored unchanged. -/
theorem wrapInt32_eq (x : Int) (h1 : -2 ^ 31 ≤ x) (h2 : x < 2 ^ 31) : wrapInt32 x = x := by
  unfold wrapInt32
  rw [Int.emod_eq_of_lt (by omega) (by omega)]
  omega

/-- Incrementing the largest `int` gives the smallest one. -/
theorem wrapInt32_max : wrapInt32 (2147483647 + 1) = -2147483648 := by decide

theorem bumpLine32_eq (k : Nat) (A : List CacheLine) (i : Nat)
    (h : (lineAt A i).valid = true →
      wrapInt32 ((lineAt A i).lru + 1) = (lineAt A i).lru + 1) :
    bumpLine32 k A i = bumpLine k A i := by
  unfold bumpLine32 bumpLine
  by_cases hc : i ≠ k ∧ (lineAt A i).valid = true
  · rw [if_pos hc, if_pos hc, h hc.2]
  · rw [if_neg hc, if_neg hc]

theorem foldl_bump32_eq (k : Nat) (s : List CacheLine)
    (h : ∀ j, (lineAt s j).valid = true →
      wrapInt32 ((lineAt s j).lru + 1) = (lineAt s j).lru + 1) (n : Nat) :
    (List.range n).foldl (bumpLine32 k) s = (List.range n).foldl (bumpLine k) s := by
  induction n with
  | zero => rfl
  | succ n ih =>
    rw [List.range_succ, List.foldl_append, List.foldl_append, ih]
    simp only [List.foldl_cons, List.foldl_nil]
    have hline : lineAt ((List.range n).foldl (bumpLine k) s) n = lineAt s n := by
      rw [lineAt_foldl_bump]
      simp
    apply bumpLine32_eq
    rw [hline]
    exact h n

/-- While no counter of a valid line is at the largest `int`, `updateLRU` on the
machine is `updateLRU` with unbounded counters. -/
theorem updateLRU32_eq (n : Nat) (s : List CacheLine) (k : Nat)
    (h : ∀ j, (lineAt s j).valid = true →
      wrapInt32 ((lineAt s j).lru + 1) = (lineAt s j).lru + 1) :
    updateLRU32 n s k = updateLRU n s k := by
  unfold updateLRU32 updateLRU
  rw [foldl_bump32_eq k s h n]

/-- While the geometry is sound and every counter is below the largest `int`, a call
of `access` on the machine does not fault and is the call with unbounded counters. -/
theorem access32_eq (c : Cache) (a : Nat) (w : Bool) (hwf : c.WellFormed)
    (hb : 1 ≤ c.blockSize) (hn : 1 ≤ c.numSets) (ha : 1 ≤ c.associativity)
    (hd : c.tagDivisor ≠ 0) (m : Nat) (hm : c.CountersBelow m) (hm2 : m + 1 < 2 ^ 31) :
    c.access32 a w = some (c.access a w) := by
  have hk := setIndexOf_lt c a hn
  have hlen := wellFormed_setAt c hwf _ hk
  have hbound : ∀ j, (lineAt (c.setAt (c.setIndexOf a)) j).valid = true →
      wrapInt32 ((lineAt (c.setAt (c.setIndexOf a)) j).lru + 1)
        = (lineAt (c.setAt (c.setIndexOf a)) j).lru + 1 := by
    intro j hv
    obtain ⟨h1, h2⟩ := hm.1 _ j hv
    exact wrapInt32_eq _ (by omega) (by omega)
  obtain ⟨_, ⟨hr1, hr2⟩, ⟨hw1, hw2⟩, ⟨hh1, hh2⟩, ⟨hm1, hm2b⟩⟩ := hm
  have hstats : c.stats.countAccess32 w = c.stats.countAccess w := by
    unfold CacheStats.countAccess32 CacheStats.countAccess
    cases w
    · simp only [Bool.false_eq_true, if_false]
      rw [wrapInt32_eq _ (by omega) (by omega)]
    · simp only [if_true]
      rw [wrapInt32_eq _ (by omega) (by omega)]
  have hhits : wrapInt32 ((c.stats.countAccess w).hits + 1) = (c.stats.countAccess w).hits + 1 := by
    have : (c.stats.countAccess w).hits = c.stats.hits := by
      unfold CacheStats.countAccess; cases w <;> rfl
    rw [this]
    exact wrapInt32_eq _ (by omega) (by omega)
  have hmisses : wrapInt32 ((c.stats.countAccess w).misses + 1)
      = (c.stats.countAccess w).misses + 1 := by
    have : (c.stats.countAccess w).misses = c.stats.misses := by
      unfold CacheStats.countAccess; cases w <;> rfl
    rw [this]
    exact wrapInt32_eq _ (by omega) (by omega)
  unfold Cache.access32 Cache.access
  rw [if_neg (by omega)]
  simp only []
  rw [if_neg (by rw [hwf.1, hlen]; omega), hstats]
  cases hf : findWay c.associativity (c.setAt (c.setIndexOf a)) (c.tagOf a) with
  | some i =>
    simp only []
    rw [hhits, updateLRU32_eq]
    intro j hv
    by_cases hwd : (w && !c.isWriteThrough) = true
    · rw [if_pos hwd] at hv ⊢
      rw [lineAt_set] at hv ⊢
      by_cases hij : i = j ∧ i < (c.setAt (c.setIndexOf a)).length
      · rw [if_pos hij] at hv ⊢
        exact hbound i hv
      · rw [if_neg hij] at hv ⊢
        exact hbound j hv
    · rw [if_neg hwd] at hv ⊢
      exact hbound j hv
  | none =>
    simp only []
    have hlt := findLRUIndex_lt c.associativity (c.setAt (c.setIndexOf a)) ha
    rw [if_neg (by rw [hlen]; omega), hmisses, updateLRU32_eq]
    intro j hv
    rw [lineAt_set] at hv ⊢
    by_cases hij : findLRUIndex c.associativity (c.setAt (c.setIndexOf a)) = j ∧
        findLRUIndex c.associativity (c.setAt (c.setIndexOf a)) < (c.setAt (c.setIndexOf a)).length
    · rw [if_pos hij]
      exact wrapInt32_eq _ (by norm_num) (by norm_num)
    · rw [if_neg hij] at hv ⊢
      exact hbound j hv

/-- While the geometry is sound, a call of `evict` on the machine does not fault. -/
theorem evict32_eq (c : Cache) (a : Nat) (hwf : c.WellFormed)
    (hb : 1 ≤ c.blockSize) (hn : 1 ≤ c.numSets) (hd : c.tagDivisor ≠ 0) :
    c.evict32 a = some (c.evict a) := by
  have hk := setIndexOf_lt c a hn
  have hlen := wellFormed_setAt c hwf _ hk
  unfold Cache.evict32 Cache.evict
  rw [if_neg (by omega)]
  simp only []
  rw [if_neg (by rw [hwf.1]; omega)]
  cases hf : findWay c.associativity (c.setAt (c.setIndexOf a)) (c.tagOf a) with
  | some i => rfl
  | none =>
    simp only []
    rw [if_neg (by rw [hlen]; omega)]

theorem countersBelow_new (numSets assoc blockSize : Nat) (wt : Bool) :
    (Cache.new numSets assoc blockSize wt).CountersBelow 0 := by
  refine ⟨?_, ?_⟩
  · intro k j hv
    rw [lineAt_new] at hv
    exact absurd hv (by decide)
  · exact ⟨⟨le_refl _, le_refl _⟩, ⟨le_refl _, le_refl _⟩, ⟨le_refl _, le_refl _⟩,
      ⟨le_refl _, le_refl _⟩⟩

theorem countersBelow_clearCache (c : Cache) (m : Nat) : c.clearCache.CountersBelow m := by
  refine ⟨?_, ?_⟩
  · intro k j hv
    rw [setAt_clearCache, (lineAt_cleared _ j).1] at hv
    exact absurd hv (by decide)
  · have h0 : (0 : Int) ≤ m := Int.ofNat_nonneg m
    exact ⟨⟨le_refl _, h0⟩, ⟨le_refl _, h0⟩, ⟨le_refl _, h0⟩, ⟨le_refl _, h0⟩⟩

theorem countersBelow_evict (c : Cache) (a : Nat) (m : Nat) (h : c.CountersBelow m) :
    (c.evict a).CountersBelow m := by
  refine ⟨?_, ?_⟩
  · intro k j hv
    rw [evict_line] at hv ⊢
    split at hv
    · exact absurd hv (by simp)
    · rename_i hc
      rw [if_neg hc]
      exact h.1 k j hv
  · rw [(evict_config c a).2.2.2.2.2]
    exact h.2

theorem countersBelow_access (c : Cache) (a : Nat) (w : Bool) (hwf : c.WellFormed) (m : Nat)
    (h : c.CountersBelow m) : (c.access a w).1.CountersBelow (m + 1) := by
  refine ⟨?_, ?_⟩
  · intro k j hv
    rcases access_valid_lru c a w hwf k j hv with ⟨_, _, h0⟩ | ⟨_, hv0, hl⟩
    · rw [h0]
      exact ⟨le_refl _, by push_cast; omega⟩
    · obtain ⟨h1, h2⟩ := h.1 k j hv0
      rw [hl]
      split
      · exact ⟨by omega, by push_cast; omega⟩
      · exact ⟨h1, by push_cast; omega⟩
  · obtain ⟨_, ⟨hr1, hr2⟩, ⟨hw1, hw2⟩, ⟨hh1, hh2⟩, ⟨hm1, hm2⟩⟩ := h
    unfold Cache.access
    simp only []
    split <;> cases w <;> simp [CacheStats.countAccess] <;> omega

/-- Along a run with fewer than `2 ^ 31` calls of `access` left to count, no call
faults on the machine and the decisions are those of the cache with unbounded
counters. -/
theorem decisions32_eq (ops : List Op) :
    ∀ (c : Cache) (m : Nat), c.WellFormed → 1 ≤ c.blockSize → 1 ≤ c.numSets →
      1 ≤ c.associativity → c.tagDivisor ≠ 0 → c.CountersBelow m →
      m + accessCount ops < 2 ^ 31 → c.decisions32 ops = some (c.decisions ops) := by
  induction ops with
  | nil => intro c m _ _ _ _ _ _ _; rfl
  | cons op ops ih =>
    intro c m hwf hb hn ha hd hm hc
    have hdiv : ∀ c1 : Cache, c1.numSets = c.numSets → c1.blockSize = c.blockSize →
        c1.tagDivisor ≠ 0 := by
      intro c1 h1 h2
      unfold Cache.tagDivisor at hd ⊢
      rw [h1, h2]
      exact hd
    cases op with
    | access a w =>
      simp only [accessCount] at hc
      obtain ⟨hc1, hc2, hc3, _, _⟩ := access_config c a w
      have hstep := access32_eq c a w hwf hb hn ha hd m hm (by omega)
      have hrest := ih (c.access a w).1 (m + 1)
        (wellFormed_step c (Op.access a w) hwf) (by rw [hc3]; exact hb) (by rw [hc1]; exact hn)
        (by rw [hc2]; exact ha) (hdiv _ hc1 hc3) (countersBelow_access c a w hwf m hm)
        (by omega)
      simp only [Cache.decisions32, Cache.decisions, hstep, hrest, Option.map_some']
    | evict a =>
      simp only [accessCount] at hc
      obtain ⟨hc1, hc2, hc3, _, _⟩ := evict_config c a
      have hstep := evict32_eq c a hwf hb hn hd
      have hrest := ih (c.evict a) m
        (wellFormed_step c (Op.evict a) hwf) (by rw [hc3]; exact hb) (by rw [hc1]; exact hn)
        (by rw [hc2]; exact ha) (hdiv _ hc1 hc3) (countersBelow_evict c a m hm) hc
      simp only [Cache.decisions32, Cache.decisions, Cache.step32, Cache.step, hstep, hrest]
    | clearCache =>
      simp only [accessCount] at hc
      obtain ⟨hc1, hc2, hc3, _, _⟩ := clearCache_config c
      have hrest := ih c.clearCache m
        (wellFormed_step c Op.clearCache hwf) (by rw [hc3]; exact hb) (by rw [hc1]; exact hn)
        (by rw [hc2]; exact ha) (hdiv _ hc1 hc3) (countersBelow_clearCache c m) hc
      simp only [Cache.decisions32, Cache.decisions, Cache.step32, Cache.step, hrest]

/-- C1 (amended): for every geometry with associativity, numSets and blockSize at least
1 and `blockSize * numSets` within the range of `int`, and every finite sequence of
`access`, `evict` and `clearCache` calls with fewer than `2 ^ 31` calls of `access`
(so that no 32-bit counter overflows), run on a freshly constructed cache: no call
faults, and the hit/miss outcome of every access and the block replaced on every miss
are those of the reference true-LRU cache that decodes addresses by the formulas of
the specification (`RefCache.decisions`: a hit moves the block to the front of its
set, a miss inserts it at the front and drops the last block of a full set, `evict`
removes the block, `clearCache` empties every set). -/
theorem lru_refinement_bounded (numSets assoc blockSize : Nat) (wt : Bool) (ops : List Op)
    (ha : 1 ≤ assoc) (hn : 1 ≤ numSets) (hb : 1 ≤ blockSize)
    (hp : blockSize * numSets < 2 ^ 31) (hc : accessCount ops < 2 ^ 31) :
    (Cache.new numSets assoc blockSize wt).decisions32 ops
      = some (RefCache.decisions numSets assoc blockSize (RefCache.new numSets) ops) := by
  have hp2 : blockSize * numSets < 2 ^ 32 := by omega
  have hd : (Cache.new numSets assoc blockSize wt).tagDivisor ≠ 0 := by
    show (blockSize * numSets) % wordSize ≠ 0
    have hp3 : blockSize * numSets < wordSize := hp2
    rw [Nat.mod_eq_of_lt hp3]
    exact Nat.pos_iff_ne_zero.mp (Nat.mul_pos hb hn)
  rw [decisions32_eq ops _ 0 (wellFormed_new numSets assoc blockSize wt) hb hn ha hd
    (countersBelow_new numSets assoc blockSize wt) (by omega)]
  rw [decisions_refine numSets assoc blockSize hn ha hp2 ops _ (RefCache.new numSets)
    (refines_new numSets assoc blockSize wt) rfl rfl rfl]

/-- Witness of `lru_refinement_bounded`: a 2-set 2-way cache with 64-byte blocks on a
run that fills set 0, replaces its least recently used block, evicts and clears. -/
theorem lru_refinement_bounded_witness :
    accessCount [Op.access 0 false, Op.access 0x80 true, Op.access 0 false,
        Op.access 0x100 false, Op.access 0x80 false, Op.evict 0x100, Op.access 0x40 true,
        Op.clearCache, Op.access 0 false] < 2 ^ 31 ∧
    (Cache.new 2 2 64 false).decisions32
        [Op.access 0 false, Op.access 0x80 true, Op.access 0 false,
          Op.access 0x100 false, Op.access 0x80 false, Op.evict 0x100, Op.access 0x40 true,
          Op.clearCache, Op.access 0 false]
      = some (RefCache.decisions 2 2 64 (RefCache.new 2)
        [Op.access 0 false, Op.access 0x80 true, Op.access 0 false,
          Op.access 0x100 false, Op.access 0x80 false, Op.evict 0x100, Op.access 0x40 true,
          Op.clearCache, Op.access 0 false]) ∧
    RefCache.decisions 2 2 64 (RefCache.new 2)
        [Op.access 0 false, Op.access 0x80 true, Op.access 0 false,
          Op.access 0x100 false, Op.access 0x80 false, Op.evict 0x100, Op.access 0x40 true,
          Op.clearCache, Op.access 0 false]
      = [(false, none), (false, none), (true, none), (false, some 1), (false, some 0),
          (false, none), (false, none)] :=
  ⟨by decide,
    lru_refinement_bounded 2 2 64 false _ (by decide) (by decide) (by decide) (by decide)
      (by decide),
    by decide⟩

/-! # Where the machine leaves the reference -/

/-- The machine decisions of a run that ends with an access: the last one is the
decision of that access in the state reached by the calls before it. -/
theorem decisions32_append_access (a : Nat) (w : Bool) (xs : List Op) :
    ∀ (c c1 : Cache) (out : Cache × AccessResult), c.exec32 xs = some c1 →
      c1.access32 a w = some out →
      ∃ ds, c.decisions32 (xs ++ [Op.access a w])
        = some (ds ++ [(out.2.hit, c1.replacedTag a)]) := by
  induction xs with
  | nil =>
    intro c c1 out h1 h2
    simp only [Cache.exec32, Option.some.injEq] at h1
    subst h1
    refine ⟨[], ?_⟩
    simp only [List.nil_append, Cache.decisions32, h2, Option.map_some']
  | cons op xs ih =>
    intro c c1 out h1 h2
    cases hs : c.step32 op with
    | none => simp only [Cache.exec32, hs] at h1; exact absurd h1 (by simp)
    | some c2 =>
      simp only [Cache.exec32, hs] at h1
      obtain ⟨ds, hds⟩ := ih c2 c1 out h1 h2
      cases op with
      | access a2 w2 =>
        cases ha : c.access32 a2 w2 with
        | none => simp [Cache.step32, ha] at hs
        | some out2 =>
          simp only [Cache.step32, ha, Option.map_some', Option.some.injEq] at hs
          refine ⟨(out2.2.hit, c.replacedTag a2) :: ds, ?_⟩
          rw [List.cons_append, List.cons_append]
          simp only [Cache.decisions32, ha, hs, hds, Option.map_some']
      | evict a2 =>
        refine ⟨ds, ?_⟩
        rw [List.cons_append]
        simp only [Cache.decisions32, hs, hds]
      | clearCache =>
        refine ⟨ds, ?_⟩
        rw [List.cons_append]
        simp only [Cache.decisions32, hs, hds]

/-- The reference decisions of a run that ends with an access. -/
theorem refDecisions_append_access (numSets assoc blockSize a : Nat) (w : Bool)
    (xs : List Op) : ∀ r : RefCache,
      RefCache.decisions numSets assoc blockSize r (xs ++ [Op.access a w])
        = RefCache.decisions numSets assoc blockSize r xs ++
          [(RefCache.access numSets assoc blockSize
            (RefCache.exec numSets assoc blockSize r xs) a).2] := by
  induction xs with
  | nil => intro r; rfl
  | cons op xs ih =>
    intro r
    cases op with
    | access a2 w2 =>
      rw [List.cons_append]
      simp only [List.cons_append, RefCache.decisions, RefCache.exec, ih]
    | evict a2 =>
      rw [List.cons_append]
      simp only [List.cons_append, RefCache.decisions, RefCache.exec, ih]
    | clearCache =>
      rw [List.cons_append]
      simp only [List.cons_append, RefCache.decisions, RefCache.exec, ih]

theorem range_two : List.range 2 = [0, 1] := rfl

/-- A hit on block 1 in `overflowState`: block 0 ages by one, as an `int`. -/
theorem overflowState_hit (m : Int) (st : CacheStats) :
    ∃ st1, (overflowState m st).step32 (Op.access 64 false)
      = some (overflowState (wrapInt32 (m + 1)) st1) := by
  refine ⟨⟨wrapInt32 (st.reads + 1), st.writes, wrapInt32 (st.hits + 1), st.misses⟩, ?_⟩
  simp [overflowState, Cache.step32, Cache.access32, Cache.tagDivisor, Cache.setIndexOf,
    Cache.tagOf, Cache.offsetOf, Cache.setAt, wordSize, findWay, updateLRU32, bumpLine32,
    lineAt, range_two, CacheStats.countAccess32]

/-- Hits on block 1 that bring the recency of block 0 to the largest `int`, and one
more: the recency of block 0 becomes the smallest `int`. -/
theorem overflowState_hits (n : Nat) : ∀ (m : Int) (st : CacheStats), 0 ≤ m →
    m + n = 2147483647 →
    ∃ st1, (overflowState m st).exec32 (List.replicate (n + 1) (Op.access 64 false))
      = some (overflowState (-2147483648) st1) := by
  induction n with
  | zero =>
    intro m st _ h
    have hm : m = 2147483647 := by simpa using h
    subst hm
    obtain ⟨st1, h1⟩ := overflowState_hit 2147483647 st
    refine ⟨st1, ?_⟩
    rw [wrapInt32_max] at h1
    simp only [List.replicate, Cache.exec32, h1]
  | succ n ih =>
    intro m st h0 h
    obtain ⟨st1, h1⟩ := overflowState_hit m st
    rw [wrapInt32_eq _ (by omega) (by push_cast at h; omega)] at h1
    obtain ⟨st2, h2⟩ := ih (m + 1) st1 (by omega) (by push_cast at h ⊢; omega)
    refine ⟨st2, ?_⟩
    rw [List.replicate_succ]
    simp only [Cache.exec32, h1]
    exact h2

/-- Once the recency of block 0 is negative, a miss replaces block 1, the block
accessed last: `findLRUIndex` starts from `maxLRU = -1`. -/
theorem overflowState_miss (st : CacheStats) :
    ∃ out, (overflowState (-2147483648) st).access32 128 false = some out ∧
      (out.2.hit, (overflowState (-2147483648) st).replacedTag 128) = (false, some 1) := by
  simp [overflowState, Cache.access32, Cache.tagDivisor, Cache.setIndexOf,
    Cache.tagOf, Cache.offsetOf, Cache.setAt, wordSize, findWay, updateLRU32, bumpLine32,
    lineAt, range_two, CacheStats.countAccess32, findLRUIndex, findLRULoop, Cache.replacedTag]

/-- The reference cache holding block 1 then block 0 is unchanged by hits on block 1. -/
theorem refCache_hits (n : Nat) :
    RefCache.exec 1 2 64 { sets := [[1, 0]] } (List.replicate n (Op.access 64 false))
      = { sets := [[1, 0]] } := by
  induction n with
  | zero => rfl
  | succ n ih =>
    rw [List.replicate_succ]
    simp only [RefCache.exec]
    have h : RefCache.step 1 2 64 { sets := [[1, 0]] } (Op.access 64 false)
        = { sets := [[1, 0]] } := by decide
    rw [h, ih]

/-- The machine on a run of the shape of `counterOverflowRun`. -/
theorem overflow_machine (n : Nat) (hn : (1 : Int) + n = 2147483647) :
    ∃ ds, (Cache.new 1 2 64 false).decisions32
        (Op.access 0 false :: Op.access 64 false ::
          (List.replicate (n + 1) (Op.access 64 false) ++ [Op.access 128 false]))
      = some (ds ++ [(false, some 1)]) := by
  have h0 : (Cache.new 1 2 64 false).exec32 [Op.access 0 false, Op.access 64 false]
      = some (overflowState 1 { reads := 2, writes := 0, hits := 0, misses := 2 }) := by
    decide
  obtain ⟨st1, h1⟩ := overflowState_hits n 1 { reads := 2, writes := 0, hits := 0, misses := 2 }
    (by decide) hn
  have h2 : (Cache.new 1 2 64 false).exec32
      (Op.access 0 false :: Op.access 64 false :: List.replicate (n + 1) (Op.access 64 false))
      = some (overflowState (-2147483648) st1) := by
    simp only [Cache.exec32] at h0 ⊢
    revert h0
    cases (Cache.new 1 2 64 false).step32 (Op.access 0 false) with
    | none => intro h0; exact absurd h0 (by simp)
    | some c1 =>
      simp only []
      cases c1.step32 (Op.access 64 false) with
      | none => intro h0; exact absurd h0 (by simp)
      | some c2 =>
        simp only [Option.some.injEq]
        intro h0
        rw [h0]
        exact h1
  obtain ⟨out, h3, h4⟩ := overflowState_miss st1
  obtain ⟨ds, hds⟩ := decisions32_append_access 128 false _ _ _ out h2 h3
  rw [h4] at hds
  exact ⟨ds, hds⟩

/-- The reference on a run of the shape of `counterOverflowRun`. -/
theorem overflow_reference (n : Nat) :
    ∃ ds, RefCache.decisions 1 2 64 (RefCache.new 1)
        (Op.access 0 false :: Op.access 64 false ::
          (List.replicate n (Op.access 64 false) ++ [Op.access 128 false]))
      = ds ++ [(false, some 0)] := by
  refine ⟨RefCache.decisions 1 2 64 (RefCache.new 1)
    (Op.access 0 false :: Op.access 64 false :: List.replicate n (Op.access 64 false)), ?_⟩
  have h := refDecisions_append_access 1 2 64 128 false
    (Op.access 0 false :: Op.access 64 false :: List.replicate n (Op.access 64 false))
    (RefCache.new 1)
  simp only [List.cons_append] at h
  rw [h]
  have h2 : RefCache.exec 1 2 64 (RefCache.new 1)
      (Op.access 0 false :: Op.access 64 false :: List.replicate n (Op.access 64 false))
      = { sets := [[1, 0]] } := by
    have h3 : RefCache.step 1 2 64
        (RefCache.step 1 2 64 (RefCache.new 1) (Op.access 0 false)) (Op.access 64 false)
        = { sets := [[1, 0]] } := by decide
    simp only [RefCache.exec]
    rw [h3]
    exact refCache_hits n
  rw [h2]
  have h4 : (RefCache.access 1 2 64 { sets := [[1, 0]] } 128).2 = (false, some 0) := by decide
  rw [h4]

/-- C1 (counterexample): the claim fails on the machine in two ways, both with
geometries made of powers of two.  With 65536 sets of 65536-byte blocks the divisor
`blockSize * numSets` of the tag is 0 as an `unsigned int`, so the first `access`
divides by zero and has no outcome, where the reference reports a miss.  With 1 set,
2 ways and 64-byte blocks, on `counterOverflowRun` the recency of block 0 is
incremented `2 ^ 31` times and overflows to the smallest `int`; the last access, a
miss, then replaces block 1, the block accessed most recently, where the reference
replaces block 0, the block whose last access is oldest. -/
theorem lru_refinement_fails_on_machine :
    (Cache.new 65536 1 65536 false).tagDivisor = 0 ∧
    (Cache.new 65536 1 65536 false).decisions32 [Op.access 0 false] = none ∧
    RefCache.decisions 65536 1 65536 (RefCache.new 65536) [Op.access 0 false]
      = [(false, none)] ∧
    ((Cache.new 1 2 64 false).decisions32 counterOverflowRun).map List.getLast?
      = some (some (false, some 1)) ∧
    (RefCache.decisions 1 2 64 (RefCache.new 1) counterOverflowRun).getLast?
      = some (false, some 0) ∧
    (Cache.new 1 2 64 false).decisions32 counterOverflowRun
      ≠ some (RefCache.decisions 1 2 64 (RefCache.new 1) counterOverflowRun) := by
  have hn : (2 : Nat) ^ 31 - 1 = 2147483646 + 1 := by norm_num
  obtain ⟨ds, hds⟩ := overflow_machine 2147483646 (by norm_num)
  obtain ⟨rs, hrs⟩ := overflow_reference (2147483646 + 1)
  have h4 : ((Cache.new 1 2 64 false).decisions32 counterOverflowRun).map List.getLast?
      = some (some (false, some 1)) := by
    unfold counterOverflowRun
    rw [hn, hds]
    simp
  have h5 : (RefCache.decisions 1 2 64 (RefCache.new 1) counterOverflowRun).getLast?
      = some (false, some 0) := by
    unfold counterOverflowRun
    rw [hn, hrs]
    simp
  refine ⟨by decide, by decide, by decide, h4, h5, ?_⟩
  intro h
  rw [h, Option.map_some', h5] at h4
  exact absurd h4 (by decide)

end CacheSimu
